import Mathlib

/-!
# Paged key/value cache manager

A shallow embedding of `ov::cache::CacheManager`
(`src/core/src/runtime/cache/cache_manager.cpp`): the constructor that reads the
cache geometry from the compiled model, `allocate_cache_if_needed` (growth with
content preservation) and `copy_blocks` (block duplication), and of
`MultinomialShapeInfer::infer`
(`src/plugins/intel_cpu/src/shape_inference/custom/multinomial.cpp`), followed by
the properties proved about them.

Conventions of the embedding.
* `size_t` values are natural numbers; arithmetic that can wrap is reduced
  modulo `2 ^ 64` (or `2 ^ 32` for `int`) where the source computes it.
* A tensor is a record of its identity, locality, element type, shape and bytes.
* An operation that can throw or run into undefined behaviour returns the state
  it had reached together with the fault, if any.
-/

/-! ## Library types used by the manager -/

/-- Modelled from the spec: the element precisions a cache input may declare
(`ov::element::Type`), full-width and "sub-8-bit, packed" ones. -/
inductive ElementType
  | boolean | bf16 | f16 | f32 | f64 | i4 | i8 | i16 | i32 | i64
  | u1 | u4 | u8 | u16 | u32 | u64 | nf4
  deriving DecidableEq

/-- Modelled from the spec: width of one element in bits (`ov::element::Type::bitwidth`). -/
def ElementType.bitwidth : ElementType → Nat
  | .boolean => 8
  | .bf16 => 16
  | .f16 => 16
  | .f32 => 32
  | .f64 => 64
  | .i4 => 4
  | .i8 => 8
  | .i16 => 16
  | .i32 => 32
  | .i64 => 64
  | .u1 => 1
  | .u4 => 4
  | .u8 => 8
  | .u16 => 16
  | .u32 => 32
  | .u64 => 64
  | .nf4 => 4

/-- Modelled from the spec: "element byte width" (`ov::element::Type::size`), the bit
width rounded up to whole bytes. -/
def ElementType.size (t : ElementType) : Nat := (t.bitwidth + 7) / 8

/-- What can go wrong in the embedded code. -/
inductive Fault
  | assertion      -- an OPENVINO_ASSERT does not hold
  | out_of_range   -- an index past the end of a vector or of a shape
  | dynamic_shape  -- get_length / get_shape on a dimension that is not static
  | bad_alloc      -- the tensor allocator throws
  | remote_data    -- data() asked of a tensor that is not host-addressable
  | out_of_bounds  -- a byte range outside the buffer it is taken from
  | bad_roi        -- a region of interest that does not fit the tensor
  deriving DecidableEq

/-- A static shape (`ov::Shape`, also `ov::Coordinate`). -/
abbrev Shape := List Nat

/-- A partial shape of static rank (`ov::PartialShape`): each dimension is a known
length or dynamic (`none`). -/
abbrev PartialShape := List (Option Nat)

/-- Modelled from the spec: a `CacheBuffer` (`ov::Tensor`): the identity of the
underlying memory region, whether it is device-exclusive (`ov::RemoteTensor`),
its element type and shape, and its content as bytes. -/
structure Tensor where
  id : Nat
  remote : Bool
  element_type : ElementType
  shape : Shape
  data : List Nat
  deriving DecidableEq

/-- Number of elements of a shape (`ov::shape_size`). -/
def shape_size (shape : Shape) : Nat := shape.foldl (· * ·) 1

/-- Modelled from the spec: bytes occupied by a tensor of the given type and shape
(`ov::Tensor::get_byte_size`): a logical element count E of a packed type occupies
E / packingMultiplier bytes, rounded up to a whole byte. -/
def byte_size (t : ElementType) (shape : Shape) : Nat := (shape_size shape * t.bitwidth + 7) / 8

/-- One model input: its names in iteration order, partial shape and element type. -/
structure Input where
  names : List String
  pshape : PartialShape
  element_type : ElementType

/-- The compiled model as the constructor reads it. -/
structure CompiledModel where
  execution_devices : List String
  inputs : List Input

/-- The inference request: its compiled model and the tensor currently bound to each
named input, most recent binding first (a binding refers to a buffer by identity). -/
structure InferRequest where
  compiled_model : CompiledModel
  tensors : List (String × Nat)

/-- Modelled from the spec: binding a buffer to a named input of the request
(`ov::InferRequest::set_tensor`), "so the next execution reads the refreshed buffer
identities". -/
def InferRequest.set_tensor (r : InferRequest) (name : String) (t : Tensor) : InferRequest :=
  { r with tensors := (name, t.id) :: r.tensors }

/-- The buffer bound to a named input, if any (`ov::InferRequest::get_tensor`). -/
def InferRequest.get_tensor (r : InferRequest) (name : String) : Option Nat :=
  r.tensors.lookup name

/-! ## Machine arithmetic -/

/-- Conversion of a (possibly negative) `int` to `size_t`. -/
def to_size_t (z : Int) : Nat := (z % (2 ^ 64 : Int)).toNat

/-- Conversion of a `size_t` to `int`: the low 32 bits in two's complement. -/
def to_int (n : Nat) : Int :=
  if n % 2 ^ 32 < 2 ^ 31 then ((n % 2 ^ 32 : Nat) : Int) else ((n % 2 ^ 32 : Nat) : Int) - 2 ^ 32

/-- The call `std::accumulate(first, last, 1, std::multiplies<size_t>())`: the
accumulator has the type of the initial value, `int`; each step multiplies in
`size_t` and stores the product back into the `int`. -/
def accumulate_int (init : Int) : List Nat → Int
  | [] => init
  | x :: xs => accumulate_int (to_int ((to_size_t init * x) % 2 ^ 64)) xs

/-- Initialising a `size_t` from the result of `accumulate_int` started at `1`. -/
def accumulate_size (dims : List Nat) : Nat := to_size_t (accumulate_int 1 dims)

/-- The call `std::memcpy(dst + dst_off, src + src_off, count)` on host bytes; `none`
when a range leaves its buffer. -/
def memcpy (dst : List Nat) (dst_off : Nat) (src : List Nat) (src_off : Nat) (count : Nat) :
    Option (List Nat) :=
  if src_off + count ≤ src.length ∧ dst_off + count ≤ dst.length then
    some (dst.take dst_off ++ (src.drop src_off).take count ++ dst.drop (dst_off + count))
  else none

/-- Does `pat` start `s`: `s.find(pat) == 0`. -/
def starts_with : List Char → List Char → Bool
  | [], _ => true
  | _ :: _, [] => false
  | p :: ps, c :: cs => p == c && starts_with ps cs

/-- Does `pat` occur in `s`: `s.find(pat) != std::string::npos`. -/
def contains_substr (pat : List Char) : List Char → Bool
  | [] => starts_with pat []
  | c :: cs => starts_with pat (c :: cs) || contains_substr pat cs

/-- Element `i` of a vector, a fault past the end. -/
def vector_at {α : Type} (v : List α) (i : Nat) : Except Fault α :=
  match v[i]? with
  | some a => .ok a
  | none => .error .out_of_range

/-- The call `pshape[i].get_length()`: the index must exist and the dimension be static. -/
def dim_length (pshape : PartialShape) (i : Nat) : Except Fault Nat :=
  match pshape[i]? with
  | none => .error .out_of_range
  | some none => .error .dynamic_shape
  | some (some d) => .ok d

/-- The call `pshape.get_shape()`: every dimension must be static. -/
def get_shape : PartialShape → Except Fault Shape
  | [] => .ok []
  | none :: _ => .error .dynamic_shape
  | some d :: rest =>
    match get_shape rest with
    | .ok s => .ok (d :: s)
    | .error f => .error f

/-! ## The manager -/

/-- The members of `ov::cache::CacheManager`. `m_context` records whether a device
context is held; `m_tensor_counter` numbers the buffers allocated so far and gives
each new buffer its identity. -/
structure CacheManager where
  m_request : InferRequest
  m_device : String
  m_block_size : Nat
  m_context : Bool
  m_block_size_in_bytes : Nat
  m_key_shapes : List PartialShape
  m_value_shapes : List PartialShape
  m_key_precisions : List ElementType
  m_value_precisions : List ElementType
  m_num_decoder_layers : Nat
  m_num_allocated_kv_blocks : Nat
  m_key_cache : List Tensor
  m_value_cache : List Tensor
  m_tensor_counter : Nat

/-- The right-hand side of `m_block_size_in_bytes +=` in the constructor:
`pshape[1].get_length() * pshape[2].get_length() * pshape[3].get_length() *
cache_precision.size()`, as a `size_t`. -/
def input_footprint (pshape : PartialShape) (cache_precision : ElementType) : Except Fault Nat := do
  let d1 ← dim_length pshape 1
  let d2 ← dim_length pshape 2
  let d3 ← dim_length pshape 3
  pure ((d1 * d2 * d3 * cache_precision.size) % 2 ^ 64)

/-- The inner loop of the constructor over the names of one input: the first name
with prefix `key_cache.` or `value_cache.` records the input and ends the loop. -/
def record_input (input : Input) : List String → CacheManager → Except Fault CacheManager
  | [], m => .ok m
  | name :: names, m =>
    if starts_with "key_cache.".data name.data then do
      let bytes ← input_footprint input.pshape input.element_type
      pure { m with
        m_block_size_in_bytes := (m.m_block_size_in_bytes + bytes) % 2 ^ 64
        m_key_shapes := m.m_key_shapes ++ [input.pshape]
        m_key_precisions := m.m_key_precisions ++ [input.element_type] }
    else if starts_with "value_cache.".data name.data then do
      let bytes ← input_footprint input.pshape input.element_type
      pure { m with
        m_block_size_in_bytes := (m.m_block_size_in_bytes + bytes) % 2 ^ 64
        m_value_shapes := m.m_value_shapes ++ [input.pshape]
        m_value_precisions := m.m_value_precisions ++ [input.element_type] }
    else record_input input names m

/-- The outer loop of the constructor over the inputs of the compiled model. -/
def record_inputs : List Input → CacheManager → Except Fault CacheManager
  | [], m => .ok m
  | input :: inputs, m =>
    match record_input input input.names m with
    | .ok m' => record_inputs inputs m'
    | .error f => .error f

/-- The value of `all_gpu_device` in the constructor: `std::all_of` over the execution
devices of `device.find("GPU") != std::string::npos`. -/
def all_gpu (execution_devices : List String) : Bool :=
  execution_devices.all fun device => contains_substr "GPU".data device.data

/-- The constructor `CacheManager::CacheManager(ov::InferRequest request)`. -/
def CacheManager.construct (request : InferRequest) : Except Fault CacheManager :=
  let execution_devices := request.compiled_model.execution_devices
  let all_gpu_device := all_gpu execution_devices
  if all_gpu_device || execution_devices.length == 1 then
    match execution_devices[0]? with
    | none => .error .out_of_range
    | some device =>
      let m : CacheManager :=
        { m_request := request
          m_device := device
          m_block_size := if all_gpu_device then 16 else 32
          m_context := all_gpu_device
          m_block_size_in_bytes := 0
          m_key_shapes := []
          m_value_shapes := []
          m_key_precisions := []
          m_value_precisions := []
          m_num_decoder_layers := 0
          m_num_allocated_kv_blocks := 0
          m_key_cache := []
          m_value_cache := []
          m_tensor_counter := 0 }
      match record_inputs request.compiled_model.inputs m with
      | .error f => .error f
      | .ok m' =>
        let m'' := { m' with m_num_decoder_layers := m'.m_value_precisions.length }
        if m''.m_num_decoder_layers == m''.m_key_precisions.length then .ok m''
        else .error .assertion
  else .error .assertion

/-- The method `CacheManager::set_kv_blocks`: `pshape[0] = num_kv_blocks; return pshape.get_shape()`. -/
def set_kv_blocks (pshape : PartialShape) (num_kv_blocks : Nat) : Except Fault Shape :=
  match pshape with
  | [] => .error .out_of_range
  | _ :: rest => get_shape (some num_kv_blocks :: rest)

/-- The method `CacheManager::update_request_tensor`. -/
def CacheManager.update_request_tensor (m : CacheManager) (decoder_layer_id : Nat) :
    Except Fault CacheManager := do
  let k ← vector_at m.m_key_cache decoder_layer_id
  let r1 := m.m_request.set_tensor ("key_cache." ++ toString decoder_layer_id) k
  let v ← vector_at m.m_value_cache decoder_layer_id
  let r2 := r1.set_tensor ("value_cache." ++ toString decoder_layer_id) v
  pure { m with m_request := r2 }

/-- The method `CacheManager::get_num_decoder_layers`. -/
def CacheManager.get_num_decoder_layers (m : CacheManager) : Nat := m.m_num_decoder_layers

/-- The method `CacheManager::get_device`. -/
def CacheManager.get_device (m : CacheManager) : String := m.m_device

/-- The method `CacheManager::get_block_size`. -/
def CacheManager.get_block_size (m : CacheManager) : Nat := m.m_block_size

/-- The method `CacheManager::get_key_cache_precision`. -/
def CacheManager.get_key_cache_precision (m : CacheManager) (decoder_layer_id : Nat) :
    Except Fault ElementType :=
  if decoder_layer_id < m.m_key_precisions.length then vector_at m.m_key_precisions decoder_layer_id
  else .error .assertion

/-- The method `CacheManager::get_value_cache_precision`. -/
def CacheManager.get_value_cache_precision (m : CacheManager) (decoder_layer_id : Nat) :
    Except Fault ElementType :=
  if decoder_layer_id < m.m_value_precisions.length then
    vector_at m.m_value_precisions decoder_layer_id
  else .error .assertion

/-- The method `CacheManager::get_block_size_in_bytes`. -/
def CacheManager.get_block_size_in_bytes (m : CacheManager) : Nat := m.m_block_size_in_bytes

/-- The method `CacheManager::sub_byte_data_type_multiplier`. -/
def sub_byte_data_type_multiplier (data_type : ElementType) : Nat :=
  if data_type = .i4 ∨ data_type = .u4 then 2 else 1

/-- What one tensor allocation of a growth step does, per layer and role (`false`
for the key buffer, `true` for the value buffer): it throws (`none`), or returns
memory whose byte at offset `i` happens to hold `g i`. -/
abbrev Allocator := Nat → Bool → Option (Nat → Nat)

/-- Modelled from the spec: allocation of a new buffer, "routed to host memory or to
the accelerator execution context's allocator" (`ov::Tensor(type, shape)` and
`m_context.create_tensor(type, shape)`); its content is whatever the memory held. -/
def create_tensor (alloc : Allocator) (layer : Nat) (is_value : Bool) (id : Nat) (remote : Bool)
    (t : ElementType) (shape : Shape) : Except Fault Tensor :=
  match alloc layer is_value with
  | none => .error .bad_alloc
  | some g =>
    .ok { id := id, remote := remote, element_type := t, shape := shape,
          data := (List.range (byte_size t shape)).map fun i => g i % 256 }

/-- A region `shape` taken from the origin of a tensor of shape `whole` that differs
from it in the leading dimension only. -/
def roi_is_leading_run : Shape → Shape → Bool
  | a :: as, b :: bs => decide (a ≤ b) && decide (as = bs)
  | _, _ => false

/-- Modelled from the spec: `ov::Tensor roi(dst, start, shape); src.copy_to(roi)`, the
copy "via a sub-range view over the new buffer matching the old buffer's full
shape", which puts the "entire prior content into the prefix of the new buffer".
The view needs `start` and `shape` of the rank of `dst` and inside it; the manager
only builds views that start at the origin and differ from `dst` in the leading
dimension, so the region is the leading run of bytes. The copy is the tensor's own
(device-native for a remote tensor), not a raw host copy. -/
def copy_to_roi (dst src : Tensor) (start shape : Shape) : Except Fault Tensor :=
  if start = List.replicate dst.shape.length 0 ∧ roi_is_leading_run shape dst.shape then
    if src.element_type = dst.element_type ∧ src.shape = shape then
      match memcpy dst.data 0 src.data 0 (byte_size src.element_type shape) with
      | some d => .ok { dst with data := d }
      | none => .error .out_of_bounds
    else .error .assertion
  else .error .bad_roi

/-- The number of bytes the packed branch of `copy_roi` hands to `std::memcpy`:
`size / sub_byte_data_type_multiplier(dst.get_element_type())` with
`size_t size = std::accumulate(shape.begin(), shape.end(), 1, std::multiplies<size_t>())`. -/
def copy_roi_count (t : ElementType) (shape : Shape) : Nat :=
  accumulate_size shape / sub_byte_data_type_multiplier t

/-- The lambda `copy_roi` of `allocate_cache_if_needed` (with `start_key` captured):
a flat byte copy through `data()` for `u4`/`i4`, a copy into a region of interest
otherwise. `data()` is not available on a remote tensor. -/
def copy_roi (start_key : Shape) (dst src : Tensor) (shape : Shape) : Except Fault Tensor :=
  if dst.element_type = .u4 ∨ dst.element_type = .i4 then
    if dst.remote || src.remote then .error .remote_data
    else
      match memcpy dst.data 0 src.data 0 (copy_roi_count dst.element_type shape) with
      | some d => .ok { dst with data := d }
      | none => .error .out_of_bounds
  else copy_to_roi dst src start_key shape

/-- The loop `for (size_t decoder_layer_id = first; decoder_layer_id < first + count;
++decoder_layer_id) body`. A fault ends it; the state returned with the fault is the
one reached before the failing iteration. An iteration of the growth loop changes no
member before its last fallible step, so this is the state the exception leaves; the
faults of the copy loop stand for undefined behaviour, after which the state has no
meaning. -/
def for_each_layer (body : Nat → CacheManager → Except Fault CacheManager) :
    Nat → Nat → CacheManager → CacheManager × Option Fault
  | 0, _, m => (m, none)
  | count + 1, decoder_layer_id, m =>
    match body decoder_layer_id m with
    | .ok m' => for_each_layer body count (decoder_layer_id + 1) m'
    | .error f => (m, some f)

/-- First part of the body of the layer loop of `allocate_cache_if_needed`: the two
shapes and the two new tensors, from the device context if the manager holds one. -/
def allocate_layer_tensors (alloc : Allocator) (num_kv_blocks : Nat) (decoder_layer_id : Nat)
    (m : CacheManager) : Except Fault (Tensor × Tensor) := do
  let key_pshape ← vector_at m.m_key_shapes decoder_layer_id
  let key_cache_shape ← set_kv_blocks key_pshape num_kv_blocks
  let value_pshape ← vector_at m.m_value_shapes decoder_layer_id
  let value_cache_shape ← set_kv_blocks value_pshape num_kv_blocks
  let key_precision ← m.get_key_cache_precision decoder_layer_id
  let key_cache ← create_tensor alloc decoder_layer_id false m.m_tensor_counter m.m_context
    key_precision key_cache_shape
  let value_precision ← m.get_value_cache_precision decoder_layer_id
  let value_cache ← create_tensor alloc decoder_layer_id true (m.m_tensor_counter + 1) m.m_context
    value_precision value_cache_shape
  pure (key_cache, value_cache)

/-- Second part of the body: an existing layer has its content copied forward and
its two buffers replaced, a new layer has its two buffers appended. -/
def store_layer_tensors (decoder_layer_id : Nat) (m : CacheManager) (key_cache value_cache : Tensor) :
    Except Fault CacheManager :=
  let start_key : Shape := [0, 0, 0, 0]
  if decoder_layer_id < m.m_key_cache.length then do
    let old_key ← vector_at m.m_key_cache decoder_layer_id
    let key_cache' ← copy_roi start_key key_cache old_key old_key.shape
    let old_value ← vector_at m.m_value_cache decoder_layer_id
    let value_cache' ← copy_roi start_key value_cache old_value old_value.shape
    pure { m with
      m_key_cache := m.m_key_cache.set decoder_layer_id key_cache'
      m_value_cache := m.m_value_cache.set decoder_layer_id value_cache'
      m_tensor_counter := m.m_tensor_counter + 2 }
  else
    pure { m with
      m_key_cache := m.m_key_cache ++ [key_cache]
      m_value_cache := m.m_value_cache ++ [value_cache]
      m_tensor_counter := m.m_tensor_counter + 2 }

/-- The body of the layer loop of `allocate_cache_if_needed`: allocate, copy forward
and store, rebind. -/
def allocate_layer (alloc : Allocator) (num_kv_blocks : Nat) (decoder_layer_id : Nat)
    (m : CacheManager) : Except Fault CacheManager :=
  match allocate_layer_tensors alloc num_kv_blocks decoder_layer_id m with
  | .error f => .error f
  | .ok (key_cache, value_cache) =>
    match store_layer_tensors decoder_layer_id m key_cache value_cache with
    | .error f => .error f
    | .ok m' => m'.update_request_tensor decoder_layer_id

/-- The method `CacheManager::allocate_cache_if_needed` (`ensureCapacity`). -/
def CacheManager.allocate_cache_if_needed (m : CacheManager) (alloc : Allocator)
    (num_kv_blocks : Nat) : CacheManager × Option Fault :=
  if m.m_num_allocated_kv_blocks ≥ num_kv_blocks then (m, none)
  else
    let m1 := { m with m_num_allocated_kv_blocks := num_kv_blocks }
    for_each_layer (allocate_layer alloc num_kv_blocks) m1.m_num_decoder_layers 0 m1

/-- The lambda `copy_one_block` of `copy_blocks`: `stride` bytes from byte offset
`src_start * stride` of `src` to byte offset `dst_start * stride` of `dst`, the two
products being computed in `size_t`, unless one of the two is a remote tensor. -/
def copy_one_block (dst src : Tensor) (src_start dst_start stride : Nat) : Except Fault Tensor :=
  let is_remote := dst.remote || src.remote
  if !is_remote then
    match memcpy dst.data ((dst_start * stride) % 2 ^ 64) src.data
        ((src_start * stride) % 2 ^ 64) stride with
    | some d => .ok { dst with data := d }
    | none => .error .out_of_bounds
  else .ok dst

/-- The stride computed by `copy_blocks` for one buffer:
`std::accumulate(shape.begin() + 1, shape.end(), 1, std::multiplies<size_t>()) /
sub_byte_data_type_multiplier(element type)`. -/
def block_stride (t : Tensor) : Except Fault Nat :=
  match t.shape with
  | [] => .error .out_of_range
  | _ :: rest => .ok (accumulate_size rest / sub_byte_data_type_multiplier t.element_type)

/-- The body of the layer loop of `copy_blocks`. -/
def copy_blocks_layer (src_block_id dst_block_id : Nat) (decoder_layer_id : Nat)
    (m : CacheManager) : Except Fault CacheManager := do
  let key ← vector_at m.m_key_cache decoder_layer_id
  let value ← vector_at m.m_value_cache decoder_layer_id
  let stride_k ← block_stride key
  let stride_v ← block_stride value
  let key' ← copy_one_block key key src_block_id dst_block_id stride_k
  let value' ← copy_one_block value value src_block_id dst_block_id stride_v
  pure { m with
    m_key_cache := m.m_key_cache.set decoder_layer_id key'
    m_value_cache := m.m_value_cache.set decoder_layer_id value' }

/-- The loop of `copy_blocks` over the destinations of one source block. -/
def copy_blocks_dsts (src_block_id : Nat) : List Nat → CacheManager → CacheManager × Option Fault
  | [], m => (m, none)
  | dst_block_id :: rest, m =>
    match for_each_layer (copy_blocks_layer src_block_id dst_block_id) m.m_num_decoder_layers 0 m with
    | (m', none) => copy_blocks_dsts src_block_id rest m'
    | r => r

/-- The method `CacheManager::copy_blocks` (`apply`); the map is given by its
entries in iteration order (ascending source block id). -/
def CacheManager.copy_blocks : CacheManager → List (Nat × List Nat) → CacheManager × Option Fault
  | m, [] => (m, none)
  | m, (src_block_id, dst_block_ids) :: rest =>
    match copy_blocks_dsts src_block_id dst_block_ids m with
    | (m', none) => CacheManager.copy_blocks m' rest
    | r => r

/-- Block `k` of a buffer: the bytes the layout assigns to index `k` of the leading
dimension, `block_bytes` of them from offset `k * block_bytes`. -/
def block_content (data : List Nat) (block_bytes k : Nat) : List Nat :=
  (data.drop (k * block_bytes)).take block_bytes

/-- Bytes of one block of a tensor: the element count of the non-block dimensions
times the element width, in whole bytes. -/
def Tensor.block_bytes (t : Tensor) : Nat := shape_size t.shape.tail * t.element_type.bitwidth / 8

/-- What the constructor fixes for the lifetime of the manager: device, block size,
context, block byte footprint, declared shapes and precisions, layer count. -/
def CacheManager.geometry (m : CacheManager) :
    (String × Nat × Bool × Nat) × (List PartialShape × List PartialShape) ×
      (List ElementType × List ElementType) × Nat :=
  ((m.m_device, m.m_block_size, m.m_context, m.m_block_size_in_bytes),
    (m.m_key_shapes, m.m_value_shapes), (m.m_key_precisions, m.m_value_precisions),
    m.m_num_decoder_layers)

/-- Everything of a tensor but its content. -/
def Tensor.header (t : Tensor) : Nat × Bool × ElementType × Shape :=
  (t.id, t.remote, t.element_type, t.shape)

/-- States reached from a freshly constructed manager by calls of
`allocate_cache_if_needed` and `copy_blocks` that complete without fault. -/
inductive Reachable (request : InferRequest) : CacheManager → Prop
  | construct (m : CacheManager) : CacheManager.construct request = .ok m → Reachable request m
  | grow (m : CacheManager) (alloc : Allocator) (n : Nat) :
      Reachable request m → (m.allocate_cache_if_needed alloc n).2 = none →
      Reachable request (m.allocate_cache_if_needed alloc n).1
  | copy (m : CacheManager) (block_copy_map : List (Nat × List Nat)) :
      Reachable request m → (m.copy_blocks block_copy_map).2 = none →
      Reachable request (m.copy_blocks block_copy_map).1

/-! ## Concrete models and allocators used as examples -/

/-- A cache input named `<role><layer>` of shape `[?, dims...]`. -/
def cache_input (role : String) (layer : Nat) (t : ElementType) (dims : List Nat) : Input :=
  { names := [role ++ toString layer], pshape := none :: dims.map some, element_type := t }

/-- The key and value inputs of layers `first, first + 1, ...`, `count` of them. -/
def cache_inputs (t : ElementType) (dims : List Nat) : Nat → Nat → List Input
  | 0, _ => []
  | count + 1, first =>
    cache_input "key_cache." first t dims :: cache_input "value_cache." first t dims ::
      cache_inputs t dims count (first + 1)

/-- A request on a model with `layers` decoder layers of one geometry on one device,
nothing bound yet. -/
def example_request (device : String) (t : ElementType) (dims : List Nat) (layers : Nat) :
    InferRequest :=
  { compiled_model := { execution_devices := [device], inputs := cache_inputs t dims layers 0 },
    tensors := [] }

/-- An allocator that never throws; byte `i` of a new buffer holds `i % 256`. -/
def ramp_allocator : Allocator := fun _ _ => some fun i => i

/-- An allocator that never throws and returns zeroed memory. -/
def zero_allocator : Allocator := fun _ _ => some fun _ => 0

/-- An allocator that throws from layer `layer` on and returns zeroed memory before. -/
def failing_allocator (layer : Nat) : Allocator := fun l _ =>
  if l < layer then some fun _ => 0 else none

/-- The manager constructed for a request, or the state given when construction fails. -/
def constructed (request : InferRequest) (otherwise : CacheManager) : CacheManager :=
  match CacheManager.construct request with
  | .ok m => m
  | .error _ => otherwise

/-- A manager with no layers, used where construction is known to succeed. -/
def empty_manager : CacheManager :=
  { m_request := { compiled_model := { execution_devices := [], inputs := [] }, tensors := [] }
    m_device := ""
    m_block_size := 0
    m_context := false
    m_block_size_in_bytes := 0
    m_key_shapes := []
    m_value_shapes := []
    m_key_precisions := []
    m_value_precisions := []
    m_num_decoder_layers := 0
    m_num_allocated_kv_blocks := 0
    m_key_cache := []
    m_value_cache := []
    m_tensor_counter := 0 }

/-- The states `m` and `m'` differ at most in the bytes held by their buffers. -/
def same_but_content (m m' : CacheManager) : Prop :=
  m' = { m with m_key_cache := m'.m_key_cache, m_value_cache := m'.m_value_cache } ∧
  m'.m_key_cache.map Tensor.header = m.m_key_cache.map Tensor.header ∧
  m'.m_value_cache.map Tensor.header = m.m_value_cache.map Tensor.header

/-- The end-to-end scenario: 2 decoder layers, key and value caches `[?, 2, 8, 64]`
at a 2-byte precision, device set `["GPU"]`. -/
def scenario_request : InferRequest := example_request "GPU" .f16 [2, 8, 64] 2

/-- The manager constructed for the end-to-end scenario. -/
def scenario_manager : CacheManager := constructed scenario_request empty_manager

/-- A host model: 2 decoder layers, caches `[?, 1, 1, 2]` of one-byte elements. -/
def host_request : InferRequest := example_request "CPU" .u8 [1, 1, 2] 2

/-- The manager constructed for the host model. -/
def host_manager : CacheManager := constructed host_request empty_manager

/-- The host manager grown to four blocks. -/
def host_manager_4 : CacheManager := (host_manager.allocate_cache_if_needed ramp_allocator 4).1

/-- Does one of the names carry the prefix `key_cache.` or `value_cache.`, the test
under which the constructor records an input. -/
def has_cache_name (names : List String) : Bool :=
  names.any fun name =>
    starts_with "key_cache.".data name.data || starts_with "value_cache.".data name.data

/-- Layer `i` of the store holds a key and a value buffer whose shapes are the shapes
declared for the layer with the leading dimension set to `n`, whose element types
are the declared precisions, and which are remote exactly when the manager holds a
device context. -/
def layer_shaped (m : CacheManager) (n i : Nat) : Prop :=
  ∃ k v, m.m_key_cache[i]? = some k ∧ m.m_value_cache[i]? = some v ∧
    (∃ ps, m.m_key_shapes[i]? = some ps ∧ set_kv_blocks ps n = .ok k.shape) ∧
    (∃ ps, m.m_value_shapes[i]? = some ps ∧ set_kv_blocks ps n = .ok v.shape) ∧
    m.m_key_precisions[i]? = some k.element_type ∧
    m.m_value_precisions[i]? = some v.element_type ∧
    k.remote = m.m_context ∧ v.remote = m.m_context

/-- The store holds as many key as value buffers, no more than there are decoder
layers, and every layer it holds is shaped for the current block count. -/
def store_invariant (m : CacheManager) : Prop :=
  m.m_key_cache.length = m.m_value_cache.length ∧
  m.m_key_cache.length ≤ m.m_num_decoder_layers ∧
  ∀ i, i < m.m_key_cache.length → layer_shaped m m.m_num_allocated_kv_blocks i

/-- A host model with one decoder layer of two-byte elements, caches `[?, 1, 1, 2]`,
grown to ten blocks; byte `i` of each buffer holds `i`. -/
def f16_manager_10 : CacheManager :=
  ((constructed (example_request "CPU" .f16 [1, 1, 2] 1) empty_manager).allocate_cache_if_needed
    ramp_allocator 10).1

/-- The device check at the head of the constructor: the assertion on the execution
devices and the read of `execution_devices[0]` into `m_device`. -/
def check_devices (execution_devices : List String) : Except Fault String :=
  if all_gpu execution_devices || execution_devices.length == 1 then
    match execution_devices[0]? with
    | none => .error .out_of_range
    | some device => .ok device
  else .error .assertion

/-- The role under which the name loop of the constructor records an input: the
first name with one of the two prefixes decides, `key_cache.` being tested before
`value_cache.` on each name; `false` is a key cache, `true` a value cache. -/
def cache_role : List String → Option Bool
  | [] => none
  | name :: names =>
    if starts_with "key_cache.".data name.data then some false
    else if starts_with "value_cache.".data name.data then some true
    else cache_role names

/-- The inputs the constructor recognises as key caches, in input order. -/
def key_cache_inputs (inputs : List Input) : List Input :=
  inputs.filter fun input => cache_role input.names == some false

/-- The inputs the constructor recognises as value caches, in input order. -/
def value_cache_inputs (inputs : List Input) : List Input :=
  inputs.filter fun input => cache_role input.names == some true

/-- The footprint of an input can be computed: its shape has rank at least 4 and
static dimensions 1 to 3. -/
def footprint_defined (input : Input) : Bool :=
  match input_footprint input.pshape input.element_type with
  | .ok _ => true
  | .error _ => false

/-- A host request whose two cache inputs leave the head dimension dynamic:
`[?, ?, 8, 64]`. -/
def dynamic_heads_request : InferRequest :=
  { compiled_model :=
      { execution_devices := ["CPU"],
        inputs :=
          [{ names := ["key_cache.0"], pshape := [none, none, some 8, some 64], element_type := .f16 },
           { names := ["value_cache.0"], pshape := [none, none, some 8, some 64],
             element_type := .f16 }] },
    tensors := [] }

/-- The request binds, for every layer the store holds, the input `key_cache.<i>` to
the key buffer of layer `i` and `value_cache.<i>` to its value buffer. -/
def bound_to_store (m : CacheManager) : Prop :=
  (∀ (i : Nat) (k : Tensor), m.m_key_cache[i]? = some k →
    m.m_request.get_tensor ("key_cache." ++ toString i) = some k.id) ∧
  (∀ (i : Nat) (v : Tensor), m.m_value_cache[i]? = some v →
    m.m_request.get_tensor ("value_cache." ++ toString i) = some v.id)

/-- Every buffer of the store was numbered before the next allocation. -/
def ids_allocated (m : CacheManager) : Prop :=
  ∀ t, t ∈ m.m_key_cache ∨ t ∈ m.m_value_cache → t.id < m.m_tensor_counter

/-- An accelerator model with one decoder layer of packed 4-bit elements, caches
`[?, 2, 8, 64]`, grown to one block. -/
def gpu_u4_manager_1 : CacheManager :=
  ((constructed (example_request "GPU" .u4 [2, 8, 64] 1) empty_manager).allocate_cache_if_needed
    zero_allocator 1).1

/-- Byte `b` lies in block `d` of a buffer cut into blocks of `stride` bytes. -/
def in_block (stride d b : Nat) : Prop := d * stride ≤ b ∧ b < d * stride + stride

instance in_block_decidable (stride d b : Nat) : Decidable (in_block stride d b) :=
  inferInstanceAs (Decidable (d * stride ≤ b ∧ b < d * stride + stride))

/-- Byte `b` lies in the range that `copy_one_block` writes for the destination id `d`:
`stride` bytes from the offset `d * stride` computed in `size_t`. -/
def in_destination (stride d b : Nat) : Prop :=
  (d * stride) % 2 ^ 64 ≤ b ∧ b < (d * stride) % 2 ^ 64 + stride

instance in_destination_decidable (stride d b : Nat) : Decidable (in_destination stride d b) :=
  inferInstanceAs (Decidable ((d * stride) % 2 ^ 64 ≤ b ∧ b < (d * stride) % 2 ^ 64 + stride))

/-- The destination block ids of a copy map, in the order they are processed. -/
def copy_destinations : List (Nat × List Nat) → List Nat
  | [] => []
  | (_, dst_block_ids) :: rest => dst_block_ids ++ copy_destinations rest

/-- The buffer `t'` is the buffer `t` up to bytes inside the ranges written for the
destination ids `D`: same header, same length of content, same byte wherever the
byte lies in no such range (at the stride `copy_blocks` computes for the buffer). -/
def bytes_kept (D : List Nat) (t t' : Tensor) : Prop :=
  t'.header = t.header ∧ t'.data.length = t.data.length ∧
  ∀ stride, block_stride t = .ok stride →
    ∀ b, (∀ d ∈ D, ¬ in_destination stride d b) → t'.data[b]? = t.data[b]?

/-- The state `m'` is the state `m` up to bytes inside the ranges written for the
destination ids `D` in its buffers. -/
def frame_kept (D : List Nat) (m m' : CacheManager) : Prop :=
  m' = { m with m_key_cache := m'.m_key_cache, m_value_cache := m'.m_value_cache } ∧
  m'.m_key_cache.length = m.m_key_cache.length ∧
  m'.m_value_cache.length = m.m_value_cache.length ∧
  (∀ (i : Nat) (t t' : Tensor), m.m_key_cache[i]? = some t → m'.m_key_cache[i]? = some t' →
    bytes_kept D t t') ∧
  (∀ (i : Nat) (t t' : Tensor), m.m_value_cache[i]? = some t → m'.m_value_cache[i]? = some t' →
    bytes_kept D t t')

/-- The (source, destination) pairs of a copy map, in the order `copy_blocks`
processes them. -/
def copy_pairs : List (Nat × List Nat) → List (Nat × Nat)
  | [] => []
  | (src_block_id, dst_block_ids) :: rest =>
    dst_block_ids.map (fun d => (src_block_id, d)) ++ copy_pairs rest

/-- What one (source, destination) pair does to one buffer in `copy_blocks`: the
stride of the buffer, then `copy_one_block` of the buffer onto itself. -/
def tensor_copy (s d : Nat) (t : Tensor) : Except Fault Tensor :=
  match block_stride t with
  | .error f => .error f
  | .ok stride => copy_one_block t t s d stride

/-- The buffer after one pair, the buffer itself where the copy is not defined. -/
def tensor_apply (p : Nat × Nat) (t : Tensor) : Tensor :=
  match tensor_copy p.1 p.2 t with
  | .ok t' => t'
  | .error _ => t

/-- The state after one pair has been applied to every buffer. -/
def pair_apply (m : CacheManager) (p : Nat × Nat) : CacheManager :=
  { m with
    m_key_cache := m.m_key_cache.map (tensor_apply p)
    m_value_cache := m.m_value_cache.map (tensor_apply p) }

/-- The copy of a pair is defined on the buffers of every decoder layer. -/
def pair_defined (p : Nat × Nat) (m : CacheManager) : Prop :=
  ∀ i, i < m.m_num_decoder_layers →
    ∃ k v k' v', m.m_key_cache[i]? = some k ∧ m.m_value_cache[i]? = some v ∧
      tensor_copy p.1 p.2 k = .ok k' ∧ tensor_copy p.1 p.2 v = .ok v'

/-- The bytes after `stride` bytes of block `p.1` have been copied onto block `p.2`
(offsets `p.1 * stride` and `p.2 * stride` as natural numbers), the bytes themselves
where a block leaves the buffer. -/
def byte_copy (stride : Nat) (p : Nat × Nat) (data : List Nat) : List Nat :=
  match memcpy data (p.2 * stride) data (p.1 * stride) stride with
  | some r => r
  | none => data

/-- The bytes after the `memcpy` of `copy_one_block` for the pair `p`: `stride` bytes
from the offset `p.1 * stride` to the offset `p.2 * stride`, both computed in
`size_t`; the bytes themselves where a range leaves the buffer. -/
def offset_copy (stride : Nat) (p : Nat × Nat) (data : List Nat) : List Nat :=
  match memcpy data ((p.2 * stride) % 2 ^ 64) data ((p.1 * stride) % 2 ^ 64) stride with
  | some r => r
  | none => data

/-- Two pairs that may be processed in either order: neither destination is the
source of the other pair unless that pair copies a block onto itself, and the two
pairs do not write one destination from different sources. -/
def pairs_compatible (p q : Nat × Nat) : Prop :=
  (p.2 = q.1 → p.1 = q.1) ∧ (q.2 = p.1 → q.1 = p.1) ∧ (p.2 = q.2 → p.1 = q.1)

/-- Applying the entries of a copy map one call at a time, stopping at a fault. -/
def one_at_a_time (m : CacheManager) (entries : List (Nat × List Nat)) :
    CacheManager × Option Fault :=
  entries.foldl
    (fun r e =>
      match r with
      | (s, none) => s.copy_blocks [e]
      | (s, some f) => (s, some f))
    (m, none)

/-- The stated precondition of `copy_blocks` on a copy map: no block id that is a
destination of one entry is the source of another entry. -/
def destinations_not_sources (block_copy_map : List (Nat × List Nat)) : Prop :=
  ∀ e1, e1 ∈ block_copy_map → ∀ e2, e2 ∈ block_copy_map → e1.1 ≠ e2.1 → e2.1 ∉ e1.2

instance destinations_not_sources_decidable (block_copy_map : List (Nat × List Nat)) :
    Decidable (destinations_not_sources block_copy_map) := by
  unfold destinations_not_sources
  infer_instance

/-- No block id is a destination of two entries of a copy map with different sources. -/
def destinations_not_shared (block_copy_map : List (Nat × List Nat)) : Prop :=
  ∀ e1, e1 ∈ block_copy_map → ∀ e2, e2 ∈ block_copy_map → e1.1 ≠ e2.1 →
    ∀ d, d ∈ e1.2 → d ∉ e2.2

instance destinations_not_shared_decidable (block_copy_map : List (Nat × List Nat)) :
    Decidable (destinations_not_shared block_copy_map) := by
  unfold destinations_not_shared
  infer_instance

/-- A host model with one decoder layer of `nf4` caches `[?, 1, 1, 2]` (a 4-bit type
other than `u4` and `i4`), nothing bound yet. -/
def nf4_request : InferRequest := example_request "CPU" .nf4 [1, 1, 2] 1

/-- The manager of `nf4_request` grown to two blocks: each buffer holds four 4-bit
elements in two bytes. -/
def nf4_manager_2 : CacheManager :=
  ((constructed nf4_request empty_manager).allocate_cache_if_needed ramp_allocator 2).1

/-- A buffer after the byte copies of a list of pairs, each of `stride` bytes at the
stride `copy_blocks` computes for the buffer and at the offsets `copy_one_block`
computes, in the order of the list. -/
def copy_pairs_on (pairs : List (Nat × Nat)) (t : Tensor) : Tensor :=
  match block_stride t with
  | .error _ => t
  | .ok stride => { t with data := pairs.foldl (fun data p => offset_copy stride p data) t.data }

/-- The byte offsets of the blocks named by a copy map do not leave the range of
`size_t`: for every host buffer of the store and every block id of the map,
`id * stride` is below `2 ^ 64`. -/
def offsets_exact (m : CacheManager) (block_copy_map : List (Nat × List Nat)) : Prop :=
  ∀ t, t ∈ m.m_key_cache ∨ t ∈ m.m_value_cache → t.remote = false →
    ∀ stride, block_stride t = .ok stride →
      ∀ p, p ∈ copy_pairs block_copy_map → p.1 * stride < 2 ^ 64 ∧ p.2 * stride < 2 ^ 64

/-- The host manager of `host_request` grown to six blocks; byte `i` of each buffer
holds `i`. -/
def host_manager_6 : CacheManager := (host_manager.allocate_cache_if_needed ramp_allocator 6).1

/-! ## Shape inference of Multinomial

A shallow embedding of `MultinomialShapeInfer::infer`
(`src/plugins/intel_cpu/src/shape_inference/custom/multinomial.cpp`). -/

/-- Modelled from the spec: the precision tag of a memory descriptor
(`InferenceEngine::Precision`), of which `infer` tests `I32` only. -/
inductive Precision
  | FP32 | FP16 | BF16 | I8 | I16 | I32 | I64 | U8 | U16 | U32 | U64 | BOOL
  deriving DecidableEq

/-- Modelled from the spec: a memory object as `infer` uses it: the precision of its
descriptor (`getDesc().getPrecision()`) and its bytes (`getData()`). -/
structure Memory where
  precision : Precision
  data : List Nat
  deriving DecidableEq

/-- The dimensions of a static shape (`VectorDims`, a vector of `size_t`). -/
abbrev VectorDims := List Nat

/-- Modelled from the spec: the status of a shape inference (`ShapeInferStatus`). -/
inductive ShapeInferStatus
  | success | skip
  deriving DecidableEq

/-- Modelled from the spec: what a shape inference returns (`Result`): the output
shapes and the status. -/
structure Result where
  dims : List VectorDims
  status : ShapeInferStatus
  deriving DecidableEq

/-- The unsigned value of a run of bytes, least significant byte first (the byte
order of the x64 targets of the plugin). -/
def read_le : List Nat → Nat
  | [] => 0
  | b :: rest => b % 256 + 256 * read_le rest

/-- The read `reinterpret_cast<const int32_t*>(data)[0]`: the first four bytes as a
two's complement integer; a fault when the memory is shorter. -/
def read_int32 (data : List Nat) : Except Fault Int :=
  if 4 ≤ data.length then
    let u := read_le (data.take 4)
    .ok (if u < 2 ^ 31 then (u : Int) else (u : Int) - 2 ^ 32)
  else .error .out_of_bounds

/-- The read `reinterpret_cast<const int64_t*>(data)[0]`: the first eight bytes as a
two's complement integer; a fault when the memory is shorter. -/
def read_int64 (data : List Nat) : Except Fault Int :=
  if 8 ≤ data.length then
    let u := read_le (data.take 8)
    .ok (if u < 2 ^ 63 then (u : Int) else (u : Int) - 2 ^ 64)
  else .error .out_of_bounds

/-- The call `data_dependency.at(key)` on a `std::unordered_map`: it throws when the
key is absent. -/
def unordered_map_at {α : Type} (entries : List (Nat × α)) (key : Nat) : Except Fault α :=
  match entries.lookup key with
  | some a => .ok a
  | none => .error .out_of_range

/-- The method `MultinomialShapeInfer::infer`. -/
def MultinomialShapeInfer.infer (input_shapes : List VectorDims)
    (data_dependency : List (Nat × Memory)) : Except Fault Result := do
  let input_shape ← vector_at input_shapes 0
  let num_samples_mem ← unordered_map_at data_dependency 0
  let num_samples ←
    (if num_samples_mem.precision = .I32 then
      (read_int32 num_samples_mem.data).map to_size_t
    else
      (read_int64 num_samples_mem.data).map to_size_t)
  let dims : VectorDims := [num_samples]
  let dims ←
    (if input_shape.length = 2 then
      (vector_at input_shape 0).map (fun batch => batch :: dims)
    else pure dims)
  pure { dims := [dims], status := .success }

/-- The value `n` that `infer` reads for `num_samples`: as `int32_t` when the precision
of the memory is `I32`, as `int64_t` otherwise. -/
def read_num_samples (mem : Memory) : Except Fault Int :=
  if mem.precision = .I32 then read_int32 mem.data else read_int64 mem.data

/-- A host model with two decoder layers whose four cache inputs have four different
geometries and are listed with the value cache of layer 0 first. -/
def mixed_request : InferRequest :=
  { compiled_model :=
      { execution_devices := ["CPU"],
        inputs :=
          [cache_input "value_cache." 0 .u8 [1, 2, 2], cache_input "key_cache." 0 .u8 [1, 1, 2],
           cache_input "key_cache." 1 .u8 [2, 1, 2], cache_input "value_cache." 1 .u8 [1, 1, 4]] },
    tensors := [] }

/-- The manager of `mixed_request` grown to three blocks. -/
def mixed_manager_3 : CacheManager :=
  ((constructed mixed_request empty_manager).allocate_cache_if_needed zero_allocator 3).1

/-- The end-to-end model on two accelerator devices. -/
def multi_gpu_request : InferRequest :=
  { compiled_model :=
      { execution_devices := ["GPU.0", "GPU.1"], inputs := cache_inputs .f16 [2, 8, 64] 2 0 },
    tensors := [] }

/-- The end-to-end model on a host device and an accelerator device. -/
def mixed_devices_request : InferRequest :=
  { compiled_model :=
      { execution_devices := ["CPU", "GPU"], inputs := cache_inputs .f16 [2, 8, 64] 2 0 },
    tensors := [] }

/-! ## Properties -/

/-! ### Elementary facts about the library model -/

theorem vector_at_ok {α : Type} (v : List α) (i : Nat) (a : α) :
    vector_at v i = .ok a ↔ v[i]? = some a := by
  unfold vector_at
  split
  · rename_i h
    simp [h]
  · rename_i h
    simp [h]

theorem vector_at_error {α : Type} (v : List α) (i : Nat) (f : Fault) :
    vector_at v i = .error f → v.length ≤ i := by
  unfold vector_at
  split
  · simp
  · rename_i h
    intro _
    exact List.getElem?_eq_none_iff.mp h

theorem get_shape_ok (ps : PartialShape) (sh : Shape) :
    get_shape ps = .ok sh ↔ ps = sh.map some := by
  induction ps generalizing sh with
  | nil => cases sh <;> simp [get_shape]
  | cons d rest ih =>
    cases d with
    | none => cases sh <;> simp [get_shape]
    | some d =>
      simp only [get_shape]
      cases hrest : get_shape rest with
      | error f =>
        simp only [false_iff, reduceCtorEq]
        intro h
        cases sh with
        | nil => simp at h
        | cons a t =>
          simp only [List.map_cons, List.cons.injEq] at h
          have := (ih t).mpr h.2
          rw [hrest] at this
          cases this
      | ok s =>
        have hs := (ih s).mp hrest
        cases sh with
        | nil => simp
        | cons a t =>
          simp only [Except.ok.injEq, List.cons.injEq, List.map_cons, Option.some.injEq]
          constructor
          · rintro ⟨rfl, rfl⟩
            exact ⟨rfl, hs⟩
          · rintro ⟨rfl, h⟩
            refine ⟨rfl, ?_⟩
            have := (ih t).mpr h
            rw [hrest] at this
            cases this
            rfl

theorem set_kv_blocks_ok (ps : PartialShape) (n : Nat) (sh : Shape) :
    set_kv_blocks ps n = .ok sh ↔ ∃ d rest, ps = d :: rest.map some ∧ sh = n :: rest := by
  cases ps with
  | nil => simp [set_kv_blocks]
  | cons d0 rest0 =>
    simp only [set_kv_blocks, get_shape_ok]
    constructor
    · intro h
      cases sh with
      | nil => simp at h
      | cons a t =>
        simp only [List.map_cons, List.cons.injEq, Option.some.injEq] at h
        exact ⟨d0, t, by rw [h.2], by rw [h.1]⟩
    · rintro ⟨d, rest, h1, rfl⟩
      simp only [List.cons.injEq] at h1
      simp [h1.2]

theorem copy_roi_header {start dst src : Tensor} {s0 shape : Shape} (h : copy_roi s0 dst src shape = .ok start) :
    start.header = dst.header := by
  unfold copy_roi at h
  split at h
  · split at h
    · simp at h
    · split at h
      · cases h; rfl
      · simp at h
  · unfold copy_to_roi at h
    split at h
    · split at h
      · split at h
        · cases h; rfl
        · simp at h
      · simp at h
    · simp at h

theorem copy_one_block_header {dst src t : Tensor} {s d stride : Nat}
    (h : copy_one_block dst src s d stride = .ok t) : t.header = dst.header := by
  unfold copy_one_block at h
  simp only at h
  split at h
  · split at h
    · cases h; rfl
    · simp at h
  · cases h; rfl

/-! ### One iteration of the growth loop -/

theorem create_tensor_ok {alloc : Allocator} {l : Nat} {r : Bool} {id : Nat} {remote : Bool}
    {t : ElementType} {shape : Shape} {x : Tensor}
    (h : create_tensor alloc l r id remote t shape = .ok x) :
    x.header = (id, remote, t, shape) ∧
      ∃ g, alloc l r = some g ∧ x.data = (List.range (byte_size t shape)).map fun i => g i % 256 := by
  unfold create_tensor at h
  split at h
  · simp at h
  · rename_i g hg
    cases h
    exact ⟨rfl, g, hg, rfl⟩

theorem get_key_cache_precision_ok {m : CacheManager} {i : Nat} {t : ElementType}
    (h : m.get_key_cache_precision i = .ok t) : m.m_key_precisions[i]? = some t := by
  unfold CacheManager.get_key_cache_precision at h
  split at h
  · exact (vector_at_ok _ _ _).mp h
  · simp at h

theorem get_value_cache_precision_ok {m : CacheManager} {i : Nat} {t : ElementType}
    (h : m.get_value_cache_precision i = .ok t) : m.m_value_precisions[i]? = some t := by
  unfold CacheManager.get_value_cache_precision at h
  split at h
  · exact (vector_at_ok _ _ _).mp h
  · simp at h

/-- The two tensors a growth iteration allocates have the declared shape of the layer
with the leading dimension set to the requested block count, the declared precision
and the locality of the manager. -/
theorem allocate_layer_tensors_ok {alloc : Allocator} {n i : Nat} {m : CacheManager}
    {k v : Tensor} (h : allocate_layer_tensors alloc n i m = .ok (k, v)) :
    (∃ ps, m.m_key_shapes[i]? = some ps ∧ set_kv_blocks ps n = .ok k.shape) ∧
    (∃ ps, m.m_value_shapes[i]? = some ps ∧ set_kv_blocks ps n = .ok v.shape) ∧
    m.m_key_precisions[i]? = some k.element_type ∧
    m.m_value_precisions[i]? = some v.element_type ∧
    k.remote = m.m_context ∧ v.remote = m.m_context ∧
    k.id = m.m_tensor_counter ∧ v.id = m.m_tensor_counter + 1 := by
  simp only [allocate_layer_tensors, bind, Except.bind, pure, Except.pure] at h
  split at h
  · simp at h
  rename_i kps hkps
  split at h
  · simp at h
  rename_i ksh hksh
  split at h
  · simp at h
  rename_i vps hvps
  split at h
  · simp at h
  rename_i vsh hvsh
  split at h
  · simp at h
  rename_i kt hkt
  split at h
  · simp at h
  rename_i kc hkc
  split at h
  · simp at h
  rename_i vt hvt
  split at h
  · simp at h
  rename_i vc hvc
  simp only [Except.ok.injEq, Prod.mk.injEq] at h
  obtain ⟨rfl, rfl⟩ := h
  have hk := (create_tensor_ok hkc).1
  have hv := (create_tensor_ok hvc).1
  simp only [Tensor.header, Prod.mk.injEq] at hk hv
  obtain ⟨hk1, hk2, hk3, hk4⟩ := hk
  obtain ⟨hv1, hv2, hv3, hv4⟩ := hv
  refine ⟨⟨kps, (vector_at_ok _ _ _).mp hkps, ?_⟩, ⟨vps, (vector_at_ok _ _ _).mp hvps, ?_⟩,
    ?_, ?_, hk2, hv2, hk1, hv1⟩
  · rw [hk4]; exact hksh
  · rw [hv4]; exact hvsh
  · rw [hk3]; exact get_key_cache_precision_ok hkt
  · rw [hv3]; exact get_value_cache_precision_ok hvt

/-- Storing the tensors of a layer: the layer existed and both its buffers are
replaced by tensors with the headers of the new ones, or it did not and both new
tensors are appended. Nothing else but the allocation counter changes. -/
theorem store_layer_tensors_ok {i : Nat} {m m' : CacheManager} {k v : Tensor}
    (h : store_layer_tensors i m k v = .ok m') :
    m'.geometry = m.geometry ∧ m'.m_num_allocated_kv_blocks = m.m_num_allocated_kv_blocks ∧
    m'.m_request = m.m_request ∧
    ((i < m.m_key_cache.length ∧ i < m.m_value_cache.length ∧
        ∃ k' v', k'.header = k.header ∧ v'.header = v.header ∧
          m'.m_key_cache = m.m_key_cache.set i k' ∧ m'.m_value_cache = m.m_value_cache.set i v') ∨
      (¬ i < m.m_key_cache.length ∧
        m'.m_key_cache = m.m_key_cache ++ [k] ∧ m'.m_value_cache = m.m_value_cache ++ [v])) := by
  simp only [store_layer_tensors, bind, Except.bind, pure, Except.pure] at h
  split at h
  · rename_i hlt
    split at h
    · simp at h
    rename_i ok hok
    split at h
    · simp at h
    rename_i k' hk'
    split at h
    · simp at h
    rename_i ov hov
    split at h
    · simp at h
    rename_i v' hv'
    cases h
    refine ⟨rfl, rfl, rfl, Or.inl ⟨hlt, ?_, k', v', copy_roi_header hk', copy_roi_header hv', rfl, rfl⟩⟩
    exact (List.getElem?_eq_some.mp ((vector_at_ok _ _ _).mp hov)).1
  · rename_i hlt
    cases h
    exact ⟨rfl, rfl, rfl, Or.inr ⟨hlt, rfl, rfl⟩⟩

theorem update_request_tensor_frame {m m' : CacheManager} {i : Nat}
    (h : m.update_request_tensor i = .ok m') :
    m' = { m with m_request := m'.m_request } := by
  simp only [CacheManager.update_request_tensor, bind, Except.bind, pure, Except.pure] at h
  split at h
  · simp at h
  split at h
  · simp at h
  · cases h; rfl

theorem update_request_tensor_ok_iff (m : CacheManager) (i : Nat) :
    (∃ m', m.update_request_tensor i = .ok m') ↔
      i < m.m_key_cache.length ∧ i < m.m_value_cache.length := by
  simp only [CacheManager.update_request_tensor, bind, Except.bind, pure, Except.pure, vector_at]
  constructor
  · rintro ⟨m', h⟩
    split at h
    · simp at h
    split at h
    · simp at h
    rename_i h1 _ _ h2
    split at h1
    · split at h2
      · rename_i e1 _ _ e2
        exact ⟨(List.getElem?_eq_some.mp e1).1, (List.getElem?_eq_some.mp e2).1⟩
      · simp at h2
    · simp at h1
  · rintro ⟨h1, h2⟩
    simp [List.getElem?_eq_getElem h1, List.getElem?_eq_getElem h2]

/-- Effect of one successful iteration of the growth loop on a store whose key and
value lists have one length: only layer `i` changes, and it now holds tensors of
the declared geometry with `n` blocks. -/
theorem allocate_layer_effect {alloc : Allocator} {n i : Nat} {m m' : CacheManager}
    (hlen : m.m_key_cache.length = m.m_value_cache.length)
    (h : allocate_layer alloc n i m = .ok m') :
    m'.geometry = m.geometry ∧ m'.m_num_allocated_kv_blocks = m.m_num_allocated_kv_blocks ∧
    m'.m_key_cache.length = m'.m_value_cache.length ∧ i ≤ m.m_key_cache.length ∧
    m'.m_key_cache.length = max m.m_key_cache.length (i + 1) ∧
    (∀ j, j ≠ i → m'.m_key_cache[j]? = m.m_key_cache[j]? ∧
      m'.m_value_cache[j]? = m.m_value_cache[j]?) ∧
    ∃ k v, m'.m_key_cache[i]? = some k ∧ m'.m_value_cache[i]? = some v ∧
      (∃ ps, m.m_key_shapes[i]? = some ps ∧ set_kv_blocks ps n = .ok k.shape) ∧
      (∃ ps, m.m_value_shapes[i]? = some ps ∧ set_kv_blocks ps n = .ok v.shape) ∧
      m.m_key_precisions[i]? = some k.element_type ∧
      m.m_value_precisions[i]? = some v.element_type ∧
      k.remote = m.m_context ∧ v.remote = m.m_context := by
  unfold allocate_layer at h
  split at h
  · simp at h
  rename_i kn vn hkv
  split at h
  · simp at h
  rename_i m2 hm2
  have hfr := update_request_tensor_frame h
  have hbound := (update_request_tensor_ok_iff m2 i).mp ⟨m', h⟩
  obtain ⟨hg, hc, _, hcase⟩ := store_layer_tensors_ok hm2
  obtain ⟨hks, hvs, hkp, hvp, hkr, hvr, _, _⟩ := allocate_layer_tensors_ok hkv
  have e1 : m'.m_key_cache = m2.m_key_cache := by rw [hfr]
  have e2 : m'.m_value_cache = m2.m_value_cache := by rw [hfr]
  have e3 : m'.geometry = m2.geometry := by rw [hfr]; rfl
  have e4 : m'.m_num_allocated_kv_blocks = m2.m_num_allocated_kv_blocks := by rw [hfr]
  rw [e1, e2, e3, e4]
  refine ⟨hg, hc, ?_⟩
  rcases hcase with ⟨h1, h2, k', v', hk', hv', ek, ev⟩ | ⟨h1, ek, ev⟩
  · simp only [Tensor.header, Prod.mk.injEq] at hk' hv'
    rw [ek, ev]
    refine ⟨by simp [hlen], le_of_lt h1, ?_, ?_, k', v', ?_, ?_, ?_, ?_, ?_, ?_, ?_, ?_⟩
    · rw [List.length_set]; omega
    · intro j hj
      exact ⟨by rw [List.getElem?_set_ne (Ne.symm hj)], by rw [List.getElem?_set_ne (Ne.symm hj)]⟩
    · rw [List.getElem?_set_self h1]
    · rw [List.getElem?_set_self h2]
    · rw [hk'.2.2.2]; exact hks
    · rw [hv'.2.2.2]; exact hvs
    · rw [hk'.2.2.1]; exact hkp
    · rw [hv'.2.2.1]; exact hvp
    · rw [hk'.2.1]; exact hkr
    · rw [hv'.2.1]; exact hvr
  · rw [ek, ev] at hbound
    simp only [List.length_append, List.length_singleton] at hbound
    have hi : i = m.m_key_cache.length := by omega
    rw [ek, ev]
    refine ⟨by simp [hlen], by omega, ?_, ?_, kn, vn, ?_, ?_, hks, hvs, hkp, hvp, hkr, hvr⟩
    · simp only [List.length_append, List.length_singleton]; omega
    · intro j hj
      rcases Nat.lt_or_gt_of_ne hj with hlt | hgt
      · constructor
        · rw [List.getElem?_append_left (by omega)]
        · rw [List.getElem?_append_left (by omega)]
      · constructor
        · rw [List.getElem?_eq_none_iff.mpr (by simp; omega),
            List.getElem?_eq_none_iff.mpr (by omega)]
        · rw [List.getElem?_eq_none_iff.mpr (by simp; omega),
            List.getElem?_eq_none_iff.mpr (by omega)]
    · rw [hi]; simp
    · rw [hi, hlen]; simp

/-! ### The loops -/

/-- Induction over the layer loop: a property indexed by the next layer to process
that every successful iteration advances holds at the end of a run without fault,
and holds at the failing layer of a run that ends in a fault. -/
theorem for_each_layer_spec (body : Nat → CacheManager → Except Fault CacheManager)
    (P : Nat → CacheManager → Prop)
    (hstep : ∀ i m m', P i m → body i m = .ok m' → P (i + 1) m') :
    ∀ count i m, P i m →
      ((for_each_layer body count i m).2 = none →
        P (i + count) (for_each_layer body count i m).1) ∧
      (∀ f, (for_each_layer body count i m).2 = some f →
        ∃ j, i ≤ j ∧ j < i + count ∧ P j (for_each_layer body count i m).1 ∧
          body j (for_each_layer body count i m).1 = .error f) := by
  intro count
  induction count with
  | zero =>
    intro i m hP
    simp [for_each_layer, hP]
  | succ c ih =>
    intro i m hP
    simp only [for_each_layer]
    cases hb : body i m with
    | error f =>
      simp only [reduceCtorEq, false_implies, Option.some.injEq, true_and]
      intro f' hf
      subst hf
      exact ⟨i, le_refl _, by omega, hP, hb⟩
    | ok m' =>
      simp only
      obtain ⟨h1, h2⟩ := ih (i + 1) m' (hstep i m m' hP hb)
      constructor
      · intro hn
        have := h1 hn
        rwa [show i + (c + 1) = i + 1 + c by omega]
      · intro f hf
        obtain ⟨j, hj1, hj2, hj3, hj4⟩ := h2 f hf
        exact ⟨j, by omega, by omega, hj3, hj4⟩

/-- A property of the state that every successful iteration keeps holds after the
loop, however it ends. -/
theorem for_each_layer_preserves (body : Nat → CacheManager → Except Fault CacheManager)
    (Q : CacheManager → Prop) (hstep : ∀ i m m', Q m → body i m = .ok m' → Q m')
    (count i : Nat) (m : CacheManager) (hQ : Q m) : Q (for_each_layer body count i m).1 := by
  obtain ⟨h1, h2⟩ := for_each_layer_spec body (fun _ s => Q s) hstep count i m hQ
  cases hf : (for_each_layer body count i m).2 with
  | none => exact h1 hf
  | some f =>
    obtain ⟨_, _, _, h, _⟩ := h2 f hf
    exact h

/-- An iteration of the growth loop changes neither the geometry nor the block count. -/
theorem allocate_layer_fixed {alloc : Allocator} {n i : Nat} {m m' : CacheManager}
    (h : allocate_layer alloc n i m = .ok m') :
    m'.geometry = m.geometry ∧ m'.m_num_allocated_kv_blocks = m.m_num_allocated_kv_blocks := by
  unfold allocate_layer at h
  split at h
  · simp at h
  split at h
  · simp at h
  rename_i m2 hm2
  have hfr := update_request_tensor_frame h
  obtain ⟨hg, hc, _, _⟩ := store_layer_tensors_ok hm2
  constructor
  · rw [hfr, ← hg]; rfl
  · rw [hfr, ← hc]

/-- Neither the geometry fixed at construction nor the order relation of the block
count is disturbed by `allocate_cache_if_needed`: the geometry is kept and the block
count becomes the larger of the old count and the request, whether or not the call
ends in a fault. -/
theorem allocate_cache_if_needed_fixed (m : CacheManager) (alloc : Allocator) (n : Nat) :
    (m.allocate_cache_if_needed alloc n).1.geometry = m.geometry ∧
    (m.allocate_cache_if_needed alloc n).1.m_num_allocated_kv_blocks =
      max m.m_num_allocated_kv_blocks n := by
  unfold CacheManager.allocate_cache_if_needed
  split
  · rename_i h
    exact ⟨rfl, (max_eq_left h).symm⟩
  · rename_i h
    have := for_each_layer_preserves (allocate_layer alloc n)
      (fun s => s.geometry = m.geometry ∧ s.m_num_allocated_kv_blocks = n)
      (fun i s s' hs hb => by
        obtain ⟨h1, h2⟩ := allocate_layer_fixed hb
        exact ⟨h1.trans hs.1, h2.trans hs.2⟩)
      m.m_num_decoder_layers 0 { m with m_num_allocated_kv_blocks := n } ⟨rfl, rfl⟩
    refine ⟨this.1, ?_⟩
    rw [this.2]
    exact (max_eq_right (le_of_lt (not_le.mp h))).symm

/-! ### Frame of `copy_blocks` -/

theorem same_but_content_refl (m : CacheManager) : same_but_content m m := ⟨rfl, rfl, rfl⟩

theorem same_but_content_trans {a b c : CacheManager} (h1 : same_but_content a b)
    (h2 : same_but_content b c) : same_but_content a c := by
  obtain ⟨e1, k1, v1⟩ := h1
  obtain ⟨e2, k2, v2⟩ := h2
  refine ⟨?_, k2.trans k1, v2.trans v1⟩
  rw [e2, e1]

theorem map_header_set (l : List Tensor) (i : Nat) (t t' : Tensor) (h : l[i]? = some t)
    (ht : t'.header = t.header) : (l.set i t').map Tensor.header = l.map Tensor.header := by
  rw [List.map_set, ht]
  apply List.ext_getElem?
  intro j
  by_cases hj : i = j
  · subst hj
    have hi := (List.getElem?_eq_some.mp h).1
    rw [List.getElem?_set_self (by simpa using hi)]
    simp [h]
  · rw [List.getElem?_set_ne hj]

theorem copy_blocks_layer_frame {s d i : Nat} {m m' : CacheManager}
    (h : copy_blocks_layer s d i m = .ok m') : same_but_content m m' := by
  simp only [copy_blocks_layer, bind, Except.bind, pure, Except.pure] at h
  split at h
  · simp at h
  rename_i k hk
  split at h
  · simp at h
  rename_i v hv
  split at h
  · simp at h
  split at h
  · simp at h
  split at h
  · simp at h
  rename_i k' hk'
  split at h
  · simp at h
  rename_i v' hv'
  cases h
  exact ⟨rfl, map_header_set _ _ _ _ ((vector_at_ok _ _ _).mp hk) (copy_one_block_header hk'),
    map_header_set _ _ _ _ ((vector_at_ok _ _ _).mp hv) (copy_one_block_header hv')⟩

theorem copy_blocks_dsts_frame (s : Nat) (ds : List Nat) (m : CacheManager) :
    same_but_content m (copy_blocks_dsts s ds m).1 := by
  induction ds generalizing m with
  | nil => exact same_but_content_refl m
  | cons d rest ih =>
    simp only [copy_blocks_dsts]
    have hloop := for_each_layer_preserves (copy_blocks_layer s d) (fun x => same_but_content m x)
      (fun i a b ha hb => same_but_content_trans ha (copy_blocks_layer_frame hb))
      m.m_num_decoder_layers 0 m (same_but_content_refl m)
    generalize for_each_layer (copy_blocks_layer s d) m.m_num_decoder_layers 0 m = r at hloop
    obtain ⟨m1, f⟩ := r
    cases f with
    | none => exact same_but_content_trans hloop (ih m1)
    | some f => exact hloop

/-- The method `copy_blocks` changes nothing but bytes held by the buffers, whether
or not it ends in a fault. -/
theorem copy_blocks_frame (m : CacheManager) (block_copy_map : List (Nat × List Nat)) :
    same_but_content m (m.copy_blocks block_copy_map).1 := by
  induction block_copy_map generalizing m with
  | nil => exact same_but_content_refl m
  | cons e rest ih =>
    obtain ⟨s, ds⟩ := e
    simp only [CacheManager.copy_blocks]
    have h1 := copy_blocks_dsts_frame s ds m
    generalize copy_blocks_dsts s ds m = r at h1
    obtain ⟨m1, f⟩ := r
    cases f with
    | none => exact same_but_content_trans h1 (ih m1)
    | some f => exact h1

theorem same_but_content_fixed {m m' : CacheManager} (h : same_but_content m m') :
    m'.geometry = m.geometry ∧ m'.m_num_allocated_kv_blocks = m.m_num_allocated_kv_blocks ∧
    m'.m_request = m.m_request := by
  obtain ⟨e, _, _⟩ := h
  refine ⟨?_, ?_, ?_⟩
  · rw [e]; rfl
  · rw [e]
  · rw [e]

/-! ### The constructor -/

/-- What the name loop of the constructor does with one input: nothing, or it
records the input as a key cache, or it records it as a value cache; it records
only an input one of whose names has a cache prefix. -/
theorem record_input_ok {input : Input} {names : List String} {m m' : CacheManager}
    (h : record_input input names m = .ok m') :
    m' = m ∨
    (has_cache_name names = true ∧
      ∃ bytes, input_footprint input.pshape input.element_type = .ok bytes ∧
      m' = { m with
        m_block_size_in_bytes := (m.m_block_size_in_bytes + bytes) % 2 ^ 64
        m_key_shapes := m.m_key_shapes ++ [input.pshape]
        m_key_precisions := m.m_key_precisions ++ [input.element_type] }) ∨
    (has_cache_name names = true ∧
      ∃ bytes, input_footprint input.pshape input.element_type = .ok bytes ∧
      m' = { m with
        m_block_size_in_bytes := (m.m_block_size_in_bytes + bytes) % 2 ^ 64
        m_value_shapes := m.m_value_shapes ++ [input.pshape]
        m_value_precisions := m.m_value_precisions ++ [input.element_type] }) := by
  induction names with
  | nil =>
    simp only [record_input, Except.ok.injEq] at h
    exact Or.inl h.symm
  | cons name rest ih =>
    simp only [record_input, bind, Except.bind, pure, Except.pure] at h
    split at h
    · rename_i hname
      split at h
      · simp at h
      · rename_i bytes hb
        cases h
        exact Or.inr (Or.inl ⟨by simp [has_cache_name, hname], bytes, hb, rfl⟩)
    · split at h
      · rename_i hname
        split at h
        · simp at h
        · rename_i bytes hb
          cases h
          exact Or.inr (Or.inr ⟨by simp [has_cache_name, hname], bytes, hb, rfl⟩)
      · rcases ih h with h1 | ⟨h1, h2⟩ | ⟨h1, h2⟩
        · exact Or.inl h1
        · refine Or.inr (Or.inl ⟨?_, h2⟩)
          simp only [has_cache_name, List.any_cons] at h1 ⊢
          rw [h1]; simp
        · refine Or.inr (Or.inr ⟨?_, h2⟩)
          simp only [has_cache_name, List.any_cons] at h1 ⊢
          rw [h1]; simp

/-- Induction over the input loop of the constructor. -/
theorem record_inputs_preserves (Q : CacheManager → Prop)
    (hstep : ∀ input m m', Q m → record_input input input.names m = .ok m' → Q m')
    (inputs : List Input) (m m' : CacheManager) (hQ : Q m)
    (h : record_inputs inputs m = .ok m') : Q m' := by
  induction inputs generalizing m with
  | nil =>
    simp only [record_inputs, Except.ok.injEq] at h
    exact h ▸ hQ
  | cons input rest ih =>
    simp only [record_inputs] at h
    split at h
    · rename_i m1 h1
      exact ih m1 (hstep input m m1 hQ h1) h
    · simp at h

/-- The constructor succeeds exactly through its last assertion: the state it returns
is the state after the input loop with the layer count filled in. -/
theorem construct_ok {request : InferRequest} {m : CacheManager}
    (h : CacheManager.construct request = .ok m) :
    ∃ device m0 m1,
      request.compiled_model.execution_devices[0]? = some device ∧
      m0 = { m_request := request, m_device := device,
             m_block_size :=
               if all_gpu request.compiled_model.execution_devices then 16 else 32,
             m_context := all_gpu request.compiled_model.execution_devices,
             m_block_size_in_bytes := 0, m_key_shapes := [], m_value_shapes := [],
             m_key_precisions := [], m_value_precisions := [], m_num_decoder_layers := 0,
             m_num_allocated_kv_blocks := 0, m_key_cache := [], m_value_cache := [],
             m_tensor_counter := 0 } ∧
      record_inputs request.compiled_model.inputs m0 = .ok m1 ∧
      m = { m1 with m_num_decoder_layers := m1.m_value_precisions.length } ∧
      m1.m_value_precisions.length = m1.m_key_precisions.length := by
  unfold CacheManager.construct at h
  simp only at h
  split at h
  · split at h
    · simp at h
    · rename_i device hdev
      split at h
      · simp at h
      · rename_i m1 hm1
        split at h
        · rename_i hassert
          cases h
          exact ⟨device, _, m1, hdev, rfl, hm1, rfl, by simpa using hassert⟩
        · simp at h
  · simp at h

/-- What the input loop leaves alone. -/
theorem record_inputs_fixed {inputs : List Input} {m m' : CacheManager}
    (h : record_inputs inputs m = .ok m') :
    m' = { m with
      m_block_size_in_bytes := m'.m_block_size_in_bytes
      m_key_shapes := m'.m_key_shapes
      m_value_shapes := m'.m_value_shapes
      m_key_precisions := m'.m_key_precisions
      m_value_precisions := m'.m_value_precisions } := by
  refine record_inputs_preserves
    (fun s => s = { m with
      m_block_size_in_bytes := s.m_block_size_in_bytes
      m_key_shapes := s.m_key_shapes
      m_value_shapes := s.m_value_shapes
      m_key_precisions := s.m_key_precisions
      m_value_precisions := s.m_value_precisions }) ?_ inputs m m' rfl h
  intro input s s' hs hstep
  rcases record_input_ok hstep with rfl | ⟨_, b, _, rfl⟩ | ⟨_, b, _, rfl⟩
  · exact hs
  · simp only
    rw [hs]
  · simp only
    rw [hs]

/-- A freshly constructed manager: block size by device class, no buffers, no blocks. -/
theorem construct_fresh {request : InferRequest} {m : CacheManager}
    (h : CacheManager.construct request = .ok m) :
    m.m_block_size =
      (if all_gpu request.compiled_model.execution_devices then 16 else 32) ∧
    m.m_key_cache = [] ∧ m.m_value_cache = [] ∧ m.m_num_allocated_kv_blocks = 0 ∧
    m.m_num_decoder_layers = m.m_key_precisions.length ∧
    m.m_num_decoder_layers = m.m_value_precisions.length := by
  obtain ⟨device, m0, m1, _, hm0, hrec, hm, hlen⟩ := construct_ok h
  have hfix := record_inputs_fixed hrec
  subst hm
  have e1 : m1.m_block_size = m0.m_block_size := by rw [hfix]
  have e2 : m1.m_key_cache = m0.m_key_cache := by rw [hfix]
  have e3 : m1.m_value_cache = m0.m_value_cache := by rw [hfix]
  have e4 : m1.m_num_allocated_kv_blocks = m0.m_num_allocated_kv_blocks := by rw [hfix]
  refine ⟨?_, ?_, ?_, ?_, hlen, rfl⟩
  · show m1.m_block_size = _
    rw [e1, hm0]
  · show m1.m_key_cache = _
    rw [e2, hm0]
  · show m1.m_value_cache = _
    rw [e3, hm0]
  · show m1.m_num_allocated_kv_blocks = _
    rw [e4, hm0]

/-- Induction over the input loop of the constructor, with the input at hand known
to belong to the model. -/
theorem record_inputs_mem_preserves (Q : CacheManager → Prop) (inputs : List Input)
    (hstep : ∀ input ∈ inputs, ∀ m m', Q m → record_input input input.names m = .ok m' → Q m')
    (m m' : CacheManager) (hQ : Q m) (h : record_inputs inputs m = .ok m') : Q m' := by
  induction inputs generalizing m with
  | nil =>
    simp only [record_inputs, Except.ok.injEq] at h
    exact h ▸ hQ
  | cons input rest ih =>
    simp only [record_inputs] at h
    split at h
    · rename_i m1 h1
      exact ih (fun x hx => hstep x (List.mem_cons_of_mem _ hx)) m1
        (hstep input (List.mem_cons_self _ _) m m1 hQ h1) h
    · simp at h

theorem input_footprint_nonempty {ps : PartialShape} {t : ElementType} {b : Nat}
    (h : input_footprint ps t = .ok b) : ps ≠ [] := by
  rintro rfl
  simp [input_footprint, dim_length, bind, Except.bind] at h

/-- The shape and precision tables of a constructed manager have the length of the
layer count, and every recorded shape is the non-empty shape of a model input that
has a cache name. -/
theorem construct_tables {request : InferRequest} {m : CacheManager}
    (h : CacheManager.construct request = .ok m) :
    m.m_key_shapes.length = m.m_num_decoder_layers ∧
    m.m_value_shapes.length = m.m_num_decoder_layers ∧
    m.m_key_precisions.length = m.m_num_decoder_layers ∧
    m.m_value_precisions.length = m.m_num_decoder_layers ∧
    ∀ ps, ps ∈ m.m_key_shapes ∨ ps ∈ m.m_value_shapes →
      ps ≠ [] ∧ ∃ input ∈ request.compiled_model.inputs,
        has_cache_name input.names = true ∧ input.pshape = ps := by
  obtain ⟨device, m0, m1, _, hm0, hrec, hm, hlen⟩ := construct_ok h
  have key := record_inputs_mem_preserves
    (fun s => s.m_key_shapes.length = s.m_key_precisions.length ∧
      s.m_value_shapes.length = s.m_value_precisions.length ∧
      ∀ ps, ps ∈ s.m_key_shapes ∨ ps ∈ s.m_value_shapes →
        ps ≠ [] ∧ ∃ input ∈ request.compiled_model.inputs,
          has_cache_name input.names = true ∧ input.pshape = ps)
    request.compiled_model.inputs
    (by
      intro input hin s s' ⟨q1, q2, q3⟩ hstep
      rcases record_input_ok hstep with rfl | ⟨hn, b, hb, rfl⟩ | ⟨hn, b, hb, rfl⟩
      · exact ⟨q1, q2, q3⟩
      · refine ⟨by simp [q1], q2, ?_⟩
        intro ps hps
        simp only [List.mem_append, List.mem_singleton] at hps
        rcases hps with (hps | rfl) | hps
        · exact q3 ps (Or.inl hps)
        · exact ⟨input_footprint_nonempty hb, input, hin, hn, rfl⟩
        · exact q3 ps (Or.inr hps)
      · refine ⟨q1, by simp [q2], ?_⟩
        intro ps hps
        simp only [List.mem_append, List.mem_singleton] at hps
        rcases hps with hps | hps | rfl
        · exact q3 ps (Or.inl hps)
        · exact q3 ps (Or.inr hps)
        · exact ⟨input_footprint_nonempty hb, input, hin, hn, rfl⟩)
    m0 m1 (by rw [hm0]; simp) hrec
  obtain ⟨k1, k2, k3⟩ := key
  subst hm
  exact ⟨by simp only; rw [k1, hlen], k2, hlen.symm, rfl, k3⟩

/-! ### Claims on the no-op, monotonicity and block size -/

/-- C3: `allocate_cache_if_needed` is a no-op when the request does not exceed the
current block count: the whole state (block count, every key and value buffer with
its identity, shape and content, and the bindings of the request) is returned
unchanged and without fault; in particular a second call with the same request
returns the state of the first. -/
theorem C3_allocate_noop (m : CacheManager) (alloc alloc' : Allocator) (k n : Nat)
    (h : k ≤ m.m_num_allocated_kv_blocks) :
    m.allocate_cache_if_needed alloc k = (m, none) ∧
    (m.allocate_cache_if_needed alloc n).1.allocate_cache_if_needed alloc' n =
      ((m.allocate_cache_if_needed alloc n).1, none) := by
  have noop : ∀ (s : CacheManager) (a : Allocator) (j : Nat),
      j ≤ s.m_num_allocated_kv_blocks → s.allocate_cache_if_needed a j = (s, none) := by
    intro s a j hj
    unfold CacheManager.allocate_cache_if_needed
    rw [if_pos hj]
  refine ⟨noop m alloc k h, noop _ alloc' n ?_⟩
  rw [(allocate_cache_if_needed_fixed m alloc n).2]
  exact le_max_right _ _

/-- Witness of C3: on the host manager grown to four blocks, a request for two. -/
theorem C3_allocate_noop_witness :
    2 ≤ host_manager_4.m_num_allocated_kv_blocks ∧
    host_manager_4.allocate_cache_if_needed zero_allocator 2 = (host_manager_4, none) :=
  ⟨by decide, (C3_allocate_noop host_manager_4 zero_allocator zero_allocator 2 4 (by decide)).1⟩

/-- C6: `allocate_cache_if_needed` is monotonic: after the call the block count is
the larger of the previous count and the request, so it never decreases (and
`copy_blocks` leaves it as it is). -/
theorem C6_allocate_monotonic (m : CacheManager) (alloc : Allocator) (n : Nat)
    (block_copy_map : List (Nat × List Nat)) :
    (m.allocate_cache_if_needed alloc n).1.m_num_allocated_kv_blocks =
      max m.m_num_allocated_kv_blocks n ∧
    m.m_num_allocated_kv_blocks ≤
      (m.allocate_cache_if_needed alloc n).1.m_num_allocated_kv_blocks ∧
    (m.copy_blocks block_copy_map).1.m_num_allocated_kv_blocks = m.m_num_allocated_kv_blocks := by
  have h := (allocate_cache_if_needed_fixed m alloc n).2
  refine ⟨h, ?_, (same_but_content_fixed (copy_blocks_frame m block_copy_map)).2.1⟩
  rw [h]
  exact le_max_left _ _

theorem geometry_block_size {a b : CacheManager} (h : a.geometry = b.geometry) :
    a.get_block_size = b.get_block_size := by
  simp only [CacheManager.geometry, Prod.mk.injEq] at h
  exact h.1.2.1

/-- C10: for every device list the constructor accepts, `get_block_size` is 16 when
every execution device identifier contains "GPU" and 32 otherwise, and neither
`allocate_cache_if_needed` nor `copy_blocks` changes it, in any state and however
the call ends; so it has that value in every reachable state. -/
theorem C10_block_size (request : InferRequest) (m : CacheManager)
    (h : CacheManager.construct request = .ok m) :
    m.get_block_size = (if all_gpu request.compiled_model.execution_devices then 16 else 32) ∧
    (∀ (s : CacheManager) (alloc : Allocator) (n : Nat),
      (s.allocate_cache_if_needed alloc n).1.get_block_size = s.get_block_size) ∧
    (∀ (s : CacheManager) (block_copy_map : List (Nat × List Nat)),
      (s.copy_blocks block_copy_map).1.get_block_size = s.get_block_size) ∧
    (∀ s, Reachable request s →
      s.get_block_size = (if all_gpu request.compiled_model.execution_devices then 16 else 32)) := by
  have hgrow : ∀ (s : CacheManager) (alloc : Allocator) (n : Nat),
      (s.allocate_cache_if_needed alloc n).1.get_block_size = s.get_block_size :=
    fun s alloc n => geometry_block_size (allocate_cache_if_needed_fixed s alloc n).1
  have hcopy : ∀ (s : CacheManager) (block_copy_map : List (Nat × List Nat)),
      (s.copy_blocks block_copy_map).1.get_block_size = s.get_block_size :=
    fun s bm => geometry_block_size (same_but_content_fixed (copy_blocks_frame s bm)).1
  refine ⟨(construct_fresh h).1, hgrow, hcopy, ?_⟩
  intro s hs
  induction hs with
  | construct s hc => exact (construct_fresh hc).1
  | grow s alloc n _ _ ih => rw [hgrow]; exact ih
  | copy s bm _ _ ih => rw [hcopy]; exact ih

/-- Witness of C10: the device list `["GPU"]` gives block size 16. -/
theorem C10_block_size_witness :
    CacheManager.construct scenario_request = .ok scenario_manager ∧
    scenario_manager.get_block_size = 16 :=
  ⟨rfl, (C10_block_size scenario_request scenario_manager rfl).1.trans (by decide)⟩

/-! ### Claims on the block byte footprint -/

/-- C9 (as stated, refuted): in the end-to-end scenario the manager does not report
32768 bytes (nor `2*8*64*2*2`, which is 4096). -/
theorem C9_scenario_footprint_counterexample :
    CacheManager.construct scenario_request = .ok scenario_manager ∧
    scenario_manager.get_num_decoder_layers = 2 ∧
    scenario_manager.get_block_size_in_bytes ≠ 32768 ∧
    scenario_manager.get_block_size_in_bytes ≠ 2 * 8 * 64 * 2 * 2 :=
  ⟨rfl, by decide, by decide, by decide⟩

/-- C9 (amended): for a model declaring 2 decoder layers with key and value caches of
shape `[*, 2, 8, 64]` at a 2-byte element precision on device set `["GPU"]`, the
manager is constructed and reports 8192 bytes: 2 layers times the key and value
contributions `2*8*64*2` each. -/
theorem C9_scenario_footprint (t : ElementType) (h : t.size = 2) :
    (CacheManager.construct (example_request "GPU" t [2, 8, 64] 2)).toOption.map
        CacheManager.get_block_size_in_bytes = some 8192 ∧
    8192 = 2 * (2 * 8 * 64 * 2 + 2 * 8 * 64 * 2) := by
  cases t <;> first | (exact absurd h (by decide)) | exact ⟨by decide, by decide⟩

/-- Witness of C9 (amended): the precision `f16`. -/
theorem C9_scenario_footprint_witness :
    ElementType.f16.size = 2 ∧
    (CacheManager.construct (example_request "GPU" .f16 [2, 8, 64] 2)).toOption.map
        CacheManager.get_block_size_in_bytes = some 8192 :=
  ⟨by decide, (C9_scenario_footprint .f16 (by decide)).1⟩

/-! ### The invariant of the store -/

theorem geometry_shapes {a b : CacheManager} (h : a.geometry = b.geometry) :
    a.m_key_shapes = b.m_key_shapes ∧ a.m_value_shapes = b.m_value_shapes ∧
    a.m_key_precisions = b.m_key_precisions ∧ a.m_value_precisions = b.m_value_precisions ∧
    a.m_num_decoder_layers = b.m_num_decoder_layers ∧ a.m_context = b.m_context := by
  simp only [CacheManager.geometry, Prod.mk.injEq] at h
  exact ⟨h.2.1.1, h.2.1.2, h.2.2.1.1, h.2.2.1.2, h.2.2.2, h.1.2.2.1⟩

/-- The state of the growth loop before layer `i`, started from `m` with target `n`:
geometry and block count are those of the start, the lists have one length, which is
the larger of the initial length and `i`, layers before `i` are shaped for `n`, and
layers from `i` on are those of `m`. -/
theorem allocate_loop_spec (alloc : Allocator) (n : Nat) (m : CacheManager)
    (hlen : m.m_key_cache.length = m.m_value_cache.length) :
    ∀ i s s',
      (s.geometry = m.geometry ∧ s.m_num_allocated_kv_blocks = n ∧
        s.m_key_cache.length = s.m_value_cache.length ∧
        s.m_key_cache.length = max m.m_key_cache.length i ∧
        (∀ j, j < i → layer_shaped s n j) ∧
        (∀ j, i ≤ j → s.m_key_cache[j]? = m.m_key_cache[j]? ∧
          s.m_value_cache[j]? = m.m_value_cache[j]?)) →
      allocate_layer alloc n i s = .ok s' →
      (s'.geometry = m.geometry ∧ s'.m_num_allocated_kv_blocks = n ∧
        s'.m_key_cache.length = s'.m_value_cache.length ∧
        s'.m_key_cache.length = max m.m_key_cache.length (i + 1) ∧
        (∀ j, j < i + 1 → layer_shaped s' n j) ∧
        (∀ j, i + 1 ≤ j → s'.m_key_cache[j]? = m.m_key_cache[j]? ∧
          s'.m_value_cache[j]? = m.m_value_cache[j]?)) := by
  intro i s s' ⟨hg, hc, hl, hmax, hshaped, hrest⟩ hb
  obtain ⟨g', c', l', _, max', other, k, v, hk, hv, hks, hvs, hkp, hvp, hkr, hvr⟩ :=
    allocate_layer_effect hl hb
  have gs := geometry_shapes g'
  refine ⟨g'.trans hg, c'.trans hc, l', ?_, ?_, ?_⟩
  · rw [max', hmax]; omega
  · intro j hj
    by_cases hji : j = i
    · subst hji
      exact ⟨k, v, hk, hv, by rw [gs.1]; exact hks, by rw [gs.2.1]; exact hvs,
        by rw [gs.2.2.1]; exact hkp, by rw [gs.2.2.2.1]; exact hvp,
        by rw [gs.2.2.2.2.2]; exact hkr, by rw [gs.2.2.2.2.2]; exact hvr⟩
    · obtain ⟨k0, v0, hk0, hv0, hks0, hvs0, hkp0, hvp0, hkr0, hvr0⟩ := hshaped j (by omega)
      obtain ⟨o1, o2⟩ := other j hji
      exact ⟨k0, v0, by rw [o1]; exact hk0, by rw [o2]; exact hv0,
        by rw [gs.1]; exact hks0, by rw [gs.2.1]; exact hvs0,
        by rw [gs.2.2.1]; exact hkp0, by rw [gs.2.2.2.1]; exact hvp0,
        by rw [gs.2.2.2.2.2]; exact hkr0, by rw [gs.2.2.2.2.2]; exact hvr0⟩
  · intro j hj
    obtain ⟨o1, o2⟩ := other j (by omega)
    obtain ⟨r1, r2⟩ := hrest j (by omega)
    exact ⟨o1.trans r1, o2.trans r2⟩

theorem getElem?_of_map_header {l l' : List Tensor}
    (h : l'.map Tensor.header = l.map Tensor.header) (i : Nat) (t' : Tensor)
    (ht : l'[i]? = some t') : ∃ t, l[i]? = some t ∧ t'.header = t.header := by
  have h1 : (l'.map Tensor.header)[i]? = some t'.header := by
    rw [List.getElem?_map, ht]; rfl
  rw [h, List.getElem?_map] at h1
  cases hl : l[i]? with
  | none => rw [hl] at h1; simp at h1
  | some t =>
    rw [hl] at h1
    simp only [Option.map_some', Option.some.injEq] at h1
    exact ⟨t, rfl, h1.symm⟩

theorem store_invariant_of_same_but_content {m m' : CacheManager}
    (h : same_but_content m m') (hinv : store_invariant m) : store_invariant m' := by
  obtain ⟨hfix, hk, hv⟩ := h
  obtain ⟨hlen, hle, hsh⟩ := hinv
  have lk : m'.m_key_cache.length = m.m_key_cache.length := by
    simpa using congrArg List.length hk
  have lv : m'.m_value_cache.length = m.m_value_cache.length := by
    simpa using congrArg List.length hv
  have e1 : m'.m_num_decoder_layers = m.m_num_decoder_layers := by rw [hfix]
  have e2 : m'.m_num_allocated_kv_blocks = m.m_num_allocated_kv_blocks := by rw [hfix]
  have e3 : m'.m_key_shapes = m.m_key_shapes := by rw [hfix]
  have e4 : m'.m_value_shapes = m.m_value_shapes := by rw [hfix]
  have e5 : m'.m_key_precisions = m.m_key_precisions := by rw [hfix]
  have e6 : m'.m_value_precisions = m.m_value_precisions := by rw [hfix]
  have e7 : m'.m_context = m.m_context := by rw [hfix]
  refine ⟨by rw [lk, lv, hlen], by rw [lk, e1]; exact hle, ?_⟩
  intro i hi
  obtain ⟨k, v, hk0, hv0, hks, hvs, hkp, hvp, hkr, hvr⟩ := hsh i (by rw [← lk]; exact hi)
  have hi' : i < m'.m_value_cache.length := by rw [lv, ← hlen, ← lk]; exact hi
  obtain ⟨k', hk'⟩ : ∃ k', m'.m_key_cache[i]? = some k' := ⟨_, List.getElem?_eq_getElem hi⟩
  obtain ⟨v', hv'⟩ : ∃ v', m'.m_value_cache[i]? = some v' := ⟨_, List.getElem?_eq_getElem hi'⟩
  obtain ⟨k1, hk1, hkh⟩ := getElem?_of_map_header hk i k' hk'
  obtain ⟨v1, hv1, hvh⟩ := getElem?_of_map_header hv i v' hv'
  rw [hk0] at hk1
  rw [hv0] at hv1
  cases hk1
  cases hv1
  simp only [Tensor.header, Prod.mk.injEq] at hkh hvh
  refine ⟨k', v', hk', hv', ?_, ?_, ?_, ?_, ?_, ?_⟩
  · rw [e3, e2, hkh.2.2.2]; exact hks
  · rw [e4, e2, hvh.2.2.2]; exact hvs
  · rw [e5, hkh.2.2.1]; exact hkp
  · rw [e6, hvh.2.2.1]; exact hvp
  · rw [e7, hkh.2.1]; exact hkr
  · rw [e7, hvh.2.1]; exact hvr

theorem store_invariant_of_allocate {m : CacheManager} (alloc : Allocator) (n : Nat)
    (hinv : store_invariant m) (hok : (m.allocate_cache_if_needed alloc n).2 = none) :
    store_invariant (m.allocate_cache_if_needed alloc n).1 := by
  obtain ⟨hlen, hle, hsh⟩ := hinv
  unfold CacheManager.allocate_cache_if_needed at hok ⊢
  split
  · exact ⟨hlen, hle, hsh⟩
  · rename_i hlt
    rw [if_neg hlt] at hok
    simp only at hok ⊢
    obtain ⟨h1, _⟩ := for_each_layer_spec (allocate_layer alloc n)
      (fun i s => s.geometry = m.geometry ∧ s.m_num_allocated_kv_blocks = n ∧
        s.m_key_cache.length = s.m_value_cache.length ∧
        s.m_key_cache.length = max m.m_key_cache.length i ∧
        (∀ j, j < i → layer_shaped s n j) ∧
        (∀ j, i ≤ j → s.m_key_cache[j]? = m.m_key_cache[j]? ∧
          s.m_value_cache[j]? = m.m_value_cache[j]?))
      (allocate_loop_spec alloc n m hlen) m.m_num_decoder_layers 0
      { m with m_num_allocated_kv_blocks := n }
      ⟨rfl, rfl, hlen, by simp, by intro j hj; omega, by intro j _; exact ⟨rfl, rfl⟩⟩
    obtain ⟨g, c, l, mx, shaped, _⟩ := h1 hok
    have gs := geometry_shapes g
    simp only [Nat.zero_add] at mx shaped
    refine ⟨l, ?_, ?_⟩
    · rw [mx, gs.2.2.2.2.1]; omega
    · intro i hi
      rw [c]
      exact shaped i (by rw [mx] at hi; omega)

/-- Every reachable state satisfies the invariant of the store and has the geometry
fixed by the constructor. -/
theorem reachable_invariant {request : InferRequest} {m : CacheManager}
    (h : Reachable request m) :
    store_invariant m ∧ ∃ m0, CacheManager.construct request = .ok m0 ∧ m.geometry = m0.geometry := by
  induction h with
  | construct s hc =>
    obtain ⟨_, hk, hv, _, _, _⟩ := construct_fresh hc
    refine ⟨⟨by rw [hk, hv], by rw [hk]; simp, ?_⟩, s, hc, rfl⟩
    intro i hi
    rw [hk] at hi
    simp at hi
  | grow s alloc n _ hok ih =>
    obtain ⟨hinv, m0, h0, hg⟩ := ih
    exact ⟨store_invariant_of_allocate alloc n hinv hok, m0, h0,
      (allocate_cache_if_needed_fixed s alloc n).1.trans hg⟩
  | copy s bm _ _ ih =>
    obtain ⟨hinv, m0, h0, hg⟩ := ih
    exact ⟨store_invariant_of_same_but_content (copy_blocks_frame s bm) hinv, m0, h0,
      (same_but_content_fixed (copy_blocks_frame s bm)).1.trans hg⟩

theorem shape_of_set_kv_blocks {ps : PartialShape} {n : Nat} {sh : Shape}
    (h : set_kv_blocks ps n = .ok sh) : sh.head? = some n ∧ sh.tail.map some = ps.tail := by
  obtain ⟨d, rest, rfl, rfl⟩ := (set_kv_blocks_ok ps n sh).mp h
  exact ⟨rfl, rfl⟩

/-! ### Where an allocation failure comes from -/

theorem vector_at_fault {α : Type} {v : List α} {i : Nat} {f : Fault}
    (h : vector_at v i = .error f) : f = .out_of_range := by
  unfold vector_at at h
  split at h
  · simp at h
  · cases h; rfl

theorem get_shape_fault {ps : PartialShape} {f : Fault} (h : get_shape ps = .error f) :
    f = .dynamic_shape := by
  induction ps with
  | nil => simp [get_shape] at h
  | cons d rest ih =>
    cases d with
    | none =>
      simp only [get_shape, Except.error.injEq] at h
      exact h.symm
    | some d =>
      simp only [get_shape] at h
      split at h
      · simp at h
      · rename_i f' hf'
        cases h
        exact ih hf'

theorem set_kv_blocks_fault {ps : PartialShape} {n : Nat} {f : Fault}
    (h : set_kv_blocks ps n = .error f) : f ≠ .bad_alloc := by
  unfold set_kv_blocks at h
  split at h
  · cases h; decide
  · rw [get_shape_fault h]; decide

theorem get_key_cache_precision_fault {m : CacheManager} {i : Nat} {f : Fault}
    (h : m.get_key_cache_precision i = .error f) : f ≠ .bad_alloc := by
  unfold CacheManager.get_key_cache_precision at h
  split at h
  · rw [vector_at_fault h]; decide
  · cases h; decide

theorem get_value_cache_precision_fault {m : CacheManager} {i : Nat} {f : Fault}
    (h : m.get_value_cache_precision i = .error f) : f ≠ .bad_alloc := by
  unfold CacheManager.get_value_cache_precision at h
  split at h
  · rw [vector_at_fault h]; decide
  · cases h; decide

theorem create_tensor_fault {alloc : Allocator} {l : Nat} {r : Bool} {id : Nat} {remote : Bool}
    {t : ElementType} {shape : Shape} {f : Fault}
    (h : create_tensor alloc l r id remote t shape = .error f) : alloc l r = none := by
  unfold create_tensor at h
  split at h
  · rename_i hn; exact hn
  · simp at h

theorem copy_roi_fault {s0 : Shape} {dst src : Tensor} {shape : Shape} {f : Fault}
    (h : copy_roi s0 dst src shape = .error f) : f ≠ .bad_alloc := by
  unfold copy_roi at h
  split at h
  · split at h
    · cases h; decide
    · split at h
      · simp at h
      · cases h; decide
  · unfold copy_to_roi at h
    split at h
    · split at h
      · split at h
        · simp at h
        · cases h; decide
      · cases h; decide
    · cases h; decide

theorem allocate_layer_tensors_fault {alloc : Allocator} {n i : Nat} {m : CacheManager}
    (h : allocate_layer_tensors alloc n i m = .error .bad_alloc) :
    alloc i false = none ∨ alloc i true = none := by
  simp only [allocate_layer_tensors, bind, Except.bind, pure, Except.pure] at h
  split at h
  · rename_i f hf
    cases h
    exact absurd (vector_at_fault hf) (by decide)
  split at h
  · rename_i f hf
    cases h
    exact absurd rfl (set_kv_blocks_fault hf)
  split at h
  · rename_i f hf
    cases h
    exact absurd (vector_at_fault hf) (by decide)
  split at h
  · rename_i f hf
    cases h
    exact absurd rfl (set_kv_blocks_fault hf)
  split at h
  · rename_i f hf
    cases h
    exact absurd rfl (get_key_cache_precision_fault hf)
  split at h
  · rename_i f hf
    exact Or.inl (create_tensor_fault hf)
  split at h
  · rename_i f hf
    cases h
    exact absurd rfl (get_value_cache_precision_fault hf)
  split at h
  · rename_i f hf
    exact Or.inr (create_tensor_fault hf)
  · simp at h

theorem store_layer_tensors_fault {i : Nat} {m : CacheManager} {k v : Tensor} {f : Fault}
    (h : store_layer_tensors i m k v = .error f) : f ≠ .bad_alloc := by
  simp only [store_layer_tensors, bind, Except.bind, pure, Except.pure] at h
  split at h
  · split at h
    · rename_i f' hf
      cases h
      rw [vector_at_fault hf]; decide
    split at h
    · rename_i f' hf
      cases h
      exact copy_roi_fault hf
    split at h
    · rename_i f' hf
      cases h
      rw [vector_at_fault hf]; decide
    split at h
    · rename_i f' hf
      cases h
      exact copy_roi_fault hf
    · simp at h
  · simp at h

theorem update_request_tensor_fault {m : CacheManager} {i : Nat} {f : Fault}
    (h : m.update_request_tensor i = .error f) : f ≠ .bad_alloc := by
  simp only [CacheManager.update_request_tensor, bind, Except.bind, pure, Except.pure] at h
  split at h
  · rename_i f' hf
    cases h
    rw [vector_at_fault hf]; decide
  split at h
  · rename_i f' hf
    cases h
    rw [vector_at_fault hf]; decide
  · simp at h

/-- An iteration of the growth loop ends in `bad_alloc` only if the allocator throws
for the key or for the value buffer of that layer. -/
theorem allocate_layer_bad_alloc {alloc : Allocator} {n i : Nat} {m : CacheManager}
    (h : allocate_layer alloc n i m = .error .bad_alloc) :
    alloc i false = none ∨ alloc i true = none := by
  unfold allocate_layer at h
  split at h
  · rename_i f hf
    cases h
    exact allocate_layer_tensors_fault hf
  · split at h
    · rename_i f hf
      cases h
      exact absurd rfl (store_layer_tensors_fault hf)
    · exact absurd rfl (update_request_tensor_fault h)

/-! ### Claim on a growth that fails -/

set_option maxRecDepth 4000 in
/-- C4 (as stated, refuted): a growth that fails at a layer does leave a partial
result: on the host manager grown to four blocks, a call for five blocks whose
allocation fails at layer 1 ends with the block count at 5, not 4 (and with layer 0
already replaced). -/
theorem C4_failed_growth_counterexample :
    ¬ ∀ (request : InferRequest) (m m' : CacheManager) (alloc : Allocator) (target : Nat),
      Reachable request m → m.m_num_allocated_kv_blocks < target →
      m.allocate_cache_if_needed alloc target = (m', some .bad_alloc) →
      m'.m_num_allocated_kv_blocks = m.m_num_allocated_kv_blocks ∧
      m'.m_key_cache = m.m_key_cache ∧ m'.m_value_cache = m.m_value_cache := by
  intro hall
  have hr : Reachable host_request host_manager_4 :=
    Reachable.grow _ _ _ (Reachable.construct _ rfl) rfl
  have h := hall host_request host_manager_4
    (host_manager_4.allocate_cache_if_needed (failing_allocator 1) 5).1 (failing_allocator 1) 5
    hr (by decide) (Prod.ext rfl rfl)
  exact absurd h.1 (by decide)

/-- C4 (amended): if allocation fails during a growing `allocate_cache_if_needed`
call on a reachable state, the fault leaves the manager with the block count already
set to the target (it is assigned before the first layer is processed); the failure
is that of the allocator at some layer `i`; the layers before `i` already hold
replacement buffers with the target as leading dimension, and layer `i` and all
later layers hold exactly what they held before the call. -/
theorem C4_failed_growth (request : InferRequest) (m m' : CacheManager) (alloc : Allocator)
    (target : Nat) (hr : Reachable request m) (hgrow : m.m_num_allocated_kv_blocks < target)
    (hfail : m.allocate_cache_if_needed alloc target = (m', some .bad_alloc)) :
    m'.m_num_allocated_kv_blocks = target ∧
    ∃ i, i < m.m_num_decoder_layers ∧ (alloc i false = none ∨ alloc i true = none) ∧
      (∀ j, i ≤ j → m'.m_key_cache[j]? = m.m_key_cache[j]? ∧
        m'.m_value_cache[j]? = m.m_value_cache[j]?) ∧
      (∀ j, j < i → ∃ k v, m'.m_key_cache[j]? = some k ∧ m'.m_value_cache[j]? = some v ∧
        k.shape.head? = some target ∧ v.shape.head? = some target) := by
  obtain ⟨⟨hlen, _, _⟩, _⟩ := reachable_invariant hr
  unfold CacheManager.allocate_cache_if_needed at hfail
  rw [if_neg (by omega)] at hfail
  simp only at hfail
  obtain ⟨_, h2⟩ := for_each_layer_spec (allocate_layer alloc target)
    (fun i s => s.geometry = m.geometry ∧ s.m_num_allocated_kv_blocks = target ∧
      s.m_key_cache.length = s.m_value_cache.length ∧
      s.m_key_cache.length = max m.m_key_cache.length i ∧
      (∀ j, j < i → layer_shaped s target j) ∧
      (∀ j, i ≤ j → s.m_key_cache[j]? = m.m_key_cache[j]? ∧
        s.m_value_cache[j]? = m.m_value_cache[j]?))
    (allocate_loop_spec alloc target m hlen) m.m_num_decoder_layers 0
    { m with m_num_allocated_kv_blocks := target }
    ⟨rfl, rfl, hlen, by simp, by intro j hj; omega, by intro j _; exact ⟨rfl, rfl⟩⟩
  rw [hfail] at h2
  obtain ⟨i, _, hi, ⟨_, hc, _, _, hshaped, hrest⟩, hbody⟩ := h2 .bad_alloc rfl
  simp only at hc hshaped hrest hbody
  refine ⟨hc, i, by omega, allocate_layer_bad_alloc hbody, hrest, ?_⟩
  intro j hj
  obtain ⟨k, v, hk, hv, ⟨_, _, hks⟩, ⟨_, _, hvs⟩, _⟩ := hshaped j hj
  exact ⟨k, v, hk, hv, (shape_of_set_kv_blocks hks).1, (shape_of_set_kv_blocks hvs).1⟩

set_option maxRecDepth 4000 in
/-- Witness of C4 (amended): the host manager grown to four blocks, asked for five
with an allocator that throws at layer 1. -/
theorem C4_failed_growth_witness :
    host_manager_4.m_num_allocated_kv_blocks < 5 ∧
    (host_manager_4.allocate_cache_if_needed (failing_allocator 1) 5).2 = some .bad_alloc ∧
    (host_manager_4.allocate_cache_if_needed (failing_allocator 1) 5).1.m_num_allocated_kv_blocks
      = 5 :=
  ⟨by decide, rfl,
    (C4_failed_growth host_request host_manager_4 _ (failing_allocator 1) 5
      (Reachable.grow _ _ _ (Reachable.construct _ rfl) rfl) (by decide) (Prod.ext rfl rfl)).1⟩

/-! ### The first allocation -/

theorem get_shape_static (ps : PartialShape) (h : ps.all Option.isSome = true) :
    ∃ sh, get_shape ps = .ok sh := by
  induction ps with
  | nil => exact ⟨[], rfl⟩
  | cons d rest ih =>
    simp only [List.all_cons, Bool.and_eq_true] at h
    obtain ⟨sh, hsh⟩ := ih h.2
    cases d with
    | none => simp at h
    | some d => exact ⟨d :: sh, by simp [get_shape, hsh]⟩

theorem set_kv_blocks_static (ps : PartialShape) (n : Nat) (hne : ps ≠ [])
    (h : ps.tail.all Option.isSome = true) : ∃ sh, set_kv_blocks ps n = .ok sh := by
  cases ps with
  | nil => exact absurd rfl hne
  | cons d rest =>
    simp only [set_kv_blocks]
    exact get_shape_static _ (by simpa using h)

/-- An iteration of the growth loop for a layer the store does not hold yet succeeds
when the tables cover the layer, its declared shapes are static apart from the block
dimension and the allocator does not throw. -/
theorem allocate_layer_push_ok {alloc : Allocator} {n i : Nat} {s : CacheManager}
    (hk : s.m_key_cache.length = i) (hv : s.m_value_cache.length = i)
    (hks : ∃ ps, s.m_key_shapes[i]? = some ps ∧ ∃ sh, set_kv_blocks ps n = .ok sh)
    (hvs : ∃ ps, s.m_value_shapes[i]? = some ps ∧ ∃ sh, set_kv_blocks ps n = .ok sh)
    (hkp : i < s.m_key_precisions.length) (hvp : i < s.m_value_precisions.length)
    (halloc : ∀ l r, alloc l r ≠ none) :
    ∃ s', allocate_layer alloc n i s = .ok s' := by
  obtain ⟨kps, hkps, ksh, hksh⟩ := hks
  obtain ⟨vps, hvps, vsh, hvsh⟩ := hvs
  have a1 := (vector_at_ok _ _ _).mpr hkps
  have a2 := (vector_at_ok _ _ _).mpr hvps
  have p1 : s.get_key_cache_precision i = .ok s.m_key_precisions[i] := by
    unfold CacheManager.get_key_cache_precision
    rw [if_pos hkp]
    exact (vector_at_ok _ _ _).mpr (List.getElem?_eq_getElem hkp)
  have p2 : s.get_value_cache_precision i = .ok s.m_value_precisions[i] := by
    unfold CacheManager.get_value_cache_precision
    rw [if_pos hvp]
    exact (vector_at_ok _ _ _).mpr (List.getElem?_eq_getElem hvp)
  obtain ⟨gk, hgk⟩ := Option.ne_none_iff_exists'.mp (halloc i false)
  obtain ⟨gv, hgv⟩ := Option.ne_none_iff_exists'.mp (halloc i true)
  have hnot : ¬ i < s.m_key_cache.length := by omega
  simp only [allocate_layer, allocate_layer_tensors, bind, Except.bind, pure, Except.pure, a1, a2,
    hksh, hvsh, p1, p2, create_tensor, hgk, hgv, store_layer_tensors, if_neg hnot]
  apply (update_request_tensor_ok_iff _ i).mpr
  simp only [List.length_append, List.length_singleton]
  omega

/-- C7 (as stated, refuted): a first request for zero blocks on the freshly
constructed scenario manager (2 decoder layers) completes and leaves the store
empty, not holding 2 key and 2 value buffers. -/
theorem C7_first_allocation_counterexample :
    ¬ ∀ (request : InferRequest) (m : CacheManager) (alloc : Allocator) (n : Nat),
      CacheManager.construct request = .ok m →
      (m.allocate_cache_if_needed alloc n).2 = none →
      (m.allocate_cache_if_needed alloc n).1.m_key_cache.length = m.get_num_decoder_layers ∧
      (m.allocate_cache_if_needed alloc n).1.m_value_cache.length = m.get_num_decoder_layers := by
  intro hall
  have h := hall scenario_request scenario_manager ramp_allocator 0 rfl rfl
  exact absurd h.1 (by decide)

/-- C7 (amended): for every requested size `n ≥ 1`, the first
`allocate_cache_if_needed(n)` call on a freshly constructed manager completes
without fault, provided the allocator does not throw and the declared cache shapes
are static apart from the block dimension, and leaves the store holding exactly
`num_decoder_layers` key buffers and `num_decoder_layers` value buffers, each with
leading dimension `n`. (A first request for 0 blocks is a no-op and leaves the store
empty.) -/
theorem C7_first_allocation (request : InferRequest) (m : CacheManager) (alloc : Allocator)
    (n : Nat) (h : CacheManager.construct request = .ok m) (hn : 1 ≤ n)
    (halloc : ∀ l r, alloc l r ≠ none)
    (hstatic : ∀ input ∈ request.compiled_model.inputs, has_cache_name input.names = true →
      input.pshape.tail.all Option.isSome = true) :
    (m.allocate_cache_if_needed alloc n).2 = none ∧
    (m.allocate_cache_if_needed alloc n).1.m_key_cache.length = m.get_num_decoder_layers ∧
    (m.allocate_cache_if_needed alloc n).1.m_value_cache.length = m.get_num_decoder_layers ∧
    (∀ k ∈ (m.allocate_cache_if_needed alloc n).1.m_key_cache, k.shape.head? = some n) ∧
    (∀ v ∈ (m.allocate_cache_if_needed alloc n).1.m_value_cache, v.shape.head? = some n) := by
  obtain ⟨_, hk, hv, hc, _, _⟩ := construct_fresh h
  obtain ⟨t1, t2, t3, t4, tsh⟩ := construct_tables h
  have hlen : m.m_key_cache.length = m.m_value_cache.length := by rw [hk, hv]
  unfold CacheManager.allocate_cache_if_needed
  rw [if_neg (by omega)]
  simp only
  obtain ⟨h1, h2⟩ := for_each_layer_spec (allocate_layer alloc n)
    (fun i s => s.geometry = m.geometry ∧ s.m_num_allocated_kv_blocks = n ∧
      s.m_key_cache.length = s.m_value_cache.length ∧
      s.m_key_cache.length = max m.m_key_cache.length i ∧
      (∀ j, j < i → layer_shaped s n j) ∧
      (∀ j, i ≤ j → s.m_key_cache[j]? = m.m_key_cache[j]? ∧
        s.m_value_cache[j]? = m.m_value_cache[j]?))
    (allocate_loop_spec alloc n m hlen) m.m_num_decoder_layers 0
    { m with m_num_allocated_kv_blocks := n }
    ⟨rfl, rfl, hlen, by simp, by intro j hj; omega, by intro j _; exact ⟨rfl, rfl⟩⟩
  generalize for_each_layer (allocate_layer alloc n) m.m_num_decoder_layers 0
    { m with m_num_allocated_kv_blocks := n } = r at h1 h2
  obtain ⟨s, f⟩ := r
  have hnone : f = none := by
    cases f with
    | none => rfl
    | some f =>
      exfalso
      obtain ⟨j, _, hj, ⟨g, _, l, mx, _, _⟩, hbody⟩ := h2 f rfl
      simp only [Nat.zero_add] at hj
      simp only at g l mx hbody
      have gs := geometry_shapes g
      have static : ∀ ps, ps ∈ m.m_key_shapes ∨ ps ∈ m.m_value_shapes →
          ∃ sh, set_kv_blocks ps n = .ok sh := by
        intro ps hps
        obtain ⟨hne, input, hin, hname, rfl⟩ := tsh ps hps
        exact set_kv_blocks_static _ n hne (hstatic input hin hname)
      have hjk : j < m.m_key_shapes.length := by rw [t1]; exact hj
      have hjv : j < m.m_value_shapes.length := by rw [t2]; exact hj
      rw [hk] at mx
      simp only [List.length_nil, Nat.zero_max] at mx
      obtain ⟨s', hs'⟩ := @allocate_layer_push_ok alloc n j s
        mx (by rw [← l]; exact mx)
        ⟨m.m_key_shapes[j], by rw [gs.1]; exact List.getElem?_eq_getElem hjk,
          static _ (Or.inl (List.getElem_mem hjk))⟩
        ⟨m.m_value_shapes[j], by rw [gs.2.1]; exact List.getElem?_eq_getElem hjv,
          static _ (Or.inr (List.getElem_mem hjv))⟩
        (by rw [gs.2.2.1, t3]; exact hj) (by rw [gs.2.2.2.1, t4]; exact hj) halloc
      rw [hs'] at hbody
      cases hbody
  subst hnone
  obtain ⟨_, _, l, mx, shaped, _⟩ := h1 rfl
  simp only [Nat.zero_add] at mx shaped
  simp only at l mx shaped ⊢
  rw [hk] at mx
  simp only [List.length_nil, Nat.zero_max] at mx
  refine ⟨trivial, mx, by rw [← l]; exact mx, ?_, ?_⟩
  · intro k hkm
    obtain ⟨j, hj, rfl⟩ := List.getElem_of_mem hkm
    obtain ⟨k0, _, hk0, _, ⟨_, _, hset⟩, _⟩ := shaped j (by rw [← mx]; exact hj)
    rw [List.getElem?_eq_getElem hj] at hk0
    cases hk0
    exact (shape_of_set_kv_blocks hset).1
  · intro v hvm
    obtain ⟨j, hj, rfl⟩ := List.getElem_of_mem hvm
    obtain ⟨_, v0, _, hv0, _, ⟨_, _, hset⟩, _⟩ := shaped j (by rw [← mx, l]; exact hj)
    rw [List.getElem?_eq_getElem hj] at hv0
    cases hv0
    exact (shape_of_set_kv_blocks hset).1

set_option maxRecDepth 4000 in
/-- Witness of C7 (amended): the scenario manager (2 layers) asked for 4 blocks holds
four-block buffers for both layers. -/
theorem C7_first_allocation_witness :
    CacheManager.construct scenario_request = .ok scenario_manager ∧
    scenario_manager.get_num_decoder_layers = 2 ∧
    (scenario_manager.allocate_cache_if_needed ramp_allocator 4).2 = none ∧
    (scenario_manager.allocate_cache_if_needed ramp_allocator 4).1.m_key_cache.length = 2 ∧
    (scenario_manager.allocate_cache_if_needed ramp_allocator 4).1.m_key_cache.map Tensor.shape =
      [[4, 2, 8, 64], [4, 2, 8, 64]] :=
  have h := C7_first_allocation scenario_request scenario_manager ramp_allocator 4 rfl
    (by decide) (fun _ _ => Option.some_ne_none _) (by decide)
  ⟨rfl, rfl, h.1, h.2.1, rfl⟩

/-! ### Block copy and growth at the element widths where they go wrong -/

set_option maxRecDepth 8000 in
/-- C1 (the code at the failing input): on a host store of two-byte elements with
blocks of 4 bytes grown to ten blocks, `copy_blocks` with the map `{5: [7, 9]}`
completes without fault, but uses the element count 2 as byte stride: block 7 and
block 9 keep their own bytes instead of receiving those of block 5, and the bytes
`[10, 11]` of block 2 land in blocks 3 and 4, which are not destinations. -/
theorem C1_copy_blocks_two_byte_elements :
    (f16_manager_10.copy_blocks [(5, [7, 9])]).2 = none ∧
    f16_manager_10.m_key_cache.map (fun t => (t.shape, t.block_bytes)) = [([10, 1, 1, 2], 4)] ∧
    f16_manager_10.m_key_cache.map (fun t => block_content t.data t.block_bytes 5) =
      [[20, 21, 22, 23]] ∧
    (f16_manager_10.copy_blocks [(5, [7, 9])]).1.m_key_cache.map
      (fun t => block_content t.data t.block_bytes 7) = [[28, 29, 30, 31]] ∧
    (f16_manager_10.copy_blocks [(5, [7, 9])]).1.m_key_cache.map
      (fun t => block_content t.data t.block_bytes 9) = [[36, 37, 38, 39]] ∧
    f16_manager_10.m_key_cache.map (fun t => block_content t.data t.block_bytes 3) =
      [[12, 13, 14, 15]] ∧
    (f16_manager_10.copy_blocks [(5, [7, 9])]).1.m_key_cache.map
      (fun t => block_content t.data t.block_bytes 3) = [[12, 13, 10, 11]] ∧
    (f16_manager_10.copy_blocks [(5, [7, 9])]).1.m_key_cache.map
      (fun t => block_content t.data t.block_bytes 4) = [[16, 17, 10, 11]] := by
  refine ⟨?_, ?_, ?_, ?_, ?_, ?_, ?_, ?_⟩ <;> rfl

set_option maxRecDepth 100000 in
/-- C2 (the code at the failing input): growing a host `u4` buffer of shape
`[131072, 8, 32, 128]` (`2 ^ 32` elements, `2 ^ 31` bytes) preserves nothing: the
element count accumulated in an `int` is 0, so the packed branch of `copy_roi`
copies 0 bytes and the new buffer keeps the bytes it was allocated with. For
`[65536, 8, 32, 128]` the count handed to `memcpy` is `2 ^ 63 - 2 ^ 30` bytes, far
past the `2 ^ 30` bytes of the old buffer. -/
theorem C2_packed_growth_int_accumulator (old_data new_data : List Nat) :
    copy_roi [0, 0, 0, 0]
      { id := 2, remote := false, element_type := .u4, shape := [131073, 8, 32, 128],
        data := new_data }
      { id := 0, remote := false, element_type := .u4, shape := [131072, 8, 32, 128],
        data := old_data }
      [131072, 8, 32, 128] =
      .ok { id := 2, remote := false, element_type := .u4, shape := [131073, 8, 32, 128],
            data := new_data } ∧
    copy_roi_count .u4 [131072, 8, 32, 128] = 0 ∧
    byte_size .u4 [131072, 8, 32, 128] = 2 ^ 31 ∧
    copy_roi_count .u4 [65536, 8, 32, 128] = 2 ^ 63 - 2 ^ 30 ∧
    byte_size .u4 [65536, 8, 32, 128] = 2 ^ 30 := by
  have h0 : copy_roi_count .u4 [131072, 8, 32, 128] = 0 := by rfl
  refine ⟨?_, h0, by rfl, by rfl, by rfl⟩
  simp [copy_roi, h0, memcpy]

/-! ### Growth preserves content where the byte count is right -/

theorem shape_size_eq_prod (shape : Shape) : shape_size shape = shape.prod := by
  unfold shape_size
  rw [List.prod_eq_foldl]

theorem shape_size_cons (n : Nat) (rest : Shape) :
    shape_size (n :: rest) = n * shape_size rest := by
  simp [shape_size_eq_prod]

theorem to_int_modEq (n : Nat) : to_int n ≡ (n : Int) [ZMOD 2 ^ 32] := by
  unfold to_int Int.ModEq
  split <;> omega

theorem to_int_range (n : Nat) : -(2 ^ 31 : Int) ≤ to_int n ∧ to_int n < 2 ^ 31 := by
  unfold to_int
  split <;> omega

theorem to_size_t_modEq (z : Int) : ((to_size_t z : Nat) : Int) ≡ z [ZMOD 2 ^ 32] := by
  unfold to_size_t Int.ModEq
  rw [Int.toNat_of_nonneg (Int.emod_nonneg _ (by norm_num))]
  omega

/-- The `int` accumulator is congruent modulo `2 ^ 32` to the exact product, and in the
range of an `int` once a factor has been multiplied in. -/
theorem accumulate_int_spec (dims : List Nat) (init : Int) :
    accumulate_int init dims ≡ init * (dims.prod : Nat) [ZMOD 2 ^ 32] ∧
    (dims ≠ [] → -(2 ^ 31 : Int) ≤ accumulate_int init dims ∧ accumulate_int init dims < 2 ^ 31) := by
  induction dims generalizing init with
  | nil => simp [accumulate_int, Int.ModEq]
  | cons x xs ih =>
    simp only [accumulate_int]
    obtain ⟨h1, h2⟩ := ih (to_int ((to_size_t init * x) % 2 ^ 64))
    have hstep : to_int ((to_size_t init * x) % 2 ^ 64) ≡ init * (x : Int) [ZMOD 2 ^ 32] := by
      have a1 := to_int_modEq ((to_size_t init * x) % 2 ^ 64)
      have a2 : (((to_size_t init * x) % 2 ^ 64 : Nat) : Int) ≡
          ((to_size_t init * x : Nat) : Int) [ZMOD 2 ^ 32] := by
        generalize to_size_t init * x = p
        unfold Int.ModEq
        omega
      have a3 : ((to_size_t init * x : Nat) : Int) ≡ init * (x : Int) [ZMOD 2 ^ 32] := by
        push_cast
        exact (to_size_t_modEq init).mul_right _
      exact a1.trans (a2.trans a3)
    constructor
    · refine h1.trans ?_
      have := hstep.mul_right ((xs.prod : Nat) : Int)
      simpa [List.prod_cons, mul_assoc] using this
    · intro _
      by_cases hxs : xs = []
      · subst hxs
        simp only [accumulate_int]
        exact to_int_range _
      · exact h2 hxs

/-- Below `2 ^ 31` elements the count accumulated through the `int` is the exact
number of elements. -/
theorem accumulate_size_eq (dims : List Nat) (h : shape_size dims < 2 ^ 31) :
    accumulate_size dims = shape_size dims := by
  rw [shape_size_eq_prod] at h ⊢
  unfold accumulate_size
  obtain ⟨h1, h2⟩ := accumulate_int_spec dims 1
  have hr : accumulate_int 1 dims = (dims.prod : Nat) := by
    by_cases hd : dims = []
    · subst hd
      simp [accumulate_int]
    · obtain ⟨lo, hi⟩ := h2 hd
      rw [one_mul] at h1
      unfold Int.ModEq at h1
      generalize accumulate_int 1 dims = r at h1 lo hi
      generalize dims.prod = p at h h1
      omega
  rw [hr]
  unfold to_size_t
  generalize dims.prod = p at h
  omega

theorem block_content_of_leading_run (old new : List Nat) (c bb j : Nat)
    (hc : c ≤ old.length) (hj : (j + 1) * bb ≤ c) :
    block_content (old.take c ++ new.drop c) bb j = block_content old bb j := by
  unfold block_content
  have h1 : j * bb + bb ≤ c := by rw [← Nat.succ_mul]; exact hj
  have hlen : (old.take c).length = c := by rw [List.length_take]; omega
  rw [List.drop_append_of_le_length (by omega)]
  rw [List.take_append_of_le_length (by rw [List.length_drop, hlen]; omega)]
  rw [List.drop_take, List.take_take]
  congr 1
  omega

theorem memcpy_leading_run {dst src d : List Nat} {c : Nat} (h : memcpy dst 0 src 0 c = some d) :
    c ≤ src.length ∧ d = src.take c ++ dst.drop c := by
  unfold memcpy at h
  split at h
  · rename_i hb
    simp only [Option.some.injEq] at h
    refine ⟨by omega, ?_⟩
    rw [← h]
    simp
  · simp at h

/-- The bytes of the tensor returned by `copy_roi`: a leading run of the old bytes,
then the bytes the new tensor was allocated with. -/
theorem copy_roi_content {s0 : Shape} {dst src k' : Tensor} {shape : Shape}
    (h : copy_roi s0 dst src shape = .ok k') :
    ∃ c, c ≤ src.data.length ∧ k'.data = src.data.take c ++ dst.data.drop c ∧
      ((dst.element_type = .u4 ∨ dst.element_type = .i4) →
        c = copy_roi_count dst.element_type shape) ∧
      (¬ (dst.element_type = .u4 ∨ dst.element_type = .i4) →
        c = byte_size src.element_type shape) := by
  unfold copy_roi at h
  split at h
  · rename_i h4
    split at h
    · simp at h
    · split at h
      · rename_i d hd
        cases h
        obtain ⟨hc, hdata⟩ := memcpy_leading_run hd
        exact ⟨_, hc, hdata, fun _ => rfl, fun hn => absurd h4 hn⟩
      · simp at h
  · rename_i h4
    unfold copy_to_roi at h
    split at h
    · split at h
      · split at h
        · rename_i d hd
          cases h
          obtain ⟨hc, hdata⟩ := memcpy_leading_run hd
          exact ⟨_, hc, hdata, fun hp => absurd hp h4, fun _ => rfl⟩
        · simp at h
      · simp at h
    · simp at h

/-- The copy of the growth step keeps every block of the old buffer, for a full-width
type whatever the size, for `u4`/`i4` when the old buffer has fewer than `2 ^ 31`
elements. -/
theorem copy_roi_preserves_blocks {s0 : Shape} {dst src k' : Tensor} {n : Nat} {rest : Shape}
    (h : copy_roi s0 dst src src.shape = .ok k') (het : src.element_type = dst.element_type)
    (hshape : src.shape = n :: rest)
    (hsmall : (src.element_type = .u4 ∨ src.element_type = .i4) → shape_size src.shape < 2 ^ 31)
    (j : Nat) (hj : j < n) :
    block_content k'.data src.block_bytes j = block_content src.data src.block_bytes j := by
  obtain ⟨c, hc, hdata, h4, hfull⟩ := copy_roi_content h
  rw [hdata]
  apply block_content_of_leading_run _ _ _ _ _ hc
  have hmono : ∀ X : Nat, (j + 1) * (X / 8) ≤ n * X / 8 := fun X =>
    le_trans (Nat.mul_le_mul_right _ hj) (Nat.mul_div_le_mul_div_assoc _ _ _)
  unfold Tensor.block_bytes
  rw [hshape, List.tail_cons]
  by_cases hp : dst.element_type = .u4 ∨ dst.element_type = .i4
  · rw [h4 hp]
    have hb : src.element_type.bitwidth = 4 := by
      rw [het]
      rcases hp with hp | hp <;> rw [hp] <;> rfl
    have hm : sub_byte_data_type_multiplier dst.element_type = 2 := by
      unfold sub_byte_data_type_multiplier
      rw [if_pos (by tauto)]
    unfold copy_roi_count
    rw [hm, accumulate_size_eq _ (hsmall (by rw [het]; exact hp)), hshape, shape_size_cons, hb]
    have := hmono (shape_size rest * 4)
    generalize shape_size rest = P at this ⊢
    have e : n * (P * 4) = n * P * 4 := by ring
    rw [e] at this
    generalize n * P = Q at this ⊢
    omega
  · rw [hfull hp, hshape]
    unfold byte_size
    rw [shape_size_cons]
    have := hmono (shape_size rest * src.element_type.bitwidth)
    rw [← Nat.mul_assoc] at this
    omega

/-- A successful iteration of the growth loop on a layer the store holds: the tensors
stored are the results of `copy_roi` from the old tensors into the new ones. -/
theorem allocate_layer_copy {alloc : Allocator} {n i : Nat} {m m' : CacheManager}
    (h : allocate_layer alloc n i m = .ok m') (hi : i < m.m_key_cache.length) :
    ∃ kn vn ko vo k' v', allocate_layer_tensors alloc n i m = .ok (kn, vn) ∧
      m.m_key_cache[i]? = some ko ∧ m.m_value_cache[i]? = some vo ∧
      copy_roi [0, 0, 0, 0] kn ko ko.shape = .ok k' ∧
      copy_roi [0, 0, 0, 0] vn vo vo.shape = .ok v' ∧
      m'.m_key_cache[i]? = some k' ∧ m'.m_value_cache[i]? = some v' := by
  unfold allocate_layer at h
  split at h
  · simp at h
  rename_i kn vn hkv
  split at h
  · simp at h
  rename_i m2 hm2
  have hfr := update_request_tensor_frame h
  have e1 : m'.m_key_cache = m2.m_key_cache := by rw [hfr]
  have e2 : m'.m_value_cache = m2.m_value_cache := by rw [hfr]
  simp only [store_layer_tensors, bind, Except.bind, pure, Except.pure, if_pos hi] at hm2
  split at hm2
  · simp at hm2
  rename_i ko hko
  split at hm2
  · simp at hm2
  rename_i k' hk'
  split at hm2
  · simp at hm2
  rename_i vo hvo
  split at hm2
  · simp at hm2
  rename_i v' hv'
  cases hm2
  have hko' := (vector_at_ok _ _ _).mp hko
  have hvo' := (vector_at_ok _ _ _).mp hvo
  refine ⟨kn, vn, ko, vo, k', v', hkv, hko', hvo', hk', hv', ?_, ?_⟩
  · rw [e1]
    exact List.getElem?_set_self hi
  · rw [e2]
    exact List.getElem?_set_self (List.getElem?_eq_some.mp hvo').1

/-- Growth preserves content where the byte count is right: from a reachable state, a
call of `allocate_cache_if_needed` that completes leaves, in every layer the store
held, every block below the old block count with the bytes it had, provided each
`u4`/`i4` buffer has fewer than `2 ^ 31` elements (full-width buffers of any size). -/
theorem growth_preserves_blocks (request : InferRequest) (m : CacheManager) (alloc : Allocator)
    (n2 : Nat) (hr : Reachable request m)
    (hok : (m.allocate_cache_if_needed alloc n2).2 = none)
    (hsmall : ∀ t, t ∈ m.m_key_cache ∨ t ∈ m.m_value_cache →
      (t.element_type = .u4 ∨ t.element_type = .i4) → shape_size t.shape < 2 ^ 31)
    (i : Nat) (ko vo : Tensor) (hko : m.m_key_cache[i]? = some ko)
    (hvo : m.m_value_cache[i]? = some vo) :
    ∃ k' v', (m.allocate_cache_if_needed alloc n2).1.m_key_cache[i]? = some k' ∧
      (m.allocate_cache_if_needed alloc n2).1.m_value_cache[i]? = some v' ∧
      (∀ blk, blk < m.m_num_allocated_kv_blocks →
        block_content k'.data ko.block_bytes blk = block_content ko.data ko.block_bytes blk) ∧
      (∀ blk, blk < m.m_num_allocated_kv_blocks →
        block_content v'.data vo.block_bytes blk = block_content vo.data vo.block_bytes blk) := by
  obtain ⟨⟨hlen, hle, hsh⟩, _⟩ := reachable_invariant hr
  unfold CacheManager.allocate_cache_if_needed at hok ⊢
  split
  · exact ⟨ko, vo, hko, hvo, fun _ _ => rfl, fun _ _ => rfl⟩
  rename_i hlt
  rw [if_neg hlt] at hok
  simp only at hok ⊢
  obtain ⟨h1, _⟩ := for_each_layer_spec (allocate_layer alloc n2)
    (fun i s => (s.geometry = m.geometry ∧ s.m_num_allocated_kv_blocks = n2 ∧
        s.m_key_cache.length = s.m_value_cache.length ∧
        s.m_key_cache.length = max m.m_key_cache.length i ∧
        (∀ j, j < i → layer_shaped s n2 j) ∧
        (∀ j, i ≤ j → s.m_key_cache[j]? = m.m_key_cache[j]? ∧
          s.m_value_cache[j]? = m.m_value_cache[j]?)) ∧
      ∀ j, j < i → ∀ ko vo, m.m_key_cache[j]? = some ko → m.m_value_cache[j]? = some vo →
        ∃ k' v', s.m_key_cache[j]? = some k' ∧ s.m_value_cache[j]? = some v' ∧
          (∀ blk, blk < m.m_num_allocated_kv_blocks →
            block_content k'.data ko.block_bytes blk = block_content ko.data ko.block_bytes blk) ∧
          (∀ blk, blk < m.m_num_allocated_kv_blocks →
            block_content v'.data vo.block_bytes blk = block_content vo.data vo.block_bytes blk))
    (by
      intro i s s' ⟨hP, hR⟩ hb
      have hP' := allocate_loop_spec alloc n2 m hlen i s s' hP hb
      refine ⟨hP', ?_⟩
      obtain ⟨hg, _, hl, _, _, hrest⟩ := hP
      obtain ⟨_, _, _, _, _, other, _⟩ := allocate_layer_effect hl hb
      intro j hj ko vo hko hvo
      by_cases hji : j = i
      · subst hji
        obtain ⟨r1, r2⟩ := hrest j (le_refl _)
        have hjs : j < s.m_key_cache.length := by
          rw [← r1] at hko
          exact (List.getElem?_eq_some.mp hko).1
        obtain ⟨kn, vn, ko', vo', k', v', hkv, hko', hvo', hck, hcv, hk', hv'⟩ :=
          allocate_layer_copy hb hjs
        rw [r1, hko] at hko'
        rw [r2, hvo] at hvo'
        cases hko'
        cases hvo'
        obtain ⟨_, _, hkp, hvp, _⟩ := allocate_layer_tensors_ok hkv
        have gs := geometry_shapes hg
        obtain ⟨k0, v0, hk0, hv0, ⟨_, _, hks⟩, ⟨_, _, hvs⟩, hkp0, hvp0, _⟩ :=
          hsh j (List.getElem?_eq_some.mp hko).1
        rw [hko] at hk0
        rw [hvo] at hv0
        cases hk0
        cases hv0
        rw [gs.2.2.1, hkp0] at hkp
        rw [gs.2.2.2.1, hvp0] at hvp
        simp only [Option.some.injEq] at hkp hvp
        obtain ⟨_, krest, _, hkshape⟩ := (set_kv_blocks_ok _ _ _).mp hks
        obtain ⟨_, vrest, _, hvshape⟩ := (set_kv_blocks_ok _ _ _).mp hvs
        refine ⟨k', v', hk', hv', ?_, ?_⟩
        · intro blk hblk
          exact copy_roi_preserves_blocks hck hkp hkshape
            (hsmall ko (Or.inl (List.getElem?_mem hko))) blk hblk
        · intro blk hblk
          exact copy_roi_preserves_blocks hcv hvp hvshape
            (hsmall vo (Or.inr (List.getElem?_mem hvo))) blk hblk
      · obtain ⟨k', v', hk', hv', hbk, hbv⟩ := hR j (by omega) ko vo hko hvo
        obtain ⟨o1, o2⟩ := other j hji
        exact ⟨k', v', by rw [o1]; exact hk', by rw [o2]; exact hv', hbk, hbv⟩)
    m.m_num_decoder_layers 0 { m with m_num_allocated_kv_blocks := n2 }
    ⟨⟨rfl, rfl, hlen, by simp, by intro j hj; omega, by intro j _; exact ⟨rfl, rfl⟩⟩,
      by intro j hj; omega⟩
  obtain ⟨_, hR⟩ := h1 hok
  have hi : i < m.m_num_decoder_layers :=
    lt_of_lt_of_le (List.getElem?_eq_some.mp hko).1 hle
  exact hR i (by simpa using hi) ko vo hko hvo

/-! ### The device check and the tables of the constructor -/

/-- The constructor begins with the device check: it fails with the fault of the
check, and on success the device it records is the one the check returns. -/
theorem construct_check_devices (request : InferRequest) :
    (∀ f, check_devices request.compiled_model.execution_devices = .error f →
      CacheManager.construct request = .error f) ∧
    (∀ m, CacheManager.construct request = .ok m →
      check_devices request.compiled_model.execution_devices = .ok m.get_device) := by
  constructor
  · intro f h
    unfold check_devices at h
    unfold CacheManager.construct
    simp only
    by_cases hc : (all_gpu request.compiled_model.execution_devices ||
        request.compiled_model.execution_devices.length == 1) = true
    · rw [if_pos hc] at h ⊢
      cases hd : request.compiled_model.execution_devices[0]? with
      | none =>
        rw [hd] at h
        simp only at h ⊢
        cases h
        rfl
      | some d =>
        rw [hd] at h
        simp at h
    · rw [if_neg hc] at h ⊢
      cases h
      rfl
  · intro m h
    obtain ⟨device, m0, m1, hdev, hm0, hrec, hm, _⟩ := construct_ok h
    have hfix := record_inputs_fixed hrec
    have e : m.get_device = device := by
      subst hm
      show m1.m_device = device
      rw [hfix, hm0]
    unfold CacheManager.construct at h
    simp only at h
    unfold check_devices
    split at h
    · rename_i hc
      rw [if_pos hc, hdev, e]
    · simp at h

theorem record_input_eq (input : Input) (names : List String) (m : CacheManager) :
    record_input input names m =
      match cache_role names with
      | none => .ok m
      | some false =>
        match input_footprint input.pshape input.element_type with
        | .error f => .error f
        | .ok bytes => .ok { m with
            m_block_size_in_bytes := (m.m_block_size_in_bytes + bytes) % 2 ^ 64
            m_key_shapes := m.m_key_shapes ++ [input.pshape]
            m_key_precisions := m.m_key_precisions ++ [input.element_type] }
      | some true =>
        match input_footprint input.pshape input.element_type with
        | .error f => .error f
        | .ok bytes => .ok { m with
            m_block_size_in_bytes := (m.m_block_size_in_bytes + bytes) % 2 ^ 64
            m_value_shapes := m.m_value_shapes ++ [input.pshape]
            m_value_precisions := m.m_value_precisions ++ [input.element_type] } := by
  induction names with
  | nil => rfl
  | cons name rest ih =>
    simp only [record_input, cache_role]
    split
    · simp only [bind, Except.bind, pure, Except.pure]
      cases input_footprint input.pshape input.element_type <;> rfl
    · split
      · simp only [bind, Except.bind, pure, Except.pure]
        cases input_footprint input.pshape input.element_type <;> rfl
      · exact ih

/-- The tables after the input loop: the entries before it followed by the shapes
and element types of the inputs recognised as key caches, respectively as value
caches, in input order. -/
theorem record_inputs_tables (inputs : List Input) (m m' : CacheManager)
    (h : record_inputs inputs m = .ok m') :
    m'.m_key_precisions = m.m_key_precisions ++ (key_cache_inputs inputs).map Input.element_type ∧
    m'.m_value_precisions =
      m.m_value_precisions ++ (value_cache_inputs inputs).map Input.element_type ∧
    m'.m_key_shapes = m.m_key_shapes ++ (key_cache_inputs inputs).map Input.pshape ∧
    m'.m_value_shapes = m.m_value_shapes ++ (value_cache_inputs inputs).map Input.pshape := by
  induction inputs generalizing m with
  | nil =>
    simp only [record_inputs, Except.ok.injEq] at h
    subst h
    simp [key_cache_inputs, value_cache_inputs]
  | cons input rest ih =>
    simp only [record_inputs] at h
    split at h
    · rename_i m1 h1
      obtain ⟨a1, a2, a3, a4⟩ := ih m1 h
      rw [record_input_eq] at h1
      rw [a1, a2, a3, a4]
      cases hrole : cache_role input.names with
      | none =>
        rw [hrole] at h1
        simp only [Except.ok.injEq] at h1
        subst h1
        simp [key_cache_inputs, value_cache_inputs, List.filter_cons, hrole]
      | some r =>
        rw [hrole] at h1
        cases r with
        | false =>
          simp only at h1
          split at h1
          · simp at h1
          · cases h1
            simp [key_cache_inputs, value_cache_inputs, List.filter_cons, hrole]
        | true =>
          simp only at h1
          split at h1
          · simp at h1
          · cases h1
            simp [key_cache_inputs, value_cache_inputs, List.filter_cons, hrole]
    · simp at h

/-- The input loop completes when the footprint of every recognised cache input can
be computed. -/
theorem record_inputs_succeeds (inputs : List Input) (m : CacheManager)
    (h : ∀ input ∈ inputs, cache_role input.names ≠ none → footprint_defined input = true) :
    ∃ m', record_inputs inputs m = .ok m' := by
  induction inputs generalizing m with
  | nil => exact ⟨m, rfl⟩
  | cons input rest ih =>
    simp only [record_inputs]
    have hin := h input (List.mem_cons_self _ _)
    have hstep : ∃ m1, record_input input input.names m = .ok m1 := by
      rw [record_input_eq]
      cases hrole : cache_role input.names with
      | none => exact ⟨m, rfl⟩
      | some r =>
        have hd := hin (by rw [hrole]; simp)
        unfold footprint_defined at hd
        cases r <;>
        · simp only
          split at hd
          · rename_i b hb
            rw [hb]
            exact ⟨_, rfl⟩
          · simp at hd
    obtain ⟨m1, h1⟩ := hstep
    rw [h1]
    exact ih m1 (fun x hx => h x (List.mem_cons_of_mem _ hx))

/-- The tables of a constructed manager list the recognised key and value cache
inputs of the model in input order. -/
theorem construct_precisions {request : InferRequest} {m : CacheManager}
    (h : CacheManager.construct request = .ok m) :
    m.m_key_precisions = (key_cache_inputs request.compiled_model.inputs).map Input.element_type ∧
    m.m_value_precisions =
      (value_cache_inputs request.compiled_model.inputs).map Input.element_type := by
  obtain ⟨device, m0, m1, _, hm0, hrec, hm, _⟩ := construct_ok h
  obtain ⟨a1, a2, _, _⟩ := record_inputs_tables _ _ _ hrec
  subst hm
  rw [hm0] at a1 a2
  simp only [List.nil_append] at a1 a2
  exact ⟨a1, a2⟩

/-- The shape tables of a constructed manager list the shapes of the recognised key
and value cache inputs of the model in input order. -/
theorem construct_shapes {request : InferRequest} {m : CacheManager}
    (h : CacheManager.construct request = .ok m) :
    m.m_key_shapes = (key_cache_inputs request.compiled_model.inputs).map Input.pshape ∧
    m.m_value_shapes = (value_cache_inputs request.compiled_model.inputs).map Input.pshape := by
  obtain ⟨device, m0, m1, _, hm0, hrec, hm, _⟩ := construct_ok h
  obtain ⟨_, _, a3, a4⟩ := record_inputs_tables _ _ _ hrec
  subst hm
  rw [hm0] at a3 a4
  simp only [List.nil_append] at a3 a4
  exact ⟨a3, a4⟩

/-! ### Claim on the shapes of the buffers -/

/-- C5: in every state reachable from a freshly constructed manager by calls of
`allocate_cache_if_needed` and `copy_blocks` that complete without fault, the store
holds as many key as value buffers, and the key buffer of layer `i` has leading
dimension equal to the current block count and remaining dimensions equal to the
non-block dimensions declared by the `i`-th key cache input of the model (the
`i`-th input, in input order, that the constructor recognises as a key cache); the
same holds of the value buffer of layer `i` and the `i`-th value cache input. -/
theorem C5_uniform_block_count (request : InferRequest) (m : CacheManager)
    (h : Reachable request m) :
    m.m_key_cache.length = m.m_value_cache.length ∧
    (∀ (i : Nat) (k : Tensor), m.m_key_cache[i]? = some k →
      ∃ input, (key_cache_inputs request.compiled_model.inputs)[i]? = some input ∧
        k.shape.head? = some m.m_num_allocated_kv_blocks ∧
        k.shape.tail.map some = input.pshape.tail) ∧
    (∀ (i : Nat) (v : Tensor), m.m_value_cache[i]? = some v →
      ∃ input, (value_cache_inputs request.compiled_model.inputs)[i]? = some input ∧
        v.shape.head? = some m.m_num_allocated_kv_blocks ∧
        v.shape.tail.map some = input.pshape.tail) := by
  obtain ⟨⟨hlen, _, hsh⟩, m0, h0, hg⟩ := reachable_invariant h
  have gs := geometry_shapes hg
  obtain ⟨ck, cv⟩ := construct_shapes h0
  refine ⟨hlen, ?_, ?_⟩
  · intro i k hk
    obtain ⟨k0, _, hk0, _, ⟨ps, hps, hset⟩, _⟩ := hsh i (List.getElem?_eq_some.mp hk).1
    rw [hk] at hk0
    cases hk0
    rw [gs.1, ck, List.getElem?_map] at hps
    obtain ⟨input, hin, rfl⟩ := Option.map_eq_some'.mp hps
    obtain ⟨hhead, htail⟩ := shape_of_set_kv_blocks hset
    exact ⟨input, hin, hhead, htail⟩
  · intro i v hv
    obtain ⟨_, v0, _, hv0, _, ⟨ps, hps, hset⟩, _⟩ :=
      hsh i (by rw [hlen]; exact (List.getElem?_eq_some.mp hv).1)
    rw [hv] at hv0
    cases hv0
    rw [gs.2.1, cv, List.getElem?_map] at hps
    obtain ⟨input, hin, rfl⟩ := Option.map_eq_some'.mp hps
    obtain ⟨hhead, htail⟩ := shape_of_set_kv_blocks hset
    exact ⟨input, hin, hhead, htail⟩

set_option maxRecDepth 20000 in
/-- Witness of C5: a host model whose four cache inputs differ in geometry and are
listed with a value cache first, grown to three blocks: the key buffer of layer 1
has the non-block dimensions `[2, 1, 2]` of `key_cache.1`. -/
theorem C5_uniform_block_count_witness :
    Reachable mixed_request mixed_manager_3 ∧
    mixed_manager_3.m_key_cache.map Tensor.shape = [[3, 1, 1, 2], [3, 2, 1, 2]] ∧
    mixed_manager_3.m_value_cache.map Tensor.shape = [[3, 1, 2, 2], [3, 1, 1, 4]] ∧
    (key_cache_inputs mixed_request.compiled_model.inputs).map (fun input => input.pshape) =
      [[none, some 1, some 1, some 2], [none, some 2, some 1, some 2]] ∧
    (∃ input, (key_cache_inputs mixed_request.compiled_model.inputs)[1]? = some input ∧
      [3, 2, 1, 2].head? = some mixed_manager_3.m_num_allocated_kv_blocks ∧
      [3, 2, 1, 2].tail.map some = input.pshape.tail) := by
  have hr : Reachable mixed_request mixed_manager_3 :=
    Reachable.grow _ _ _ (Reachable.construct _ rfl) rfl
  refine ⟨hr, by rfl, by rfl, by rfl, ?_⟩
  exact (C5_uniform_block_count mixed_request mixed_manager_3 hr).2.1 1
    (mixed_manager_3.m_key_cache[1]?.getD
      { id := 0, remote := false, element_type := .u8, shape := [], data := [] })
    (by rfl)

/-! ### Claims on the constructor -/

/-- C11 (as stated, refuted): the empty device list is made up solely of accelerator
devices (vacuously) and is not rejected by the assertion, but it has no first device
that construction could record: the read of `execution_devices[0]` is out of range
and construction ends there. -/
theorem C11_device_check_counterexample :
    (¬ ∀ request : InferRequest,
      (request.compiled_model.execution_devices.length = 1 ∨
        all_gpu request.compiled_model.execution_devices = true) →
      ∃ device, request.compiled_model.execution_devices[0]? = some device ∧
        ∀ m, CacheManager.construct request = .ok m → m.get_device = device) ∧
    all_gpu [] = true ∧
    CacheManager.construct
      { compiled_model := { execution_devices := [], inputs := [] }, tensors := [] } =
      .error .out_of_range := by
  refine ⟨?_, rfl, rfl⟩
  intro hall
  obtain ⟨device, hd, _⟩ :=
    hall { compiled_model := { execution_devices := [], inputs := [] }, tensors := [] }
      (Or.inr rfl)
  simp at hd

/-- C11 (amended): for every non-empty list of execution device identifiers,
construction is rejected by the assertion of the device check when the list is
neither a single device nor made up solely of devices whose identifier contains
"GPU"; for every other non-empty list construction gets past the device check: its
outcome is that of the rest of the constructor (the input loop and the layer count
assertion) run on the state that holds the first listed device as device identifier,
and a constructed manager reports that device. -/
theorem C11_device_check (request : InferRequest) (first : String) (rest : List String)
    (hds : request.compiled_model.execution_devices = first :: rest) :
    (¬ (request.compiled_model.execution_devices.length = 1 ∨
        all_gpu request.compiled_model.execution_devices = true) →
      CacheManager.construct request = .error .assertion) ∧
    ((request.compiled_model.execution_devices.length = 1 ∨
        all_gpu request.compiled_model.execution_devices = true) →
      CacheManager.construct request =
        match record_inputs request.compiled_model.inputs
          { m_request := request, m_device := first,
            m_block_size :=
              if all_gpu request.compiled_model.execution_devices then 16 else 32,
            m_context := all_gpu request.compiled_model.execution_devices,
            m_block_size_in_bytes := 0, m_key_shapes := [], m_value_shapes := [],
            m_key_precisions := [], m_value_precisions := [], m_num_decoder_layers := 0,
            m_num_allocated_kv_blocks := 0, m_key_cache := [], m_value_cache := [],
            m_tensor_counter := 0 } with
        | .error f => .error f
        | .ok m' =>
          if m'.m_value_precisions.length == m'.m_key_precisions.length then
            .ok { m' with m_num_decoder_layers := m'.m_value_precisions.length }
          else .error .assertion) ∧
    (∀ m, CacheManager.construct request = .ok m → m.get_device = first) := by
  refine ⟨?_, ?_, ?_⟩
  · intro hno
    unfold CacheManager.construct
    simp only
    rw [if_neg]
    simp only [Bool.or_eq_true, beq_iff_eq]
    tauto
  · intro hyes
    unfold CacheManager.construct
    simp only
    rw [if_pos (by simp only [Bool.or_eq_true, beq_iff_eq]; tauto)]
    simp only [hds, List.getElem?_cons_zero]
  · intro m hm
    obtain ⟨device, m0, m1, hdev, hm0, hrec, hmm, _⟩ := construct_ok hm
    rw [hds, List.getElem?_cons_zero] at hdev
    cases hdev
    have hfix := record_inputs_fixed hrec
    have e1 : m.m_device = m1.m_device := by rw [hmm]
    have e2 : m1.m_device = m0.m_device := by rw [hfix]
    unfold CacheManager.get_device
    rw [e1, e2, hm0]

set_option maxRecDepth 20000 in
/-- Witness of C11 (amended): the single host device `["CPU"]` and the two accelerator
devices `["GPU.0", "GPU.1"]` are constructed with their first device, and the list
`["CPU", "GPU"]` is rejected by the assertion. -/
theorem C11_device_check_witness :
    (host_request.compiled_model.execution_devices = ["CPU"] ∧
      CacheManager.construct host_request = .ok host_manager ∧
      host_manager.get_device = "CPU") ∧
    (multi_gpu_request.compiled_model.execution_devices = ["GPU.0", "GPU.1"] ∧
      (∃ m, CacheManager.construct multi_gpu_request = .ok m) ∧
      ∀ m, CacheManager.construct multi_gpu_request = .ok m → m.get_device = "GPU.0") ∧
    (mixed_devices_request.compiled_model.execution_devices = ["CPU", "GPU"] ∧
      CacheManager.construct mixed_devices_request = .error .assertion) :=
  ⟨⟨rfl, rfl, (C11_device_check host_request "CPU" [] rfl).2.2 host_manager rfl⟩,
    ⟨rfl, ⟨constructed multi_gpu_request empty_manager, by rfl⟩,
      (C11_device_check multi_gpu_request "GPU.0" ["GPU.1"] rfl).2.2⟩,
    ⟨rfl, (C11_device_check mixed_devices_request "CPU" ["GPU"] rfl).1 (by decide)⟩⟩

/-- C12 (as stated, refuted): a model with one key and one value cache input whose
head dimension is dynamic has equal counts, yet construction fails (at
`get_length`). -/
theorem C12_layer_count_check_counterexample :
    ¬ ∀ request : InferRequest,
      ((∃ f, CacheManager.construct request = .error f) ↔
        (key_cache_inputs request.compiled_model.inputs).length ≠
          (value_cache_inputs request.compiled_model.inputs).length) := by
  intro hall
  have h := (hall dynamic_heads_request).mp ⟨.dynamic_shape, rfl⟩
  exact h (by decide)

/-- C12 (amended): for every request whose device list passes the device check and
whose recognised cache inputs all have a computable footprint (rank at least 4,
static dimensions 1 to 3), construction fails exactly when the number of inputs
recognised as key caches differs from the number recognised as value caches, and
then with the assertion; when it succeeds, `get_num_decoder_layers` equals that
common count. -/
theorem C12_layer_count_check (request : InferRequest)
    (hdev : ∃ device, check_devices request.compiled_model.execution_devices = .ok device)
    (hshape : ∀ input ∈ request.compiled_model.inputs, cache_role input.names ≠ none →
      footprint_defined input = true) :
    ((∃ f, CacheManager.construct request = .error f) ↔
      (key_cache_inputs request.compiled_model.inputs).length ≠
        (value_cache_inputs request.compiled_model.inputs).length) ∧
    ((key_cache_inputs request.compiled_model.inputs).length ≠
        (value_cache_inputs request.compiled_model.inputs).length →
      CacheManager.construct request = .error .assertion) ∧
    (∀ m, CacheManager.construct request = .ok m →
      m.get_num_decoder_layers = (key_cache_inputs request.compiled_model.inputs).length ∧
      m.get_num_decoder_layers = (value_cache_inputs request.compiled_model.inputs).length) := by
  obtain ⟨device, hdev⟩ := hdev
  have hsucc : ∀ m, CacheManager.construct request = .ok m →
      m.get_num_decoder_layers = (key_cache_inputs request.compiled_model.inputs).length ∧
      m.get_num_decoder_layers = (value_cache_inputs request.compiled_model.inputs).length := by
    intro m hm
    obtain ⟨p1, p2⟩ := construct_precisions hm
    obtain ⟨_, _, _, _, l1, l2⟩ := construct_fresh hm
    unfold CacheManager.get_num_decoder_layers
    exact ⟨by rw [l1, p1, List.length_map], by rw [l2, p2, List.length_map]⟩
  have hfail : (key_cache_inputs request.compiled_model.inputs).length ≠
      (value_cache_inputs request.compiled_model.inputs).length →
      CacheManager.construct request = .error .assertion := by
    intro hne
    unfold check_devices at hdev
    unfold CacheManager.construct
    simp only
    split at hdev
    · rename_i hc
      rw [if_pos hc]
      split at hdev
      · simp at hdev
      · rename_i d hd
        try simp only [hd]
        obtain ⟨m1, h1⟩ := record_inputs_succeeds request.compiled_model.inputs
          { m_request := request, m_device := d,
            m_block_size := if all_gpu request.compiled_model.execution_devices then 16 else 32,
            m_context := all_gpu request.compiled_model.execution_devices,
            m_block_size_in_bytes := 0, m_key_shapes := [], m_value_shapes := [],
            m_key_precisions := [], m_value_precisions := [], m_num_decoder_layers := 0,
            m_num_allocated_kv_blocks := 0, m_key_cache := [], m_value_cache := [],
            m_tensor_counter := 0 } hshape
        rw [h1]
        obtain ⟨a1, a2, _, _⟩ := record_inputs_tables _ _ _ h1
        simp only [List.nil_append] at a1 a2
        dsimp only
        rw [if_neg]
        rw [a1, a2]
        simp only [List.length_map, beq_iff_eq]
        exact fun h => hne h.symm
    · simp at hdev
  refine ⟨⟨?_, fun hne => ⟨_, hfail hne⟩⟩, hfail, hsucc⟩
  rintro ⟨f, hf⟩ heq
  -- with equal counts the constructor completes
  unfold check_devices at hdev
  unfold CacheManager.construct at hf
  simp only at hf
  split at hdev
  · rename_i hc
    rw [if_pos hc] at hf
    split at hdev
    · simp at hdev
    · rename_i d hd
      try simp only [hd] at hf
      obtain ⟨m1, h1⟩ := record_inputs_succeeds request.compiled_model.inputs
        { m_request := request, m_device := d,
          m_block_size := if all_gpu request.compiled_model.execution_devices then 16 else 32,
          m_context := all_gpu request.compiled_model.execution_devices,
          m_block_size_in_bytes := 0, m_key_shapes := [], m_value_shapes := [],
          m_key_precisions := [], m_value_precisions := [], m_num_decoder_layers := 0,
          m_num_allocated_kv_blocks := 0, m_key_cache := [], m_value_cache := [],
          m_tensor_counter := 0 } hshape
      rw [h1] at hf
      obtain ⟨a1, a2, _, _⟩ := record_inputs_tables _ _ _ h1
      simp only [List.nil_append] at a1 a2
      dsimp only at hf
      rw [if_pos] at hf
      · simp at hf
      · rw [a1, a2]
        simp only [List.length_map, beq_iff_eq]
        exact heq.symm
  · simp at hdev

/-- Witness of C12 (amended): the scenario model, two key and two value inputs. -/
theorem C12_layer_count_check_witness :
    CacheManager.construct scenario_request = .ok scenario_manager ∧
    scenario_manager.get_num_decoder_layers = 2 ∧
    scenario_manager.get_num_decoder_layers =
      (key_cache_inputs scenario_request.compiled_model.inputs).length :=
  ⟨rfl, rfl,
    ((C12_layer_count_check scenario_request ⟨"GPU", rfl⟩ (by decide)).2.2 scenario_manager rfl).1⟩

/-- For an input with a single name the role is read off the prefix of that name. -/
theorem cache_role_single (name : String) :
    (cache_role [name] = some false ↔ starts_with "key_cache.".data name.data = true) ∧
    (cache_role [name] = some true ↔
      starts_with "key_cache.".data name.data = false ∧
      starts_with "value_cache.".data name.data = true) := by
  simp only [cache_role]
  constructor
  · split
    · simp_all
    · split <;> simp_all
  · split
    · simp_all
    · split <;> simp_all

theorem precision_accessor_spec (table : List ElementType) (inputs : List Input) (i : Nat)
    (htable : table = inputs.map Input.element_type) :
    ((∃ f, (if i < table.length then vector_at table i else .error .assertion) = .error f) ↔
      table.length ≤ i) ∧
    (∀ f, (if i < table.length then vector_at table i else .error .assertion) = .error f →
      f = .assertion) ∧
    (i < table.length → ∃ input, inputs[i]? = some input ∧
      (if i < table.length then vector_at table i else .error .assertion) =
        .ok input.element_type) := by
  by_cases hi : i < table.length
  · rw [if_pos hi]
    have hget : vector_at table i = .ok table[i] :=
      (vector_at_ok _ _ _).mpr (List.getElem?_eq_getElem hi)
    rw [hget]
    refine ⟨⟨fun ⟨f, hf⟩ => by simp at hf, fun hle => absurd hi (by omega)⟩,
      fun f hf => by simp at hf, fun _ => ?_⟩
    have hi' : i < inputs.length := by
      rw [htable, List.length_map] at hi
      exact hi
    refine ⟨inputs[i], List.getElem?_eq_getElem hi', ?_⟩
    congr 1
    subst htable
    simp
  · rw [if_neg hi]
    exact ⟨⟨fun _ => by omega, fun _ => ⟨_, rfl⟩⟩, fun f hf => by cases hf; rfl,
      fun h => absurd h hi⟩

/-- C13: in every reachable state, `get_key_cache_precision(i)` and
`get_value_cache_precision(i)` fail if and only if `i >= num_decoder_layers`, and
then with the assertion; for `i` in range they return the element type of the i-th
model input, in input order, that the constructor recognises as a key cache
(respectively as a value cache) by the prefix of its name. -/
theorem C13_precision_accessors (request : InferRequest) (m : CacheManager)
    (h : Reachable request m) (i : Nat) :
    (((∃ f, m.get_key_cache_precision i = .error f) ↔ m.get_num_decoder_layers ≤ i) ∧
      (∀ f, m.get_key_cache_precision i = .error f → f = .assertion) ∧
      (i < m.get_num_decoder_layers →
        ∃ input, (key_cache_inputs request.compiled_model.inputs)[i]? = some input ∧
          m.get_key_cache_precision i = .ok input.element_type)) ∧
    (((∃ f, m.get_value_cache_precision i = .error f) ↔ m.get_num_decoder_layers ≤ i) ∧
      (∀ f, m.get_value_cache_precision i = .error f → f = .assertion) ∧
      (i < m.get_num_decoder_layers →
        ∃ input, (value_cache_inputs request.compiled_model.inputs)[i]? = some input ∧
          m.get_value_cache_precision i = .ok input.element_type)) := by
  obtain ⟨_, m0, h0, hg⟩ := reachable_invariant h
  obtain ⟨_, _, gk, gv, gl, _⟩ := geometry_shapes hg
  obtain ⟨p1, p2⟩ := construct_precisions h0
  obtain ⟨_, _, _, _, l1, l2⟩ := construct_fresh h0
  have hk : m.get_num_decoder_layers = m.m_key_precisions.length := by
    unfold CacheManager.get_num_decoder_layers
    rw [gl, l1, gk]
  have hv : m.get_num_decoder_layers = m.m_value_precisions.length := by
    unfold CacheManager.get_num_decoder_layers
    rw [gl, l2, gv]
  constructor
  · rw [hk]
    exact precision_accessor_spec m.m_key_precisions _ i (by rw [gk, p1])
  · rw [hv]
    exact precision_accessor_spec m.m_value_precisions _ i (by rw [gv, p2])

set_option maxRecDepth 4000 in
/-- Witness of C13: the host manager grown to four blocks has two layers of `u8`. -/
theorem C13_precision_accessors_witness :
    Reachable host_request host_manager_4 ∧
    host_manager_4.get_key_cache_precision 1 = .ok .u8 ∧
    host_manager_4.get_value_cache_precision 2 = .error .assertion ∧
    ((∃ f, host_manager_4.get_key_cache_precision 2 = .error f) ↔
      host_manager_4.get_num_decoder_layers ≤ 2) :=
  have hr : Reachable host_request host_manager_4 :=
    Reachable.grow _ _ _ (Reachable.construct _ rfl) rfl
  ⟨hr, rfl, rfl, (C13_precision_accessors host_request host_manager_4 hr 2).1.1⟩

/-! ### Block copy on device-exclusive buffers -/

theorem set_of_getElem? {α : Type} (l : List α) (i : Nat) (a : α) (h : l[i]? = some a) :
    l.set i a = l := by
  apply List.ext_getElem?
  intro j
  by_cases hj : i = j
  · subst hj
    rw [List.getElem?_set_self (List.getElem?_eq_some.mp h).1, h]
  · rw [List.getElem?_set_ne hj]

/-- A loop whose body leaves the state as it is returns the state, without fault. -/
theorem for_each_layer_fixed (body : Nat → CacheManager → Except Fault CacheManager)
    (m : CacheManager) (count i : Nat) (h : ∀ j, i ≤ j → j < i + count → body j m = .ok m) :
    for_each_layer body count i m = (m, none) := by
  induction count generalizing i with
  | zero => rfl
  | succ c ih =>
    simp only [for_each_layer]
    rw [h i (le_refl _) (by omega)]
    exact ih (i + 1) (fun j h1 h2 => h j (by omega) (by omega))

/-- On a layer whose two buffers are remote the body of the copy loop does nothing. -/
theorem copy_blocks_layer_remote {s d i : Nat} {m : CacheManager} {k v : Tensor}
    (hk : m.m_key_cache[i]? = some k) (hv : m.m_value_cache[i]? = some v)
    (hkr : k.remote = true) (hvr : v.remote = true) (hks : k.shape ≠ []) (hvs : v.shape ≠ []) :
    copy_blocks_layer s d i m = .ok m := by
  obtain ⟨a, ra, hka⟩ := List.exists_cons_of_ne_nil hks
  obtain ⟨b, rb, hvb⟩ := List.exists_cons_of_ne_nil hvs
  simp only [copy_blocks_layer, bind, Except.bind, pure, Except.pure,
    (vector_at_ok _ _ _).mpr hk, (vector_at_ok _ _ _).mpr hv, block_stride, hka, hvb,
    copy_one_block, hkr, hvr, Bool.or_self, Bool.not_true, Bool.false_eq_true, if_false,
    set_of_getElem? _ _ _ hk, set_of_getElem? _ _ _ hv]

/-- Every reachable state holds either no buffers or buffers for all decoder layers. -/
theorem reachable_full_or_empty {request : InferRequest} {m : CacheManager}
    (h : Reachable request m) :
    m.m_key_cache.length = 0 ∨ m.m_key_cache.length = m.m_num_decoder_layers := by
  induction h with
  | construct s hc =>
    obtain ⟨_, hk, _⟩ := construct_fresh hc
    exact Or.inl (by rw [hk]; rfl)
  | grow s alloc n hr hok ih =>
    obtain ⟨⟨hlen, hle, _⟩, _⟩ := reachable_invariant hr
    unfold CacheManager.allocate_cache_if_needed at hok ⊢
    split
    · exact ih
    · rename_i hlt
      rw [if_neg hlt] at hok
      simp only at hok ⊢
      obtain ⟨h1, _⟩ := for_each_layer_spec (allocate_layer alloc n)
        (fun i x => x.geometry = s.geometry ∧ x.m_num_allocated_kv_blocks = n ∧
          x.m_key_cache.length = x.m_value_cache.length ∧
          x.m_key_cache.length = max s.m_key_cache.length i ∧
          (∀ j, j < i → layer_shaped x n j) ∧
          (∀ j, i ≤ j → x.m_key_cache[j]? = s.m_key_cache[j]? ∧
            x.m_value_cache[j]? = s.m_value_cache[j]?))
        (allocate_loop_spec alloc n s hlen) s.m_num_decoder_layers 0
        { s with m_num_allocated_kv_blocks := n }
        ⟨rfl, rfl, hlen, by simp, by intro j hj; omega, by intro j _; exact ⟨rfl, rfl⟩⟩
      obtain ⟨g, _, _, mx, _, _⟩ := h1 hok
      have gs := geometry_shapes g
      simp only [Nat.zero_add] at mx
      right
      rw [mx, gs.2.2.2.2.1]
      omega
  | copy s bm hr _ ih =>
    obtain ⟨hfix, hk, _⟩ := copy_blocks_frame s bm
    have lk : (s.copy_blocks bm).1.m_key_cache.length = s.m_key_cache.length := by
      simpa using congrArg List.length hk
    have e1 : (s.copy_blocks bm).1.m_num_decoder_layers = s.m_num_decoder_layers := by
      rw [hfix]
    rw [lk, e1]
    exact ih

/-- On a reachable state that holds a device context, `copy_blocks` returns the state
as it is, without fault. -/
theorem copy_blocks_remote_store {request : InferRequest} {m : CacheManager}
    (hr : Reachable request m) (hctx : m.m_context = true) (hstore : m.m_key_cache ≠ [])
    (block_copy_map : List (Nat × List Nat)) : m.copy_blocks block_copy_map = (m, none) := by
  obtain ⟨⟨hlen, _, hsh⟩, _⟩ := reachable_invariant hr
  have hfull : m.m_key_cache.length = m.m_num_decoder_layers := by
    rcases reachable_full_or_empty hr with h0 | hL
    · exact absurd (List.length_eq_zero.mp h0) hstore
    · exact hL
  have hbody : ∀ s d j, j < m.m_num_decoder_layers → copy_blocks_layer s d j m = .ok m := by
    intro s d j hj
    obtain ⟨k, v, hk, hv, ⟨_, _, hks⟩, ⟨_, _, hvs⟩, _, _, hkr, hvr⟩ := hsh j (by rw [hfull]; exact hj)
    obtain ⟨_, rk, _, hkshape⟩ := (set_kv_blocks_ok _ _ _).mp hks
    obtain ⟨_, rv, _, hvshape⟩ := (set_kv_blocks_ok _ _ _).mp hvs
    exact copy_blocks_layer_remote hk hv (by rw [hkr, hctx]) (by rw [hvr, hctx])
      (by rw [hkshape]; simp) (by rw [hvshape]; simp)
  have hdsts : ∀ s ds, copy_blocks_dsts s ds m = (m, none) := by
    intro s ds
    induction ds with
    | nil => rfl
    | cons d rest ih =>
      simp only [copy_blocks_dsts]
      rw [for_each_layer_fixed _ m _ 0 (fun j _ h2 => hbody s d j (by omega))]
      exact ih
  induction block_copy_map with
  | nil => rfl
  | cons e rest ih =>
    obtain ⟨s, ds⟩ := e
    simp only [CacheManager.copy_blocks]
    rw [hdsts s ds]
    exact ih

/-- C14: in every reachable state, for every copy map and every layer whose key or
value buffer is a remote tensor, `copy_blocks` completes without fault and performs
no mutation: it returns the state as it is, so the content of that buffer (and of
every other one) is what it was. -/
theorem C14_copy_blocks_remote (request : InferRequest) (m : CacheManager)
    (hr : Reachable request m) (block_copy_map : List (Nat × List Nat)) (i : Nat) (t : Tensor)
    (ht : m.m_key_cache[i]? = some t ∨ m.m_value_cache[i]? = some t)
    (hremote : t.remote = true) :
    (m.copy_blocks block_copy_map).2 = none ∧
    (m.copy_blocks block_copy_map).1.m_key_cache = m.m_key_cache ∧
    (m.copy_blocks block_copy_map).1.m_value_cache = m.m_value_cache ∧
    m.copy_blocks block_copy_map = (m, none) := by
  obtain ⟨⟨hlen, _, hsh⟩, _⟩ := reachable_invariant hr
  have hi : i < m.m_key_cache.length := by
    rcases ht with h | h
    · exact (List.getElem?_eq_some.mp h).1
    · rw [hlen]; exact (List.getElem?_eq_some.mp h).1
  obtain ⟨k, v, hk, hv, _, _, _, _, hkr, hvr⟩ := hsh i hi
  have hctx : m.m_context = true := by
    rcases ht with h | h
    · rw [hk] at h
      cases h
      rw [← hkr]; exact hremote
    · rw [hv] at h
      cases h
      rw [← hvr]; exact hremote
  have hstore : m.m_key_cache ≠ [] := by
    intro hnil
    rw [hnil] at hi
    simp at hi
  have := copy_blocks_remote_store hr hctx hstore block_copy_map
  rw [this]
  exact ⟨rfl, rfl, rfl, rfl⟩

set_option maxRecDepth 4000 in
/-- Witness of C14: the scenario manager (device `GPU`) grown to four blocks. -/
theorem C14_copy_blocks_remote_witness :
    Reachable scenario_request (scenario_manager.allocate_cache_if_needed zero_allocator 4).1 ∧
    (scenario_manager.allocate_cache_if_needed zero_allocator 4).1.m_key_cache.map Tensor.remote =
      [true, true] ∧
    ((scenario_manager.allocate_cache_if_needed zero_allocator 4).1.copy_blocks [(1, [2, 3])]).2 =
      none :=
  have hr : Reachable scenario_request
      (scenario_manager.allocate_cache_if_needed zero_allocator 4).1 :=
    Reachable.grow _ _ _ (Reachable.construct _ rfl) rfl
  ⟨hr, rfl,
    (C14_copy_blocks_remote scenario_request _ hr [(1, [2, 3])] 0
      ((scenario_manager.allocate_cache_if_needed zero_allocator 4).1.m_key_cache[0]?.getD
        { id := 0, remote := true, element_type := .f16, shape := [], data := [] })
      (Or.inl (by rfl)) (by rfl)).1⟩

/-! ### Names of the bound inputs -/

/-- Reading a decimal numeral back. -/
theorem digitChar_toNat (k : Nat) (h : k < 10) : (Nat.digitChar k).toNat - 48 = k := by
  revert k
  decide

theorem toDigitsCore_decode (fuel n : Nat) (ds : List Char) (h : n < fuel) :
    ∃ xs, Nat.toDigitsCore 10 fuel n ds = xs ++ ds ∧
      xs.foldl (fun acc c => acc * 10 + (c.toNat - 48)) 0 = n := by
  induction fuel generalizing n ds with
  | zero => omega
  | succ fuel ih =>
    simp only [Nat.toDigitsCore]
    split
    · rename_i h0
      refine ⟨[Nat.digitChar (n % 10)], rfl, ?_⟩
      simp only [List.foldl_cons, List.foldl_nil, Nat.zero_mul, Nat.zero_add]
      rw [digitChar_toNat _ (Nat.mod_lt _ (by norm_num))]
      omega
    · rename_i h0
      obtain ⟨xs, hxs, hval⟩ := ih (n / 10) (Nat.digitChar (n % 10) :: ds) (by omega)
      refine ⟨xs ++ [Nat.digitChar (n % 10)], by rw [hxs]; simp, ?_⟩
      rw [List.foldl_append, hval]
      simp only [List.foldl_cons, List.foldl_nil]
      rw [digitChar_toNat _ (Nat.mod_lt _ (by norm_num))]
      omega

/-- The decimal numeral of a natural number determines it: `std::to_string` is
injective. -/
theorem toString_nat_injective (a b : Nat) (h : toString a = toString b) : a = b := by
  have h' : Nat.toDigits 10 a = Nat.toDigits 10 b := by
    have : (Nat.toDigits 10 a).asString = (Nat.toDigits 10 b).asString := h
    exact congrArg String.data this
  unfold Nat.toDigits at h'
  obtain ⟨xa, hxa, hva⟩ := toDigitsCore_decode (a + 1) a [] (by omega)
  obtain ⟨xb, hxb, hvb⟩ := toDigitsCore_decode (b + 1) b [] (by omega)
  rw [hxa, hxb, List.append_nil, List.append_nil] at h'
  rw [← hva, ← hvb, h']

theorem key_name_injective (i j : Nat)
    (h : "key_cache." ++ toString i = "key_cache." ++ toString j) : i = j := by
  apply toString_nat_injective
  have := congrArg String.data h
  simp only [String.data_append] at this
  exact String.ext (List.append_cancel_left this)

theorem value_name_injective (i j : Nat)
    (h : "value_cache." ++ toString i = "value_cache." ++ toString j) : i = j := by
  apply toString_nat_injective
  have := congrArg String.data h
  simp only [String.data_append] at this
  exact String.ext (List.append_cancel_left this)

theorem key_name_ne_value_name (i j : Nat) :
    "key_cache." ++ toString i ≠ "value_cache." ++ toString j := by
  intro h
  have := congrArg String.data h
  simp only [String.data_append] at this
  have h0 := congrArg List.head? this
  simp at h0

/-! ### Rebinding -/

theorem get_tensor_set_tensor (r : InferRequest) (name name' : String) (t : Tensor) :
    (r.set_tensor name t).get_tensor name' =
      if name' = name then some t.id else r.get_tensor name' := by
  unfold InferRequest.get_tensor InferRequest.set_tensor
  simp only [List.lookup]
  by_cases h : name' = name
  · subst h
    simp
  · rw [if_neg h]
    have : (name' == name) = false := by simpa using h
    rw [this]

/-- A successful iteration of the growth loop: the two tensors now stored for the
layer carry the next two identities, and the request binds the two names of the
layer to them, on top of the bindings it had. -/
theorem allocate_layer_rebinds {alloc : Allocator} {n i : Nat} {m m' : CacheManager}
    (hlen : m.m_key_cache.length = m.m_value_cache.length)
    (h : allocate_layer alloc n i m = .ok m') :
    ∃ k v, m'.m_key_cache[i]? = some k ∧ m'.m_value_cache[i]? = some v ∧
      k.id = m.m_tensor_counter ∧ v.id = m.m_tensor_counter + 1 ∧
      m'.m_tensor_counter = m.m_tensor_counter + 2 ∧
      m'.m_request =
        (m.m_request.set_tensor ("key_cache." ++ toString i) k).set_tensor
          ("value_cache." ++ toString i) v := by
  have heff := allocate_layer_effect hlen h
  obtain ⟨_, _, _, _, _, _, k, v, hk, hv, _⟩ := heff
  unfold allocate_layer at h
  split at h
  · simp at h
  rename_i kn vn hkv
  split at h
  · simp at h
  rename_i m2 hm2
  obtain ⟨_, _, _, _, _, _, hkid, hvid⟩ := allocate_layer_tensors_ok hkv
  have hcounter : m2.m_tensor_counter = m.m_tensor_counter + 2 ∧ m2.m_request = m.m_request := by
    simp only [store_layer_tensors, bind, Except.bind, pure, Except.pure] at hm2
    split at hm2
    · split at hm2
      · simp at hm2
      split at hm2
      · simp at hm2
      split at hm2
      · simp at hm2
      split at hm2
      · simp at hm2
      cases hm2
      exact ⟨rfl, rfl⟩
    · cases hm2
      exact ⟨rfl, rfl⟩
  obtain ⟨_, _, _, hcase⟩ := store_layer_tensors_ok hm2
  have hfr := update_request_tensor_frame h
  have e1 : m'.m_key_cache = m2.m_key_cache := by rw [hfr]
  have e2 : m'.m_value_cache = m2.m_value_cache := by rw [hfr]
  have e3 : m'.m_tensor_counter = m2.m_tensor_counter := by rw [hfr]
  have hkid' : k.id = m.m_tensor_counter ∧ v.id = m.m_tensor_counter + 1 := by
    rcases hcase with ⟨h1, h2, k', v', hk', hv', ek, ev⟩ | ⟨h1, ek, ev⟩
    · rw [e1, ek, List.getElem?_set_self h1] at hk
      rw [e2, ev, List.getElem?_set_self h2] at hv
      cases hk
      cases hv
      simp only [Tensor.header, Prod.mk.injEq] at hk' hv'
      exact ⟨by rw [hk'.1]; exact hkid, by rw [hv'.1]; exact hvid⟩
    · have hb := (update_request_tensor_ok_iff m2 i).mp ⟨m', h⟩
      rw [ek, ev] at hb
      simp only [List.length_append, List.length_singleton] at hb
      have hi : i = m.m_key_cache.length := by omega
      rw [e1, ek, hi] at hk
      rw [e2, ev, hi, hlen] at hv
      simp at hk hv
      subst hk
      subst hv
      exact ⟨hkid, hvid⟩
  refine ⟨k, v, hk, hv, hkid'.1, hkid'.2, by rw [e3, hcounter.1], ?_⟩
  simp only [CacheManager.update_request_tensor, bind, Except.bind, pure, Except.pure] at h
  rw [e1] at hk
  rw [e2] at hv
  rw [(vector_at_ok _ _ _).mpr hk, (vector_at_ok _ _ _).mpr hv] at h
  simp only [Except.ok.injEq] at h
  rw [← h, hcounter.2]

/-- A growing call that completes rebinds every layer: afterwards the request binds
the names of every layer to the buffers the store holds, and all of these buffers
were numbered during the call. -/
theorem allocate_bindings {m : CacheManager} (alloc : Allocator) (n : Nat)
    (hlen : m.m_key_cache.length = m.m_value_cache.length)
    (hle : m.m_key_cache.length ≤ m.m_num_decoder_layers)
    (hgrow : m.m_num_allocated_kv_blocks < n)
    (hok : (m.allocate_cache_if_needed alloc n).2 = none) :
    bound_to_store (m.allocate_cache_if_needed alloc n).1 ∧
    ∀ t, t ∈ (m.allocate_cache_if_needed alloc n).1.m_key_cache ∨
        t ∈ (m.allocate_cache_if_needed alloc n).1.m_value_cache →
      m.m_tensor_counter ≤ t.id ∧ t.id < (m.allocate_cache_if_needed alloc n).1.m_tensor_counter := by
  unfold CacheManager.allocate_cache_if_needed at hok ⊢
  rw [if_neg (by omega)] at hok ⊢
  simp only at hok ⊢
  obtain ⟨h1, _⟩ := for_each_layer_spec (allocate_layer alloc n)
    (fun i s => (s.geometry = m.geometry ∧ s.m_num_allocated_kv_blocks = n ∧
        s.m_key_cache.length = s.m_value_cache.length ∧
        s.m_key_cache.length = max m.m_key_cache.length i ∧
        (∀ j, j < i → layer_shaped s n j) ∧
        (∀ j, i ≤ j → s.m_key_cache[j]? = m.m_key_cache[j]? ∧
          s.m_value_cache[j]? = m.m_value_cache[j]?)) ∧
      m.m_tensor_counter ≤ s.m_tensor_counter ∧
      (∀ j, j < i → ∀ k, s.m_key_cache[j]? = some k →
        m.m_tensor_counter ≤ k.id ∧ k.id < s.m_tensor_counter ∧
        s.m_request.get_tensor ("key_cache." ++ toString j) = some k.id) ∧
      (∀ j, j < i → ∀ v, s.m_value_cache[j]? = some v →
        m.m_tensor_counter ≤ v.id ∧ v.id < s.m_tensor_counter ∧
        s.m_request.get_tensor ("value_cache." ++ toString j) = some v.id))
    (by
      intro i s s' ⟨hP, hcnt, hK, hV⟩ hb
      have hP' := allocate_loop_spec alloc n m hlen i s s' hP hb
      refine ⟨hP', ?_⟩
      obtain ⟨_, _, hl, _, _, _⟩ := hP
      obtain ⟨_, _, _, _, _, other, _⟩ := allocate_layer_effect hl hb
      obtain ⟨k, v, hk, hv, hkid, hvid, hc', hreq⟩ := allocate_layer_rebinds hl hb
      refine ⟨by omega, ?_, ?_⟩
      · intro j hj t ht
        by_cases hji : j = i
        · subst hji
          rw [hk] at ht
          cases ht
          refine ⟨by omega, by omega, ?_⟩
          rw [hreq, get_tensor_set_tensor, if_neg (key_name_ne_value_name j j),
            get_tensor_set_tensor, if_pos rfl]
        · obtain ⟨o1, _⟩ := other j hji
          rw [o1] at ht
          obtain ⟨a, b, c⟩ := hK j (by omega) t ht
          refine ⟨a, by omega, ?_⟩
          rw [hreq, get_tensor_set_tensor, if_neg (key_name_ne_value_name j i),
            get_tensor_set_tensor, if_neg (fun e => hji (key_name_injective j i e))]
          exact c
      · intro j hj t ht
        by_cases hji : j = i
        · subst hji
          rw [hv] at ht
          cases ht
          refine ⟨by omega, by omega, ?_⟩
          rw [hreq, get_tensor_set_tensor, if_pos rfl]
        · obtain ⟨_, o2⟩ := other j hji
          rw [o2] at ht
          obtain ⟨a, b, c⟩ := hV j (by omega) t ht
          refine ⟨a, by omega, ?_⟩
          rw [hreq, get_tensor_set_tensor,
            if_neg (fun e => hji (value_name_injective j i e)),
            get_tensor_set_tensor, if_neg (fun e => key_name_ne_value_name i j e.symm)]
          exact c)
    m.m_num_decoder_layers 0 { m with m_num_allocated_kv_blocks := n }
    ⟨⟨rfl, rfl, hlen, by simp, by intro j hj; omega, by intro j _; exact ⟨rfl, rfl⟩⟩,
      le_refl _, by intro j hj; omega, by intro j hj; omega⟩
  obtain ⟨⟨g, _, l, mx, _, _⟩, _, hK, hV⟩ := h1 hok
  have gs := geometry_shapes g
  simp only [Nat.zero_add] at mx hK hV
  have hfull : ∀ j, j < (for_each_layer (allocate_layer alloc n) m.m_num_decoder_layers 0
      { m with m_num_allocated_kv_blocks := n }).1.m_key_cache.length →
      j < m.m_num_decoder_layers := by
    intro j hj
    rw [mx] at hj
    omega
  refine ⟨⟨?_, ?_⟩, ?_⟩
  · intro i k hk
    exact (hK i (hfull i (List.getElem?_eq_some.mp hk).1) k hk).2.2
  · intro i v hv
    exact (hV i (hfull i (by rw [l]; exact (List.getElem?_eq_some.mp hv).1)) v hv).2.2
  · intro t ht
    rcases ht with ht | ht
    · obtain ⟨j, hj, rfl⟩ := List.getElem_of_mem ht
      obtain ⟨a, b, _⟩ := hK j (hfull j hj) _ (List.getElem?_eq_getElem hj)
      exact ⟨a, b⟩
    · obtain ⟨j, hj, rfl⟩ := List.getElem_of_mem ht
      obtain ⟨a, b, _⟩ := hV j (hfull j (by rw [l]; exact hj)) _ (List.getElem?_eq_getElem hj)
      exact ⟨a, b⟩

/-- In every reachable state the request is bound to the buffers of the store, and
every buffer of the store was numbered before the next allocation. -/
theorem reachable_bound {request : InferRequest} {m : CacheManager}
    (h : Reachable request m) : bound_to_store m ∧ ids_allocated m := by
  induction h with
  | construct s hc =>
    obtain ⟨_, hk, hv, _⟩ := construct_fresh hc
    refine ⟨⟨?_, ?_⟩, ?_⟩
    · intro i k h
      rw [hk] at h
      simp at h
    · intro i v h
      rw [hv] at h
      simp at h
    · intro t ht
      rw [hk, hv] at ht
      simp at ht
  | grow s alloc n hr hok ih =>
    by_cases hgrow : s.m_num_allocated_kv_blocks < n
    · obtain ⟨⟨hlen, hle, _⟩, _⟩ := reachable_invariant hr
      obtain ⟨hb, hid⟩ := allocate_bindings alloc n hlen hle hgrow hok
      exact ⟨hb, fun t ht => (hid t ht).2⟩
    · have : s.allocate_cache_if_needed alloc n = (s, none) := by
        unfold CacheManager.allocate_cache_if_needed
        rw [if_pos (by omega)]
      rw [this]
      exact ih
  | copy s bm hr _ ih =>
    obtain ⟨⟨hbk, hbv⟩, hid⟩ := ih
    obtain ⟨hfix, hk, hv⟩ := copy_blocks_frame s bm
    have e1 : (s.copy_blocks bm).1.m_request = s.m_request := by rw [hfix]
    have e2 : (s.copy_blocks bm).1.m_tensor_counter = s.m_tensor_counter := by rw [hfix]
    refine ⟨⟨?_, ?_⟩, ?_⟩
    · intro i k' hk'
      obtain ⟨k, hk0, hh⟩ := getElem?_of_map_header hk i k' hk'
      simp only [Tensor.header, Prod.mk.injEq] at hh
      rw [e1, hh.1]
      exact hbk i k hk0
    · intro i v' hv'
      obtain ⟨v, hv0, hh⟩ := getElem?_of_map_header hv i v' hv'
      simp only [Tensor.header, Prod.mk.injEq] at hh
      rw [e1, hh.1]
      exact hbv i v hv0
    · intro t ht
      rw [e2]
      rcases ht with ht | ht
      · obtain ⟨j, hj, rfl⟩ := List.getElem_of_mem ht
        obtain ⟨k, hk0, hh⟩ := getElem?_of_map_header hk j _ (List.getElem?_eq_getElem hj)
        simp only [Tensor.header, Prod.mk.injEq] at hh
        rw [hh.1]
        exact hid k (Or.inl (List.getElem?_mem hk0))
      · obtain ⟨j, hj, rfl⟩ := List.getElem_of_mem ht
        obtain ⟨v, hv0, hh⟩ := getElem?_of_map_header hv j _ (List.getElem?_eq_getElem hj)
        simp only [Tensor.header, Prod.mk.injEq] at hh
        rw [hh.1]
        exact hid v (Or.inr (List.getElem?_mem hv0))

/-- C15: after every `allocate_cache_if_needed` call that completes on a reachable
state, for every layer `i` for which the store holds buffers, the request's input
`key_cache.<i>` is bound to the store's current key buffer of layer `i` and
`value_cache.<i>` to its current value buffer; and after a call that grew the store
no current buffer has the identity of a buffer held before the call, so no binding
is left to a replaced buffer. -/
theorem C15_rebinding (request : InferRequest) (m : CacheManager) (alloc : Allocator) (n : Nat)
    (hr : Reachable request m) (hok : (m.allocate_cache_if_needed alloc n).2 = none) :
    (∀ (i : Nat) (k : Tensor), (m.allocate_cache_if_needed alloc n).1.m_key_cache[i]? = some k →
      (m.allocate_cache_if_needed alloc n).1.m_request.get_tensor
        ("key_cache." ++ toString i) = some k.id) ∧
    (∀ (i : Nat) (v : Tensor), (m.allocate_cache_if_needed alloc n).1.m_value_cache[i]? = some v →
      (m.allocate_cache_if_needed alloc n).1.m_request.get_tensor
        ("value_cache." ++ toString i) = some v.id) ∧
    (m.m_num_allocated_kv_blocks < n →
      ∀ new old : Tensor,
        (new ∈ (m.allocate_cache_if_needed alloc n).1.m_key_cache ∨
          new ∈ (m.allocate_cache_if_needed alloc n).1.m_value_cache) →
        (old ∈ m.m_key_cache ∨ old ∈ m.m_value_cache) → new.id ≠ old.id) := by
  obtain ⟨⟨hbk, hbv⟩, _⟩ := reachable_bound (Reachable.grow m alloc n hr hok)
  refine ⟨hbk, hbv, ?_⟩
  intro hgrow new old hnew hold
  obtain ⟨⟨hlen, hle, _⟩, _⟩ := reachable_invariant hr
  obtain ⟨_, hid⟩ := allocate_bindings alloc n hlen hle hgrow hok
  have h1 := (hid new hnew).1
  have h2 := (reachable_bound hr).2 old hold
  omega

set_option maxRecDepth 8000 in
/-- Witness of C15: the host manager grown to four blocks, then to five. -/
theorem C15_rebinding_witness :
    Reachable host_request host_manager_4 ∧
    (host_manager_4.allocate_cache_if_needed zero_allocator 5).2 = none ∧
    (host_manager_4.allocate_cache_if_needed zero_allocator 5).1.m_key_cache.map Tensor.id =
      [4, 6] ∧
    (host_manager_4.allocate_cache_if_needed zero_allocator 5).1.m_request.get_tensor
      "key_cache.1" = some 6 :=
  have hr : Reachable host_request host_manager_4 :=
    Reachable.grow _ _ _ (Reachable.construct _ rfl) rfl
  ⟨hr, rfl, rfl,
    (C15_rebinding host_request host_manager_4 zero_allocator 5 hr rfl).1 1
      { id := 6, remote := false, element_type := .u8, shape := [5, 1, 1, 2],
        data := [0, 1, 2, 3, 4, 5, 6, 7, 0, 0] } (by rfl)⟩

/-! ### The packed copy length, the stride and the packed branch on remote buffers -/

set_option maxRecDepth 100000 in
/-- C16 (the code at the failing input): for a `u4` old buffer of shape
`[65536, 8, 32, 128]` (`2 ^ 31` elements, `2 ^ 30` bytes) the packed branch of
`copy_roi` asks `memcpy` for `2 ^ 63 - 2 ^ 30` bytes, not `2 ^ 31 / 2`, far past the
old content; for `[131072, 8, 32, 128]` (`2 ^ 32` elements) it asks for 0 bytes, not
`2 ^ 31`. -/
theorem C16_packed_copy_length_int_accumulator :
    shape_size [65536, 8, 32, 128] = 2 ^ 31 ∧
    byte_size .u4 [65536, 8, 32, 128] = 2 ^ 30 ∧
    copy_roi_count .u4 [65536, 8, 32, 128] = 2 ^ 63 - 2 ^ 30 ∧
    (∀ old_data new_data : List Nat,
      copy_roi [0, 0, 0, 0]
        { id := 2, remote := false, element_type := .u4, shape := [65537, 8, 32, 128],
          data := new_data }
        { id := 0, remote := false, element_type := .u4, shape := [65536, 8, 32, 128],
          data := old_data }
        [65536, 8, 32, 128] =
      match memcpy new_data 0 old_data 0 (2 ^ 63 - 2 ^ 30) with
      | some d =>
        .ok { id := 2, remote := false, element_type := .u4, shape := [65537, 8, 32, 128],
              data := d }
      | none => .error .out_of_bounds) ∧
    shape_size [131072, 8, 32, 128] = 2 ^ 32 ∧
    copy_roi_count .i4 [131072, 8, 32, 128] = 0 := by
  have h : copy_roi_count .u4 [65536, 8, 32, 128] = 2 ^ 63 - 2 ^ 30 := by rfl
  refine ⟨by rfl, by rfl, h, ?_, by rfl, by rfl⟩
  intro old_data new_data
  simp only [copy_roi, true_or, if_true, Bool.or_self, Bool.false_eq_true, if_false, h]

theorem block_stride_eq (t : Tensor) (n : Nat) (rest : Shape) (hshape : t.shape = n :: rest)
    (hsmall : shape_size rest < 2 ^ 31) :
    block_stride t = .ok (shape_size rest / sub_byte_data_type_multiplier t.element_type) := by
  unfold block_stride
  rw [hshape]
  simp only
  rw [accumulate_size_eq rest hsmall]

set_option maxRecDepth 100000 in
/-- C17 (the code at the failing input): for a host `u8` buffer of shape
`[2, 65536, 65536, 1]` the product of the non-block dimensions is `2 ^ 32` but the
stride computed by `copy_blocks` is 0, so the pair (0, 1) copies no byte and leaves
the buffer as it is; for non-block dimensions `[32768, 65536, 1]` (`2 ^ 31`) the
stride is `2 ^ 64 - 2 ^ 31`. -/
theorem C17_stride_int_accumulator :
    shape_size [65536, 65536, 1] = 2 ^ 32 ∧
    (∀ data : List Nat,
      block_stride { id := 0, remote := false, element_type := .u8,
                     shape := [2, 65536, 65536, 1], data := data } = .ok 0 ∧
      copy_one_block
        { id := 0, remote := false, element_type := .u8, shape := [2, 65536, 65536, 1],
          data := data }
        { id := 0, remote := false, element_type := .u8, shape := [2, 65536, 65536, 1],
          data := data } 0 1 0 =
        .ok { id := 0, remote := false, element_type := .u8, shape := [2, 65536, 65536, 1],
              data := data }) ∧
    shape_size [32768, 65536, 1] = 2 ^ 31 ∧
    (∀ data : List Nat,
      block_stride { id := 0, remote := false, element_type := .u8,
                     shape := [2, 32768, 65536, 1], data := data } = .ok (2 ^ 64 - 2 ^ 31)) := by
  have h0 : accumulate_size [65536, 65536, 1] = 0 := by rfl
  have h1 : accumulate_size [32768, 65536, 1] = 2 ^ 64 - 2 ^ 31 := by rfl
  refine ⟨by rfl, ?_, by rfl, ?_⟩
  · intro data
    refine ⟨?_, ?_⟩
    · simp only [block_stride, h0]
      rfl
    · simp [copy_one_block, memcpy]
  · intro data
    simp only [block_stride, h1]
    rfl

set_option maxRecDepth 8000 in
/-- C19 (the code at the failing input): on an accelerator store of `u4` buffers the
grow-preserve step takes the packed branch of `copy_roi`, which goes through
`data()` and `memcpy` without looking at the locality of the tensors: the growth
from one block to two ends in the fault of `data()` on a remote tensor. -/
theorem C19_packed_growth_on_remote :
    gpu_u4_manager_1.m_key_cache.map (fun t => (t.remote, t.element_type, t.shape)) =
      [(true, .u4, [1, 2, 8, 64])] ∧
    (gpu_u4_manager_1.allocate_cache_if_needed zero_allocator 2).2 = some .remote_data ∧
    (∀ (id : Nat) (new_shape shape : Shape) (data : List Nat) (src : Tensor),
      copy_roi [0, 0, 0, 0]
        { id := id, remote := true, element_type := .u4, shape := new_shape, data := data }
        src shape = .error .remote_data) := by
  refine ⟨by rfl, by rfl, ?_⟩
  intro id new_shape shape data src
  simp [copy_roi]

/-! ### What one block copy does to the bytes of a buffer -/

/-- The bytes after `memcpy`: the length of the destination is kept, the bytes of the
destination range are those of the source range, all others are kept. -/
theorem memcpy_spec {dst src r : List Nat} {doff soff c : Nat}
    (h : memcpy dst doff src soff c = some r) :
    soff + c ≤ src.length ∧ doff + c ≤ dst.length ∧ r.length = dst.length ∧
    ∀ b, r[b]? = if doff ≤ b ∧ b < doff + c then src[soff + (b - doff)]? else dst[b]? := by
  unfold memcpy at h
  split at h
  · rename_i hb
    simp only [Option.some.injEq] at h
    subst h
    refine ⟨hb.1, hb.2, ?_, ?_⟩
    · simp only [List.length_append, List.length_take, List.length_drop]
      omega
    · intro b
      have hA : (dst.take doff).length = doff := by rw [List.length_take]; omega
      have hB : ((src.drop soff).take c).length = c := by
        rw [List.length_take, List.length_drop]; omega
      by_cases h1 : b < doff
      · rw [if_neg (by omega), List.append_assoc, List.getElem?_append_left (by omega),
          List.getElem?_take_of_lt h1]
      · by_cases h2 : b < doff + c
        · rw [if_pos ⟨by omega, h2⟩,
            List.getElem?_append_left (by rw [List.length_append, hA, hB]; omega),
            List.getElem?_append_right (by omega), hA,
            List.getElem?_take_of_lt (by omega), List.getElem?_drop]
        · rw [if_neg (by omega),
            List.getElem?_append_right (by rw [List.length_append, hA, hB]; omega),
            List.length_append, hA, hB, List.getElem?_drop]
          congr 1
          omega
  · simp at h

/-- One block copy on one buffer keeps everything but bytes of the range written for
the destination: the header, the length of the content and every byte outside the
range. -/
theorem copy_one_block_frame {t t' : Tensor} {s d stride : Nat}
    (h : copy_one_block t t s d stride = .ok t') :
    t'.header = t.header ∧ t'.data.length = t.data.length ∧
    ∀ b, ¬ in_destination stride d b → t'.data[b]? = t.data[b]? := by
  refine ⟨copy_one_block_header h, ?_⟩
  unfold copy_one_block at h
  simp only at h
  split at h
  · split at h
    · rename_i r hr
      cases h
      obtain ⟨_, _, hlen, hget⟩ := memcpy_spec hr
      refine ⟨hlen, fun b hb => ?_⟩
      unfold in_destination at hb
      rw [hget b, if_neg hb]
    · simp at h
  · cases h
    exact ⟨rfl, fun _ _ => rfl⟩

/-! ### The frame of `copy_blocks`, byte by byte -/

theorem block_stride_header {t t' : Tensor} (h : t'.header = t.header) :
    block_stride t' = block_stride t := by
  simp only [Tensor.header, Prod.mk.injEq] at h
  unfold block_stride
  rw [h.2.2.2, h.2.2.1]

/-- What a successful iteration of the copy loop is made of. -/
theorem copy_blocks_layer_ok {s d i : Nat} {m m' : CacheManager}
    (h : copy_blocks_layer s d i m = .ok m') :
    ∃ k v sk sv k' v', m.m_key_cache[i]? = some k ∧ m.m_value_cache[i]? = some v ∧
      block_stride k = .ok sk ∧ block_stride v = .ok sv ∧
      copy_one_block k k s d sk = .ok k' ∧ copy_one_block v v s d sv = .ok v' ∧
      m' = { m with m_key_cache := m.m_key_cache.set i k'
                    m_value_cache := m.m_value_cache.set i v' } := by
  simp only [copy_blocks_layer, bind, Except.bind, pure, Except.pure] at h
  split at h
  · simp at h
  rename_i k hk
  split at h
  · simp at h
  rename_i v hv
  split at h
  · simp at h
  rename_i sk hsk
  split at h
  · simp at h
  rename_i sv hsv
  split at h
  · simp at h
  rename_i k' hk'
  split at h
  · simp at h
  rename_i v' hv'
  cases h
  exact ⟨k, v, sk, sv, k', v', (vector_at_ok _ _ _).mp hk, (vector_at_ok _ _ _).mp hv, hsk, hsv,
    hk', hv', rfl⟩

theorem bytes_kept_refl (D : List Nat) (t : Tensor) : bytes_kept D t t :=
  ⟨rfl, rfl, fun _ _ _ _ => rfl⟩

theorem frame_kept_refl (D : List Nat) (m : CacheManager) : frame_kept D m m :=
  ⟨rfl, rfl, rfl, fun _ t t' h h' => by rw [h] at h'; cases h'; exact bytes_kept_refl D t,
    fun _ t t' h h' => by rw [h] at h'; cases h'; exact bytes_kept_refl D t⟩

theorem bytes_kept_step {D : List Nat} {t k k' : Tensor} {s d stride : Nat}
    (hk : bytes_kept D t k) (hstride : block_stride k = .ok stride)
    (hcopy : copy_one_block k k s d stride = .ok k') (hd : d ∈ D) : bytes_kept D t k' := by
  obtain ⟨h1, h2, h3⟩ := hk
  obtain ⟨c1, c2, c3⟩ := copy_one_block_frame hcopy
  refine ⟨c1.trans h1, c2.trans h2, ?_⟩
  intro stride' hs' b hb
  have heq : stride' = stride := by
    rw [block_stride_header h1, hs'] at hstride
    exact Except.ok.inj hstride
  rw [c3 b (by rw [← heq]; exact hb d hd)]
  exact h3 stride' hs' b hb

theorem frame_kept_step {D : List Nat} {m x x' : CacheManager} {s d i : Nat}
    (hx : frame_kept D m x) (hb : copy_blocks_layer s d i x = .ok x') (hd : d ∈ D) :
    frame_kept D m x' := by
  obtain ⟨k, v, sk, sv, k', v', hk, hv, hsk, hsv, hck, hcv, rfl⟩ := copy_blocks_layer_ok hb
  obtain ⟨e, lk, lv, fk, fv⟩ := hx
  refine ⟨?_, by simp only [List.length_set]; exact lk, by simp only [List.length_set]; exact lv,
    ?_, ?_⟩
  · simp only
    rw [e]
  · intro j t t' ht ht'
    simp only at ht'
    by_cases hji : i = j
    · subst hji
      rw [List.getElem?_set_self (List.getElem?_eq_some.mp hk).1] at ht'
      cases ht'
      exact bytes_kept_step (fk i t k ht hk) hsk hck hd
    · rw [List.getElem?_set_ne hji] at ht'
      exact fk j t t' ht ht'
  · intro j t t' ht ht'
    simp only at ht'
    by_cases hji : i = j
    · subst hji
      rw [List.getElem?_set_self (List.getElem?_eq_some.mp hv).1] at ht'
      cases ht'
      exact bytes_kept_step (fv i t v ht hv) hsv hcv hd
    · rw [List.getElem?_set_ne hji] at ht'
      exact fv j t t' ht ht'

theorem copy_blocks_dsts_frame_kept (D : List Nat) (m : CacheManager) (s : Nat) (ds : List Nat)
    (x : CacheManager) (hx : frame_kept D m x) (hds : ∀ d ∈ ds, d ∈ D) :
    frame_kept D m (copy_blocks_dsts s ds x).1 := by
  induction ds generalizing x with
  | nil => exact hx
  | cons d rest ih =>
    simp only [copy_blocks_dsts]
    have hloop := for_each_layer_preserves (copy_blocks_layer s d) (fun y => frame_kept D m y)
      (fun i a b ha hb => frame_kept_step ha hb (hds d (List.mem_cons_self _ _)))
      x.m_num_decoder_layers 0 x hx
    generalize for_each_layer (copy_blocks_layer s d) x.m_num_decoder_layers 0 x = r at hloop
    obtain ⟨x1, f⟩ := r
    cases f with
    | none => exact ih x1 hloop (fun d' hd' => hds d' (List.mem_cons_of_mem _ hd'))
    | some f => exact hloop

theorem copy_blocks_frame_kept (D : List Nat) (m : CacheManager)
    (block_copy_map : List (Nat × List Nat)) (x : CacheManager) (hx : frame_kept D m x)
    (hD : ∀ d ∈ copy_destinations block_copy_map, d ∈ D) :
    frame_kept D m (x.copy_blocks block_copy_map).1 := by
  induction block_copy_map generalizing x with
  | nil => exact hx
  | cons e rest ih =>
    obtain ⟨s, ds⟩ := e
    simp only [CacheManager.copy_blocks]
    simp only [copy_destinations, List.mem_append] at hD
    have h1 := copy_blocks_dsts_frame_kept D m s ds x hx (fun d hd => hD d (Or.inl hd))
    generalize copy_blocks_dsts s ds x = r at h1
    obtain ⟨x1, f⟩ := r
    cases f with
    | none => exact ih x1 h1 (fun d hd => hD d (Or.inr hd))
    | some f => exact h1

set_option maxRecDepth 20000 in
/-- C20 (as stated, refuted): a byte outside every range `[d*stride, d*stride + stride)`
of the destination ids of the map can change. On the host manager grown to four
blocks (stride 2, byte `i` holding `i`) the map `1 -> [2^63]` has the one destination
range `[2^64, 2^64 + 2)`; the offset `2^63 * 2` is computed in `size_t` and is 0, so
the call completes and writes the bytes of block 1 over bytes 0 and 1. -/
theorem C20_copy_blocks_frame_counterexample :
    ¬ ∀ (request : InferRequest) (m : CacheManager) (block_copy_map : List (Nat × List Nat)),
      Reachable request m →
      ∀ (i : Nat) (t t' : Tensor), m.m_key_cache[i]? = some t →
        (m.copy_blocks block_copy_map).1.m_key_cache[i]? = some t' →
        ∀ stride, block_stride t = .ok stride →
          ∀ b, (∀ d ∈ copy_destinations block_copy_map, ¬ in_block stride d b) →
            t'.data[b]? = t.data[b]? := by
  intro hall
  have hr : Reachable host_request host_manager_4 :=
    Reachable.grow _ _ _ (Reachable.construct _ rfl) rfl
  have h := hall host_request host_manager_4 [(1, [2 ^ 63])] hr 0
    (host_manager_4.m_key_cache[0]?.getD
      { id := 0, remote := false, element_type := .u8, shape := [], data := [] })
    ((host_manager_4.copy_blocks [(1, [2 ^ 63])]).1.m_key_cache[0]?.getD
      { id := 0, remote := false, element_type := .u8, shape := [], data := [] })
    (by rfl) (by rfl) 2 (by rfl) 0 (by decide)
  exact absurd h (by decide)

/-- C20 (amended): for every copy map and every state (reachable or not), a call of
`copy_blocks` that completes with every range it reads or writes inside its buffer
changes nothing except bytes inside the ranges `[o, o + stride)` written for the
destination ids `d` of the map, where `o` is `d*stride` computed in `size_t` (the
range `[d*stride, d*stride + stride)` whenever `d*stride` is below `2^64`): the block
count, the request with its bindings, the geometry and the number of stored layers
are unchanged, and every buffer keeps its identity, locality, element type, shape,
length of content and every byte that lies in no such range. -/
theorem C20_copy_blocks_frame (m : CacheManager) (block_copy_map : List (Nat × List Nat))
    (hf : (m.copy_blocks block_copy_map).2 = none) :
    (m.copy_blocks block_copy_map).1.m_num_allocated_kv_blocks = m.m_num_allocated_kv_blocks ∧
    (m.copy_blocks block_copy_map).1.m_request = m.m_request ∧
    (m.copy_blocks block_copy_map).1.geometry = m.geometry ∧
    (m.copy_blocks block_copy_map).1.m_key_cache.length = m.m_key_cache.length ∧
    (m.copy_blocks block_copy_map).1.m_value_cache.length = m.m_value_cache.length ∧
    (∀ (i : Nat) (t t' : Tensor),
      (m.m_key_cache[i]? = some t ∧ (m.copy_blocks block_copy_map).1.m_key_cache[i]? = some t') ∨
      (m.m_value_cache[i]? = some t ∧
        (m.copy_blocks block_copy_map).1.m_value_cache[i]? = some t') →
      t'.id = t.id ∧ t'.remote = t.remote ∧ t'.element_type = t.element_type ∧
      t'.shape = t.shape ∧ t'.data.length = t.data.length ∧
      ∀ stride, block_stride t = .ok stride →
        ∀ b, (∀ d ∈ copy_destinations block_copy_map, ¬ in_destination stride d b) →
          t'.data[b]? = t.data[b]?) ∧
    (∀ stride d b, d * stride < 2 ^ 64 → (in_destination stride d b ↔ in_block stride d b)) := by
  have _ := hf
  obtain ⟨e, lk, lv, fk, fv⟩ := copy_blocks_frame_kept (copy_destinations block_copy_map) m
    block_copy_map m (frame_kept_refl _ m) (fun _ h => h)
  obtain ⟨g, c, r⟩ := same_but_content_fixed (copy_blocks_frame m block_copy_map)
  refine ⟨c, r, g, lk, lv, ?_, ?_⟩
  · intro i t t' ht
    have hb : bytes_kept (copy_destinations block_copy_map) t t' := by
      rcases ht with ⟨h1, h2⟩ | ⟨h1, h2⟩
      · exact fk i t t' h1 h2
      · exact fv i t t' h1 h2
    obtain ⟨hh, hl, hbytes⟩ := hb
    simp only [Tensor.header, Prod.mk.injEq] at hh
    exact ⟨hh.1, hh.2.1, hh.2.2.1, hh.2.2.2, hl, hbytes⟩
  · intro stride d b hd
    unfold in_destination in_block
    rw [Nat.mod_eq_of_lt hd]

set_option maxRecDepth 20000 in
/-- Witness of C20: on the host manager grown to four blocks the map `1 -> [2, 3]`
completes and keeps the bytes of blocks 0 and 1. -/
theorem C20_copy_blocks_frame_witness :
    (host_manager_4.copy_blocks [(1, [2, 3])]).2 = none ∧
    (host_manager_4.copy_blocks [(1, [2, 3])]).1.m_key_cache.map Tensor.data =
      [[0, 1, 2, 3, 2, 3, 2, 3], [0, 1, 2, 3, 2, 3, 2, 3]] ∧
    (host_manager_4.copy_blocks [(1, [2, 3])]).1.m_num_allocated_kv_blocks =
      host_manager_4.m_num_allocated_kv_blocks :=
  ⟨by rfl, by rfl, (C20_copy_blocks_frame host_manager_4 [(1, [2, 3])] (by rfl)).1⟩

/-! ### Order of the entries of a copy map -/

theorem in_block_unique {stride d d' b : Nat} (h : in_block stride d b)
    (h' : in_block stride d' b) : d = d' := by
  obtain ⟨h1, h2⟩ := h
  obtain ⟨h3, h4⟩ := h'
  have e1 : b / stride = d := Nat.div_eq_of_lt_le h1 (by rw [Nat.succ_mul]; exact h2)
  have e2 : b / stride = d' := Nat.div_eq_of_lt_le h3 (by rw [Nat.succ_mul]; exact h4)
  rw [← e1, ← e2]

theorem byte_copy_spec (stride : Nat) (p : Nat × Nat) (x : List Nat) :
    (byte_copy stride p x).length = x.length ∧
    ((p.1 * stride + stride ≤ x.length ∧ p.2 * stride + stride ≤ x.length) →
      ∀ b, (byte_copy stride p x)[b]? =
        if in_block stride p.2 b then x[p.1 * stride + (b - p.2 * stride)]? else x[b]?) ∧
    (¬ (p.1 * stride + stride ≤ x.length ∧ p.2 * stride + stride ≤ x.length) →
      byte_copy stride p x = x) := by
  unfold byte_copy
  cases h : memcpy x (p.2 * stride) x (p.1 * stride) stride with
  | none =>
    refine ⟨by simp, fun hb => ?_, fun _ => rfl⟩
    unfold memcpy at h
    rw [if_pos hb] at h
    simp at h
  | some r =>
    obtain ⟨h1, h2, hlen, hget⟩ := memcpy_spec h
    refine ⟨hlen, fun _ b => ?_, fun hn => absurd ⟨h1, h2⟩ hn⟩
    simp only
    rw [hget b]
    rfl

/-- Two compatible pairs commute on the bytes of a buffer. -/
theorem byte_copy_comm (stride : Nat) (p q : Nat × Nat) (hc : pairs_compatible p q)
    (x : List Nat) :
    byte_copy stride q (byte_copy stride p x) = byte_copy stride p (byte_copy stride q x) := by
  by_cases hpq : p = q
  · rw [hpq]
  obtain ⟨s, d⟩ := p
  obtain ⟨s', d'⟩ := q
  obtain ⟨c1, c2, c3⟩ := hc
  simp only at c1 c2 c3
  have hne : ¬ (d = d') := by
    intro h
    exact hpq (by rw [c3 h, h])
  obtain ⟨lp, gp, np⟩ := byte_copy_spec stride (s, d) x
  obtain ⟨lq, gq, nq⟩ := byte_copy_spec stride (s', d') x
  obtain ⟨_, gqp, nqp⟩ := byte_copy_spec stride (s', d') (byte_copy stride (s, d) x)
  obtain ⟨_, gpq, npq⟩ := byte_copy_spec stride (s, d) (byte_copy stride (s', d') x)
  rw [lp] at gqp nqp
  rw [lq] at gpq npq
  simp only at gp gq gqp gpq np nq nqp npq
  by_cases hip : s * stride + stride ≤ x.length ∧ d * stride + stride ≤ x.length
  · by_cases hiq : s' * stride + stride ≤ x.length ∧ d' * stride + stride ≤ x.length
    · have gp := gp hip
      have gq := gq hiq
      have gqp := gqp hiq
      have gpq := gpq hip
      apply List.ext_getElem?
      intro b
      rw [gqp b, gpq b]
      by_cases hbq : in_block stride d' b
      · have hbp : ¬ in_block stride d b := fun h => hne (in_block_unique h hbq)
        rw [if_pos hbq, if_neg hbp, gq b, if_pos hbq, gp]
        by_cases hj : in_block stride d (s' * stride + (b - d' * stride))
        · have hs' : in_block stride s' (s' * stride + (b - d' * stride)) := by
            unfold in_block at hbq ⊢
            omega
          have hds' : d = s' := in_block_unique hj hs'
          have hsd : s = d := by rw [c1 hds', hds']
          rw [if_pos hj]
          subst hsd
          unfold in_block at hj
          congr 1
          omega
        · rw [if_neg hj]
      · rw [if_neg hbq, gp b]
        by_cases hbp : in_block stride d b
        · rw [if_pos hbp, if_pos hbp, gq]
          by_cases hj : in_block stride d' (s * stride + (b - d * stride))
          · have hs : in_block stride s (s * stride + (b - d * stride)) := by
              unfold in_block at hbp ⊢
              omega
            have hds : d' = s := in_block_unique hj hs
            have hsd : s' = d' := by rw [c2 hds, hds]
            rw [if_pos hj]
            subst hsd
            unfold in_block at hj
            congr 1
            omega
          · rw [if_neg hj]
        · rw [if_neg hbp, if_neg hbp, gq b, if_neg hbq]
    · rw [nqp hiq, nq hiq]
  · rw [npq hip, np hip]

theorem offset_copy_length (stride : Nat) (p : Nat × Nat) (x : List Nat) :
    (offset_copy stride p x).length = x.length := by
  unfold offset_copy
  cases h : memcpy x ((p.2 * stride) % 2 ^ 64) x ((p.1 * stride) % 2 ^ 64) stride with
  | none => rfl
  | some r => exact (memcpy_spec h).2.2.1

/-- Where the two offsets of a pair do not leave the range of `size_t`, the copy of
`copy_one_block` is the copy of block `p.1` onto block `p.2`. -/
theorem offset_copy_exact (stride : Nat) (p : Nat × Nat) (x : List Nat)
    (h1 : p.1 * stride < 2 ^ 64) (h2 : p.2 * stride < 2 ^ 64) :
    offset_copy stride p x = byte_copy stride p x := by
  unfold offset_copy byte_copy
  rw [Nat.mod_eq_of_lt h1, Nat.mod_eq_of_lt h2]

theorem tensor_apply_eq (p : Nat × Nat) (t : Tensor) :
    tensor_apply p t =
      match block_stride t with
      | .error _ => t
      | .ok stride =>
        if t.remote = true then t else { t with data := offset_copy stride p t.data } := by
  unfold tensor_apply tensor_copy
  cases hs : block_stride t with
  | error f => rfl
  | ok stride =>
    obtain ⟨id, remote, et, shape, data⟩ := t
    simp only [copy_one_block, offset_copy, Bool.or_self]
    cases remote with
    | true => simp
    | false =>
      simp only [Bool.not_false, if_true, Bool.false_eq_true, if_false]
      cases memcpy data ((p.2 * stride) % 2 ^ 64) data ((p.1 * stride) % 2 ^ 64) stride <;> rfl

theorem tensor_apply_header (p : Nat × Nat) (t : Tensor) :
    (tensor_apply p t).header = t.header ∧ (tensor_apply p t).data.length = t.data.length := by
  rw [tensor_apply_eq]
  cases block_stride t with
  | error f => exact ⟨rfl, rfl⟩
  | ok stride =>
    simp only
    split
    · exact ⟨rfl, rfl⟩
    · exact ⟨rfl, offset_copy_length stride p t.data⟩

theorem tensor_apply_of_copy {s d : Nat} {t t' : Tensor} (h : tensor_copy s d t = .ok t') :
    tensor_apply (s, d) t = t' := by
  unfold tensor_apply
  simp only [h]

/-- Whether the copy of a pair is defined on a buffer depends on its header and on
the length of its content only. -/
theorem tensor_copy_defined_congr {s d : Nat} {t1 t2 : Tensor} (hh : t2.header = t1.header)
    (hl : t2.data.length = t1.data.length) (h : ∃ t', tensor_copy s d t1 = .ok t') :
    ∃ t', tensor_copy s d t2 = .ok t' := by
  obtain ⟨t', h⟩ := h
  unfold tensor_copy at h ⊢
  rw [block_stride_header hh]
  simp only [Tensor.header, Prod.mk.injEq] at hh
  cases hs : block_stride t1 with
  | error f => rw [hs] at h; simp at h
  | ok stride =>
    rw [hs] at h
    simp only [copy_one_block, Bool.or_self] at h ⊢
    rw [hh.2.1]
    cases hr : t1.remote with
    | true => simp
    | false =>
      rw [hr] at h
      simp only [Bool.not_false, if_true] at h ⊢
      cases hm : memcpy t1.data ((d * stride) % 2 ^ 64) t1.data ((s * stride) % 2 ^ 64)
          stride with
      | none => rw [hm] at h; simp at h
      | some r =>
        obtain ⟨b1, b2, _, _⟩ := memcpy_spec hm
        have : memcpy t2.data ((d * stride) % 2 ^ 64) t2.data ((s * stride) % 2 ^ 64) stride =
            some (t2.data.take ((d * stride) % 2 ^ 64) ++
              (t2.data.drop ((s * stride) % 2 ^ 64)).take stride ++
              t2.data.drop ((d * stride) % 2 ^ 64 + stride)) := by
          unfold memcpy
          rw [if_pos ⟨by omega, by omega⟩]
        rw [this]
        exact ⟨_, rfl⟩

theorem tensor_copy_of_parts {s d stride : Nat} {t t' : Tensor}
    (hs : block_stride t = .ok stride) (hc : copy_one_block t t s d stride = .ok t') :
    tensor_copy s d t = .ok t' := by
  unfold tensor_copy
  rw [hs]
  exact hc

theorem tensor_copy_parts {s d : Nat} {t t' : Tensor} (h : tensor_copy s d t = .ok t') :
    ∃ stride, block_stride t = .ok stride ∧ copy_one_block t t s d stride = .ok t' := by
  unfold tensor_copy at h
  cases hs : block_stride t with
  | error f => rw [hs] at h; simp at h
  | ok stride =>
    rw [hs] at h
    exact ⟨stride, rfl, h⟩

/-- An iteration of the copy loop succeeds when the copy is defined on the two buffers
of the layer. -/
theorem copy_blocks_layer_of {s d i : Nat} {m : CacheManager} {k v k' v' : Tensor}
    (hk : m.m_key_cache[i]? = some k) (hv : m.m_value_cache[i]? = some v)
    (ck : tensor_copy s d k = .ok k') (cv : tensor_copy s d v = .ok v') :
    copy_blocks_layer s d i m =
      .ok { m with m_key_cache := m.m_key_cache.set i k'
                   m_value_cache := m.m_value_cache.set i v' } := by
  obtain ⟨sk, hsk, hck⟩ := tensor_copy_parts ck
  obtain ⟨sv, hsv, hcv⟩ := tensor_copy_parts cv
  simp only [copy_blocks_layer, bind, Except.bind, pure, Except.pure,
    (vector_at_ok _ _ _).mpr hk, (vector_at_ok _ _ _).mpr hv, hsk, hsv, hck, hcv]

theorem set_map_step {α : Type} (f : α → α) (l0 l : List α) (i : Nat) (k : α)
    (h : ∀ j, l[j]? = if j < i then (l0[j]?).map f else l0[j]?) (hk : l[i]? = some k) :
    ∀ j, (l.set i (f k))[j]? = if j < i + 1 then (l0[j]?).map f else l0[j]? := by
  intro j
  have hlt : i < l.length := by
    obtain ⟨h1, _⟩ := List.getElem?_eq_some.mp hk
    exact h1
  by_cases hj : j = i
  · subst hj
    have h0 := h j
    rw [if_neg (Nat.lt_irrefl j), hk] at h0
    rw [List.getElem?_set_self hlt, if_pos (Nat.lt_succ_self j), ← h0]
    rfl
  · rw [List.getElem?_set_ne (Ne.symm hj), h j]
    by_cases hji : j < i
    · rw [if_pos hji, if_pos (by omega)]
    · rw [if_neg hji, if_neg (by omega)]

theorem map_of_pointwise {α : Type} (f : α → α) (l0 l : List α) (n : Nat)
    (h : ∀ j, l[j]? = if j < n then (l0[j]?).map f else l0[j]?) (hn : l0.length ≤ n) :
    l = l0.map f := by
  apply List.ext_getElem?
  intro j
  rw [h j, List.getElem?_map]
  by_cases hj : j < n
  · rw [if_pos hj]
  · rw [if_neg hj, List.getElem?_eq_none (by omega)]
    rfl

/-- The layer loop of one pair: it completes exactly when the copy is defined on every
layer, and then it has applied the pair to every buffer of the store. -/
theorem pair_loop_spec (s d : Nat) (m : CacheManager)
    (hk : m.m_key_cache.length ≤ m.m_num_decoder_layers)
    (hv : m.m_value_cache.length ≤ m.m_num_decoder_layers) :
    (pair_defined (s, d) m →
      for_each_layer (copy_blocks_layer s d) m.m_num_decoder_layers 0 m =
        (pair_apply m (s, d), none)) ∧
    ((for_each_layer (copy_blocks_layer s d) m.m_num_decoder_layers 0 m).2 = none →
      pair_defined (s, d) m) := by
  have key := for_each_layer_spec (copy_blocks_layer s d)
    (fun i st =>
      st = { m with m_key_cache := st.m_key_cache, m_value_cache := st.m_value_cache } ∧
      (∀ j, st.m_key_cache[j]? =
        if j < i then (m.m_key_cache[j]?).map (tensor_apply (s, d)) else m.m_key_cache[j]?) ∧
      (∀ j, st.m_value_cache[j]? =
        if j < i then (m.m_value_cache[j]?).map (tensor_apply (s, d))
        else m.m_value_cache[j]?) ∧
      (∀ j, j < i → ∃ k v k' v', m.m_key_cache[j]? = some k ∧ m.m_value_cache[j]? = some v ∧
        tensor_copy s d k = .ok k' ∧ tensor_copy s d v = .ok v'))
    (by
      intro i st st' ⟨hst, pk, pv, pd⟩ hb
      obtain ⟨k, v, sk, sv, k', v', gk, gv, bk, bv, ck, cv, rfl⟩ := copy_blocks_layer_ok hb
      have tk := tensor_copy_of_parts bk ck
      have tv := tensor_copy_of_parts bv cv
      have ak := tensor_apply_of_copy tk
      have av := tensor_apply_of_copy tv
      have mk : m.m_key_cache[i]? = some k := by
        rw [← gk, pk i, if_neg (Nat.lt_irrefl i)]
      have mv : m.m_value_cache[i]? = some v := by
        rw [← gv, pv i, if_neg (Nat.lt_irrefl i)]
      refine ⟨?_, ?_, ?_, ?_⟩
      · simp only
        rw [hst]
      · simp only
        rw [← ak]
        exact set_map_step _ _ _ _ _ pk gk
      · simp only
        rw [← av]
        exact set_map_step _ _ _ _ _ pv gv
      · intro j hj
        by_cases hji : j < i
        · exact pd j hji
        · have : j = i := by omega
          subst this
          exact ⟨k, v, k', v', mk, mv, tk, tv⟩)
    m.m_num_decoder_layers 0 m
    ⟨rfl, fun j => by rw [if_neg (Nat.not_lt_zero j)],
      fun j => by rw [if_neg (Nat.not_lt_zero j)], fun j hj => absurd hj (Nat.not_lt_zero j)⟩
  obtain ⟨h1, h2⟩ := key
  constructor
  · intro hd
    cases hf : (for_each_layer (copy_blocks_layer s d) m.m_num_decoder_layers 0 m).2 with
    | none =>
      obtain ⟨hst, pk, pv, _⟩ := h1 hf
      rw [Nat.zero_add] at pk pv
      have ek := map_of_pointwise _ _ _ _ pk hk
      have ev := map_of_pointwise _ _ _ _ pv hv
      apply Prod.ext
      · rw [hst]
        simp only [pair_apply]
        rw [ek, ev]
      · exact hf
    | some f =>
      obtain ⟨j, _, hj, ⟨_, pk, pv, _⟩, hb⟩ := h2 f hf
      rw [Nat.zero_add] at hj
      obtain ⟨k, v, k', v', gk, gv, ck, cv⟩ := hd j hj
      have gk' := pk j
      have gv' := pv j
      rw [if_neg (Nat.lt_irrefl j), gk] at gk'
      rw [if_neg (Nat.lt_irrefl j), gv] at gv'
      rw [copy_blocks_layer_of gk' gv' ck cv] at hb
      cases hb
  · intro hf
    obtain ⟨_, _, _, pd⟩ := h1 hf
    intro i hi
    exact pd i (by omega)

/-- Whether a pair is defined on the store is not changed by applying another pair. -/
theorem pair_defined_apply (p q : Nat × Nat) (m : CacheManager) :
    pair_defined q (pair_apply m p) ↔ pair_defined q m := by
  constructor
  · intro h i hi
    obtain ⟨k, v, k', v', gk, gv, ck, cv⟩ := h i hi
    simp only [pair_apply, List.getElem?_map, Option.map_eq_some'] at gk gv
    obtain ⟨k0, gk0, rfl⟩ := gk
    obtain ⟨v0, gv0, rfl⟩ := gv
    obtain ⟨k1, ck1⟩ := tensor_copy_defined_congr (tensor_apply_header p k0).1.symm
      (tensor_apply_header p k0).2.symm ⟨k', ck⟩
    obtain ⟨v1, cv1⟩ := tensor_copy_defined_congr (tensor_apply_header p v0).1.symm
      (tensor_apply_header p v0).2.symm ⟨v', cv⟩
    exact ⟨k0, v0, k1, v1, gk0, gv0, ck1, cv1⟩
  · intro h i hi
    obtain ⟨k, v, k', v', gk, gv, ck, cv⟩ := h i hi
    obtain ⟨k1, ck1⟩ := tensor_copy_defined_congr (tensor_apply_header p k).1
      (tensor_apply_header p k).2 ⟨k', ck⟩
    obtain ⟨v1, cv1⟩ := tensor_copy_defined_congr (tensor_apply_header p v).1
      (tensor_apply_header p v).2 ⟨v', cv⟩
    refine ⟨tensor_apply p k, tensor_apply p v, k1, v1, ?_, ?_, ck1, cv1⟩
    · simp only [pair_apply, List.getElem?_map, gk, Option.map_some']
    · simp only [pair_apply, List.getElem?_map, gv, Option.map_some']

theorem pair_defined_foldl (q : Nat × Nat) (l : List (Nat × Nat)) (m : CacheManager) :
    pair_defined q (l.foldl pair_apply m) ↔ pair_defined q m := by
  induction l generalizing m with
  | nil => exact Iff.rfl
  | cons p rest ih =>
    rw [List.foldl_cons, ih, pair_defined_apply]

theorem pair_apply_bounded (p : Nat × Nat) (m : CacheManager) :
    (pair_apply m p).m_num_decoder_layers = m.m_num_decoder_layers ∧
    (pair_apply m p).m_key_cache.length = m.m_key_cache.length ∧
    (pair_apply m p).m_value_cache.length = m.m_value_cache.length := by
  simp only [pair_apply, List.length_map, and_self]

/-- The loop over the destinations of one source: it completes exactly when every
pair is defined, and then it has applied the pairs in turn. -/
theorem copy_blocks_dsts_spec (s : Nat) (D : List Nat) (m : CacheManager)
    (hk : m.m_key_cache.length ≤ m.m_num_decoder_layers)
    (hv : m.m_value_cache.length ≤ m.m_num_decoder_layers) :
    ((∀ d, d ∈ D → pair_defined (s, d) m) →
      copy_blocks_dsts s D m = ((D.map (fun d => (s, d))).foldl pair_apply m, none)) ∧
    ((copy_blocks_dsts s D m).2 = none → ∀ d, d ∈ D → pair_defined (s, d) m) := by
  induction D generalizing m with
  | nil =>
    exact ⟨fun _ => rfl, fun _ d hd => absurd hd (List.not_mem_nil d)⟩
  | cons d rest ih =>
    obtain ⟨l1, l2⟩ := pair_loop_spec s d m hk hv
    obtain ⟨bl, bk, bv⟩ := pair_apply_bounded (s, d) m
    obtain ⟨i1, i2⟩ := ih (pair_apply m (s, d)) (by rw [bk, bl]; exact hk)
      (by rw [bv, bl]; exact hv)
    constructor
    · intro hd
      have h0 := l1 (hd d (List.mem_cons_self d rest))
      simp only [copy_blocks_dsts, h0, List.map_cons, List.foldl_cons]
      apply i1
      intro d' hd'
      exact (pair_defined_apply (s, d) (s, d') m).mpr (hd d' (List.mem_cons_of_mem d hd'))
    · intro hf d' hd'
      simp only [copy_blocks_dsts] at hf
      cases hl : for_each_layer (copy_blocks_layer s d) m.m_num_decoder_layers 0 m with
      | mk st fault =>
        rw [hl] at hf
        cases fault with
        | some f => simp at hf
        | none =>
          simp only at hf
          have hd0 : pair_defined (s, d) m := l2 (by rw [hl])
          have e := l1 hd0
          rw [hl] at e
          have est : st = pair_apply m (s, d) := congrArg Prod.fst e
          rw [est] at hf
          rcases List.mem_cons.mp hd' with h | h
          · rw [h]
            exact hd0
          · exact (pair_defined_apply (s, d) (s, d') m).mp (i2 hf d' h)

theorem foldl_pair_apply_bounded (l : List (Nat × Nat)) (m : CacheManager) :
    (l.foldl pair_apply m).m_num_decoder_layers = m.m_num_decoder_layers ∧
    (l.foldl pair_apply m).m_key_cache.length = m.m_key_cache.length ∧
    (l.foldl pair_apply m).m_value_cache.length = m.m_value_cache.length := by
  induction l generalizing m with
  | nil => exact ⟨rfl, rfl, rfl⟩
  | cons p rest ih =>
    obtain ⟨a, b, c⟩ := ih (pair_apply m p)
    obtain ⟨a', b', c'⟩ := pair_apply_bounded p m
    rw [List.foldl_cons, a, b, c, a', b', c']
    exact ⟨rfl, rfl, rfl⟩

/-- The method `copy_blocks` as a fold: it completes exactly when every pair of the map
is defined on the store, and then it has applied the pairs in the order of the map. -/
theorem copy_blocks_spec (block_copy_map : List (Nat × List Nat)) (m : CacheManager)
    (hk : m.m_key_cache.length ≤ m.m_num_decoder_layers)
    (hv : m.m_value_cache.length ≤ m.m_num_decoder_layers) :
    ((∀ p, p ∈ copy_pairs block_copy_map → pair_defined p m) →
      m.copy_blocks block_copy_map = ((copy_pairs block_copy_map).foldl pair_apply m, none)) ∧
    ((m.copy_blocks block_copy_map).2 = none →
      ∀ p, p ∈ copy_pairs block_copy_map → pair_defined p m) := by
  induction block_copy_map generalizing m with
  | nil =>
    exact ⟨fun _ => rfl, fun _ p hp => absurd hp (List.not_mem_nil p)⟩
  | cons e rest ih =>
    obtain ⟨s, D⟩ := e
    obtain ⟨l1, l2⟩ := copy_blocks_dsts_spec s D m hk hv
    obtain ⟨bl, bk, bv⟩ := foldl_pair_apply_bounded (D.map (fun d => (s, d))) m
    obtain ⟨i1, i2⟩ := ih ((D.map (fun d => (s, d))).foldl pair_apply m)
      (by rw [bk, bl]; exact hk) (by rw [bv, bl]; exact hv)
    constructor
    · intro hd
      have h0 := l1 (fun d hd' => hd (s, d)
        (List.mem_append_left _ (List.mem_map.mpr ⟨d, hd', rfl⟩)))
      simp only [CacheManager.copy_blocks, h0, copy_pairs, List.foldl_append]
      apply i1
      intro p hp
      exact (pair_defined_foldl p _ m).mpr (hd p (List.mem_append_right _ hp))
    · intro hf p hp
      simp only [CacheManager.copy_blocks] at hf
      cases hl : copy_blocks_dsts s D m with
      | mk st fault =>
        rw [hl] at hf
        cases fault with
        | some f => simp at hf
        | none =>
          simp only at hf
          have hd0 : ∀ d, d ∈ D → pair_defined (s, d) m := l2 (by rw [hl])
          have e := l1 hd0
          rw [hl] at e
          have est : st = (D.map (fun d => (s, d))).foldl pair_apply m := congrArg Prod.fst e
          rw [est] at hf
          simp only [copy_pairs] at hp
          rcases List.mem_append.mp hp with h | h
          · obtain ⟨d, hd, rfl⟩ := List.mem_map.mp h
            exact hd0 d hd
          · exact (pair_defined_foldl p _ m).mp (i2 hf p h)

/-- Reordering the entries of a map reorders its pairs. -/
theorem copy_pairs_perm {a b : List (Nat × List Nat)} (h : a.Perm b) :
    (copy_pairs a).Perm (copy_pairs b) := by
  induction h with
  | nil => exact List.Perm.refl _
  | cons x _ ih =>
    obtain ⟨s, D⟩ := x
    simp only [copy_pairs]
    exact List.Perm.append_left _ ih
  | swap x y l =>
    obtain ⟨s, D⟩ := x
    obtain ⟨s', D'⟩ := y
    simp only [copy_pairs]
    rw [← List.append_assoc, ← List.append_assoc]
    exact List.Perm.append_right _ List.perm_append_comm
  | trans _ _ ih1 ih2 => exact ih1.trans ih2

/-- Applying the entries one call at a time is the single call. -/
theorem one_at_a_time_eq (entries : List (Nat × List Nat)) (m : CacheManager) :
    one_at_a_time m entries = m.copy_blocks entries := by
  unfold one_at_a_time
  induction entries generalizing m with
  | nil => rfl
  | cons e rest ih =>
    obtain ⟨s, D⟩ := e
    rw [List.foldl_cons]
    simp only [CacheManager.copy_blocks]
    cases hl : copy_blocks_dsts s D m with
    | mk st fault =>
      cases fault with
      | none => exact ih st
      | some f =>
        simp only
        clear ih hl
        induction rest with
        | nil => rfl
        | cons e' rest' ih' => rw [List.foldl_cons]; exact ih'

theorem mem_copy_pairs (p : Nat × Nat) (block_copy_map : List (Nat × List Nat)) :
    p ∈ copy_pairs block_copy_map ↔ ∃ e, e ∈ block_copy_map ∧ p.1 = e.1 ∧ p.2 ∈ e.2 := by
  induction block_copy_map with
  | nil => simp [copy_pairs]
  | cons e rest ih =>
    obtain ⟨s, D⟩ := e
    obtain ⟨p1, p2⟩ := p
    simp only [copy_pairs, List.mem_append, List.mem_map, Prod.mk.injEq, ih, List.mem_cons]
    constructor
    · rintro (⟨d, hd, h1, h2⟩ | ⟨e, he, h1, h2⟩)
      · exact ⟨(s, D), Or.inl rfl, h1.symm, by rw [← h2]; exact hd⟩
      · exact ⟨e, Or.inr he, h1, h2⟩
    · rintro ⟨e, he | he, h1, h2⟩
      · rw [he] at h1 h2
        exact Or.inl ⟨p2, h2, h1.symm, rfl⟩
      · exact Or.inr ⟨e, he, h1, h2⟩

/-- Under the two conditions on a copy map any two of its pairs are compatible. -/
theorem pairs_compatible_of (block_copy_map : List (Nat × List Nat))
    (h1 : destinations_not_sources block_copy_map)
    (h2 : destinations_not_shared block_copy_map) (p q : Nat × Nat)
    (hp : p ∈ copy_pairs block_copy_map) (hq : q ∈ copy_pairs block_copy_map) :
    pairs_compatible p q := by
  obtain ⟨e, he, e1, e2⟩ := (mem_copy_pairs p _).mp hp
  obtain ⟨g, hg, g1, g2⟩ := (mem_copy_pairs q _).mp hq
  refine ⟨fun h => ?_, fun h => ?_, fun h => ?_⟩
  · by_contra hne
    exact h1 e he g hg (by rw [← e1, ← g1]; exact hne) (by rw [← g1, ← h]; exact e2)
  · by_contra hne
    exact h1 g hg e he (by rw [← e1, ← g1]; exact hne) (by rw [← e1, ← h]; exact g2)
  · by_contra hne
    exact h2 e he g hg (by rw [← e1, ← g1]; exact hne) p.2 e2 (by rw [h]; exact g2)

theorem foldl_pair_apply_caches (pairs : List (Nat × Nat)) (m : CacheManager) :
    (pairs.foldl pair_apply m).m_key_cache =
      m.m_key_cache.map (fun t => pairs.foldl (fun u p => tensor_apply p u) t) ∧
    (pairs.foldl pair_apply m).m_value_cache =
      m.m_value_cache.map (fun t => pairs.foldl (fun u p => tensor_apply p u) t) := by
  induction pairs generalizing m with
  | nil => simp
  | cons p rest ih =>
    obtain ⟨h1, h2⟩ := ih (pair_apply m p)
    rw [List.foldl_cons, h1, h2]
    simp only [pair_apply, List.map_map, List.foldl_cons]
    exact ⟨rfl, rfl⟩

/-- On a host buffer the pairs applied in turn are byte copies at the stride of the
buffer. -/
theorem foldl_tensor_apply_host (pairs : List (Nat × Nat)) (t : Tensor)
    (hhost : t.remote = false) :
    pairs.foldl (fun u p => tensor_apply p u) t = copy_pairs_on pairs t := by
  unfold copy_pairs_on
  cases hs : block_stride t with
  | error f =>
    simp only
    induction pairs with
    | nil => rfl
    | cons p rest ih =>
      rw [List.foldl_cons, tensor_apply_eq, hs]
      exact ih
  | ok stride =>
    simp only
    induction pairs generalizing t with
    | nil => rfl
    | cons p rest ih =>
      have e : tensor_apply p t = { t with data := offset_copy stride p t.data } := by
        rw [tensor_apply_eq, hs]
        simp only [hhost, Bool.false_eq_true, if_false]
      have h := ih { t with data := offset_copy stride p t.data } hhost (by rw [← hs]; rfl)
      rw [List.foldl_cons, e, h, List.foldl_cons]

/-- On a remote buffer the pairs applied in turn leave the buffer as it is. -/
theorem foldl_tensor_apply_remote (pairs : List (Nat × Nat)) (t : Tensor)
    (hremote : t.remote = true) :
    pairs.foldl (fun u p => tensor_apply p u) t = t := by
  induction pairs with
  | nil => rfl
  | cons p rest ih =>
    have e : tensor_apply p t = t := by
      rw [tensor_apply_eq]
      cases block_stride t with
      | error f => rfl
      | ok stride => simp only [hremote, if_true]
    rw [List.foldl_cons, e]
    exact ih

/-- The state after the pairs of a list have been applied in turn: every buffer has
had the pairs applied in turn, nothing else has changed. -/
theorem foldl_pair_apply_eq (pairs : List (Nat × Nat)) (m : CacheManager) :
    pairs.foldl pair_apply m =
      { m with
        m_key_cache := m.m_key_cache.map (fun t => pairs.foldl (fun u p => tensor_apply p u) t)
        m_value_cache :=
          m.m_value_cache.map (fun t => pairs.foldl (fun u p => tensor_apply p u) t) } := by
  induction pairs generalizing m with
  | nil => simp
  | cons p rest ih =>
    rw [List.foldl_cons, ih (pair_apply m p)]
    simp only [pair_apply, List.map_map, List.foldl_cons]
    rfl

/-- On one buffer, reordering pairs that are pairwise compatible and whose offsets do
not leave the range of `size_t` does not change the result of applying them in turn. -/
theorem foldl_tensor_apply_perm {a b : List (Nat × Nat)} (hp : a.Perm b) (t : Tensor)
    (hc : ∀ x, x ∈ a → ∀ y, y ∈ a → pairs_compatible x y)
    (hx : t.remote = false → ∀ stride, block_stride t = .ok stride →
      ∀ p, p ∈ a → p.1 * stride < 2 ^ 64 ∧ p.2 * stride < 2 ^ 64) :
    a.foldl (fun u p => tensor_apply p u) t = b.foldl (fun u p => tensor_apply p u) t := by
  cases hr : t.remote with
  | true => rw [foldl_tensor_apply_remote a t hr, foldl_tensor_apply_remote b t hr]
  | false =>
    rw [foldl_tensor_apply_host a t hr, foldl_tensor_apply_host b t hr]
    unfold copy_pairs_on
    cases hs : block_stride t with
    | error f => rfl
    | ok stride =>
      simp only
      have ha : a.foldl (fun data p => offset_copy stride p data) t.data =
          a.foldl (fun data p => byte_copy stride p data) t.data :=
        List.foldl_ext _ _ _ (fun x p hpa =>
          offset_copy_exact stride p x (hx hr stride hs p hpa).1 (hx hr stride hs p hpa).2)
      have hb : b.foldl (fun data p => offset_copy stride p data) t.data =
          b.foldl (fun data p => byte_copy stride p data) t.data :=
        List.foldl_ext _ _ _ (fun x p hpb =>
          offset_copy_exact stride p x (hx hr stride hs p (hp.symm.subset hpb)).1
            (hx hr stride hs p (hp.symm.subset hpb)).2)
      have hperm : a.foldl (fun data p => byte_copy stride p data) t.data =
          b.foldl (fun data p => byte_copy stride p data) t.data :=
        List.Perm.foldl_eq' hp
          (fun x hxa y hya z => byte_copy_comm stride x y (hc x hxa y hya) z) t.data
      rw [ha, hb, hperm]

/-! ### Claim on the order of the entries of a copy map -/

set_option maxRecDepth 20000 in
/-- C18 (as stated, refuted): the stated precondition does not make the result
independent of the order of the entries. (1) On the host manager grown to four blocks
(two-byte blocks, byte `i` holding `i`), the map `1 -> [3], 2 -> [3]` has distinct
sources in ascending order and no destination that is a source at all, yet one call
leaves block 3 holding the content of block 2, while its entries applied one at a
time in the other order leave block 3 holding the content of block 1. (2) With
destinations shared by two sources excluded as well, on the same store grown to six
blocks the map `0 -> [5], 1 -> [2^63]` is still order dependent: the offset
`2^63 * 2` is computed in `size_t` and is 0, the offset of block 0, so one call
leaves block 5 holding the old content of block 0 and the other order leaves it
holding the content of block 1. -/
theorem C18_order_independence_counterexample :
    (¬ ∀ (request : InferRequest) (m : CacheManager) (a b : List (Nat × List Nat)),
      Reachable request m → a.Perm b →
      (a.map Prod.fst).Pairwise (fun x y => x < y) →
      (∀ e1, e1 ∈ a → ∀ e2, e2 ∈ a → e2.1 ∉ e1.2) →
      (m.copy_blocks a).2 = none →
      one_at_a_time m b = m.copy_blocks a) ∧
    (¬ ∀ (request : InferRequest) (m : CacheManager) (a b : List (Nat × List Nat)),
      Reachable request m → a.Perm b →
      (a.map Prod.fst).Pairwise (fun x y => x < y) →
      (∀ e1, e1 ∈ a → ∀ e2, e2 ∈ a → e2.1 ∉ e1.2) →
      destinations_not_shared a →
      (m.copy_blocks a).2 = none →
      one_at_a_time m b = m.copy_blocks a) := by
  constructor
  · intro hall
    have hr : Reachable host_request host_manager_4 :=
      Reachable.grow _ _ _ (Reachable.construct _ rfl) rfl
    have h := hall host_request host_manager_4 [(1, [3]), (2, [3])] [(2, [3]), (1, [3])] hr
      (List.Perm.swap _ _ _) (by decide) (by decide) (by rfl)
    have hd := congrArg (fun r => r.1.m_key_cache.map Tensor.data) h
    exact absurd hd (by decide)
  · intro hall
    have hr : Reachable host_request host_manager_6 :=
      Reachable.grow _ _ _ (Reachable.construct _ rfl) rfl
    have h := hall host_request host_manager_6 [(0, [5]), (1, [2 ^ 63])]
      [(1, [2 ^ 63]), (0, [5])] hr (List.Perm.swap _ _ _) (by decide) (by decide) (by decide)
      (by rfl)
    have hd := congrArg (fun r => r.1.m_key_cache.map Tensor.data) h
    exact absurd hd (by decide)

/-- C18 (amended): on a reachable state, for a copy map that satisfies the stated
precondition (no destination of one entry is the source of another entry), in which
no block id is a destination of two entries with different sources and whose block
offsets `id * stride` stay below `2^64` in every host buffer, a call that completes
without fault gives the same result whatever order the entries are processed in, and
applying the entries one call at a time in any order gives the result of the single
call. -/
theorem C18_order_independence (request : InferRequest) (m : CacheManager)
    (a b : List (Nat × List Nat)) (hr : Reachable request m) (hp : a.Perm b)
    (h1 : destinations_not_sources a) (h2 : destinations_not_shared a)
    (h3 : offsets_exact m a) (hf : (m.copy_blocks a).2 = none) :
    m.copy_blocks b = m.copy_blocks a ∧ one_at_a_time m b = m.copy_blocks a := by
  obtain ⟨⟨hl, hk, _⟩, _⟩ := reachable_invariant hr
  have hv : m.m_value_cache.length ≤ m.m_num_decoder_layers := by
    rw [← hl]
    exact hk
  obtain ⟨a1, a2⟩ := copy_blocks_spec a m hk hv
  obtain ⟨b1, _⟩ := copy_blocks_spec b m hk hv
  have hd := a2 hf
  have pp := copy_pairs_perm hp
  have ea := a1 hd
  have eb := b1 (fun p hp' => hd p (pp.symm.subset hp'))
  have hbuf : ∀ t, t ∈ m.m_key_cache ∨ t ∈ m.m_value_cache →
      (copy_pairs a).foldl (fun u p => tensor_apply p u) t =
        (copy_pairs b).foldl (fun u p => tensor_apply p u) t :=
    fun t ht => foldl_tensor_apply_perm pp t
      (fun x hx y hy => pairs_compatible_of a h1 h2 x y hx hy) (h3 t ht)
  have fold : (copy_pairs a).foldl pair_apply m = (copy_pairs b).foldl pair_apply m := by
    rw [foldl_pair_apply_eq (copy_pairs a) m, foldl_pair_apply_eq (copy_pairs b) m]
    have ek : m.m_key_cache.map (fun t => (copy_pairs a).foldl (fun u p => tensor_apply p u) t) =
        m.m_key_cache.map (fun t => (copy_pairs b).foldl (fun u p => tensor_apply p u) t) :=
      List.map_congr_left (fun t ht => hbuf t (Or.inl ht))
    have ev : m.m_value_cache.map
          (fun t => (copy_pairs a).foldl (fun u p => tensor_apply p u) t) =
        m.m_value_cache.map (fun t => (copy_pairs b).foldl (fun u p => tensor_apply p u) t) :=
      List.map_congr_left (fun t ht => hbuf t (Or.inr ht))
    rw [ek, ev]
  have e : m.copy_blocks b = m.copy_blocks a := by
    rw [ea, eb, fold]
  exact ⟨e, by rw [one_at_a_time_eq, e]⟩

set_option maxRecDepth 20000 in
/-- Witness of C18: on the host manager grown to four blocks the map `0 -> [2],
1 -> [3]` and its entries in the other order. -/
theorem C18_order_independence_witness :
    Reachable host_request host_manager_4 ∧
    List.Perm [(0, [2]), (1, [3])] [(1, [3]), (0, [2])] ∧
    destinations_not_sources [(0, [2]), (1, [3])] ∧
    destinations_not_shared [(0, [2]), (1, [3])] ∧
    offsets_exact host_manager_4 [(0, [2]), (1, [3])] ∧
    (host_manager_4.copy_blocks [(0, [2]), (1, [3])]).2 = none ∧
    host_manager_4.copy_blocks [(1, [3]), (0, [2])] =
      host_manager_4.copy_blocks [(0, [2]), (1, [3])] ∧
    one_at_a_time host_manager_4 [(1, [3]), (0, [2])] =
      host_manager_4.copy_blocks [(0, [2]), (1, [3])] :=
  have hr : Reachable host_request host_manager_4 :=
    Reachable.grow _ _ _ (Reachable.construct _ rfl) rfl
  have hx : offsets_exact host_manager_4 [(0, [2]), (1, [3])] := by
    intro t ht _ stride hs p hp
    have hstride : stride = 2 := by
      have hmem : t ∈ host_manager_4.m_key_cache ++ host_manager_4.m_value_cache :=
        List.mem_append.mpr ht
      have hmap : (host_manager_4.m_key_cache ++ host_manager_4.m_value_cache).map
          block_stride = [.ok 2, .ok 2, .ok 2, .ok 2] := by rfl
      have hin := List.mem_map_of_mem block_stride hmem
      rw [hmap, hs] at hin
      simp only [List.mem_cons, Except.ok.injEq, List.mem_singleton, or_self,
        List.not_mem_nil, or_false] at hin
      exact hin
    subst hstride
    have hpairs : ∀ q, q ∈ copy_pairs [(0, [2]), (1, [3])] →
        q.1 * 2 < 2 ^ 64 ∧ q.2 * 2 < 2 ^ 64 := by decide
    exact hpairs p hp
  ⟨hr, List.Perm.swap _ _ _, by decide, by decide, hx, by rfl,
    C18_order_independence host_request host_manager_4 [(0, [2]), (1, [3])]
      [(1, [3]), (0, [2])] hr (List.Perm.swap _ _ _) (by decide) (by decide) hx (by rfl)⟩

/-! ### Byte ranges of a block copy -/

set_option maxRecDepth 8000 in
/-- C21 (the code at the failing input): on a host store of `nf4` caches
`[?, 1, 1, 2]` reached by a growth to two blocks, each buffer is two bytes long but
the stride computed by `copy_blocks` is 2 (the element count, not divided by the
packing of the 4-bit type), so for the map `0 -> [1]`, whose ids are below the block
count, the destination range `[2, 4)` leaves the buffer. On the same store before
any growth the layer lookup of that map is past the end of the empty buffer list. -/
theorem C21_copy_blocks_out_of_bounds :
    Reachable nf4_request nf4_manager_2 ∧
    nf4_manager_2.m_num_allocated_kv_blocks = 2 ∧
    nf4_manager_2.m_key_cache.map (fun t => (t.remote, t.element_type, t.shape, t.data.length)) =
      [(false, .nf4, [2, 1, 1, 2], 2)] ∧
    nf4_manager_2.m_key_cache.map block_stride = [.ok 2] ∧
    nf4_manager_2.m_key_cache.map (fun t => memcpy t.data (1 * 2) t.data (0 * 2) 2) = [none] ∧
    (nf4_manager_2.copy_blocks [(0, [1])]).2 = some .out_of_bounds ∧
    (constructed nf4_request empty_manager).m_key_cache = [] ∧
    ((constructed nf4_request empty_manager).copy_blocks [(0, [1])]).2 = some .out_of_range :=
  ⟨Reachable.grow _ _ _ (Reachable.construct _ rfl) rfl, rfl, rfl, rfl, rfl, rfl, rfl, rfl⟩

/-! ### Device class and block copy -/

/-- In every reachable state the manager holds a device context exactly when every
execution device is an accelerator. -/
theorem reachable_context {request : InferRequest} {m : CacheManager}
    (hr : Reachable request m) :
    m.m_context = all_gpu request.compiled_model.execution_devices := by
  obtain ⟨_, m0, hc, hg⟩ := reachable_invariant hr
  obtain ⟨device, s0, s1, _, hs0, hrec, hm, _⟩ := construct_ok hc
  have hfix := record_inputs_fixed hrec
  have e1 : m.m_context = m0.m_context := by
    simp only [CacheManager.geometry, Prod.mk.injEq] at hg
    exact hg.1.2.2.1
  have e2 : m0.m_context = s1.m_context := by rw [hm]
  have e3 : s1.m_context = s0.m_context := by rw [hfix]
  rw [e1, e2, e3, hs0]

/-- In every reachable state every buffer of the store is remote exactly when the
manager holds a device context. -/
theorem reachable_locality {request : InferRequest} {m : CacheManager}
    (hr : Reachable request m) (t : Tensor) (ht : t ∈ m.m_key_cache ∨ t ∈ m.m_value_cache) :
    t.remote = m.m_context := by
  obtain ⟨⟨hlen, _, hsh⟩, _⟩ := reachable_invariant hr
  rcases ht with h | h
  · obtain ⟨i, hi, hget⟩ := List.getElem_of_mem h
    obtain ⟨k, v, hk, _, _, _, _, _, hkr, _⟩ := hsh i hi
    rw [List.getElem?_eq_getElem hi, hget] at hk
    cases hk
    exact hkr
  · obtain ⟨i, hi, hget⟩ := List.getElem_of_mem h
    obtain ⟨k, v, _, hv, _, _, _, _, _, hvr⟩ := hsh i (by rw [hlen]; exact hi)
    rw [List.getElem?_eq_getElem hi, hget] at hv
    cases hv
    exact hvr

/-- In every reachable state the stride of `copy_blocks` is defined on every buffer. -/
theorem reachable_stride {request : InferRequest} {m : CacheManager}
    (hr : Reachable request m) (t : Tensor) (ht : t ∈ m.m_key_cache ∨ t ∈ m.m_value_cache) :
    ∃ stride, block_stride t = .ok stride := by
  obtain ⟨⟨hlen, _, hsh⟩, _⟩ := reachable_invariant hr
  have key : ∀ (ps : PartialShape) (n : Nat) (u : Tensor), set_kv_blocks ps n = .ok u.shape →
      ∃ stride, block_stride u = .ok stride := by
    intro ps n u hs
    obtain ⟨_, _, _, hshape⟩ := (set_kv_blocks_ok _ _ _).mp hs
    unfold block_stride
    cases hu : u.shape with
    | nil => rw [hu] at hshape; simp at hshape
    | cons b rest => exact ⟨_, rfl⟩
  rcases ht with h | h
  · obtain ⟨i, hi, hget⟩ := List.getElem_of_mem h
    obtain ⟨k, v, hk, _, ⟨ps, _, hks⟩, _, _, _, _, _⟩ := hsh i hi
    rw [List.getElem?_eq_getElem hi, hget] at hk
    cases hk
    exact key ps _ t hks
  · obtain ⟨i, hi, hget⟩ := List.getElem_of_mem h
    obtain ⟨k, v, _, hv, _, ⟨ps, _, hvs⟩, _, _, _, _⟩ := hsh i (by rw [hlen]; exact hi)
    rw [List.getElem?_eq_getElem hi, hget] at hv
    cases hv
    exact key ps _ t hvs

/-- On a store without buffers `copy_blocks` leaves the store without buffers. -/
theorem copy_blocks_empty_store (m : CacheManager) (block_copy_map : List (Nat × List Nat))
    (hk : m.m_key_cache = []) (hv : m.m_value_cache = []) :
    (m.copy_blocks block_copy_map).1.m_key_cache = m.m_key_cache ∧
    (m.copy_blocks block_copy_map).1.m_value_cache = m.m_value_cache := by
  obtain ⟨_, h1, h2⟩ := copy_blocks_frame m block_copy_map
  rw [hk] at h1 ⊢
  rw [hv] at h2 ⊢
  exact ⟨List.map_eq_nil_iff.mp h1, List.map_eq_nil_iff.mp h2⟩

/-- A copy that is defined on a host buffer reads and writes inside the buffer. -/
theorem tensor_copy_bounds {s d stride : Nat} {t t' : Tensor}
    (h : tensor_copy s d t = .ok t') (hhost : t.remote = false)
    (hs : block_stride t = .ok stride) :
    (s * stride) % 2 ^ 64 + stride ≤ t.data.length ∧
    (d * stride) % 2 ^ 64 + stride ≤ t.data.length := by
  obtain ⟨stride', hs', hc⟩ := tensor_copy_parts h
  rw [hs] at hs'
  have e : stride' = stride := (Except.ok.inj hs').symm
  subst e
  simp only [copy_one_block, hhost, Bool.or_self, Bool.not_false, if_true] at hc
  cases hm : memcpy t.data ((d * stride') % 2 ^ 64) t.data ((s * stride') % 2 ^ 64)
      stride' with
  | none => rw [hm] at hc; simp at hc
  | some r =>
    obtain ⟨b1, b2, _, _⟩ := memcpy_spec hm
    exact ⟨b1, b2⟩

/-- C22: in every reachable state, (1) when every execution device is an accelerator
(its identifier contains "GPU"), every buffer of the store is a remote tensor and,
for every copy map, `copy_blocks` leaves every key and value buffer as it is; (2)
when the device set is a single device that is not an accelerator, every buffer of
the store is a host tensor and the copy is performed: after a call that completes
without fault every buffer holds the result of the byte copies of all pairs of the
map, in the order of the map, each of one stride from the source offset to the
destination offset (`id * stride` computed in `size_t`) inside the buffer. -/
theorem C22_device_class_copy (request : InferRequest) (m : CacheManager)
    (hr : Reachable request m) (block_copy_map : List (Nat × List Nat)) :
    (all_gpu request.compiled_model.execution_devices = true →
      (∀ t, t ∈ m.m_key_cache ∨ t ∈ m.m_value_cache → t.remote = true) ∧
      (m.copy_blocks block_copy_map).1.m_key_cache = m.m_key_cache ∧
      (m.copy_blocks block_copy_map).1.m_value_cache = m.m_value_cache) ∧
    (∀ device, request.compiled_model.execution_devices = [device] →
      contains_substr "GPU".data device.data = false →
      (∀ t, t ∈ m.m_key_cache ∨ t ∈ m.m_value_cache → t.remote = false) ∧
      ((m.copy_blocks block_copy_map).2 = none →
        (∀ t, t ∈ m.m_key_cache ∨ t ∈ m.m_value_cache →
          ∃ stride, block_stride t = .ok stride ∧
            ∀ p, p ∈ copy_pairs block_copy_map →
              (p.1 * stride) % 2 ^ 64 + stride ≤ t.data.length ∧
              (p.2 * stride) % 2 ^ 64 + stride ≤ t.data.length) ∧
        (m.copy_blocks block_copy_map).1.m_key_cache =
          m.m_key_cache.map (copy_pairs_on (copy_pairs block_copy_map)) ∧
        (m.copy_blocks block_copy_map).1.m_value_cache =
          m.m_value_cache.map (copy_pairs_on (copy_pairs block_copy_map)))) := by
  have hctx := reachable_context hr
  obtain ⟨⟨hlen, hkL, _⟩, _⟩ := reachable_invariant hr
  have hvL : m.m_value_cache.length ≤ m.m_num_decoder_layers := by
    rw [← hlen]
    exact hkL
  constructor
  · intro hgpu
    rw [hgpu] at hctx
    refine ⟨fun t ht => by rw [reachable_locality hr t ht, hctx], ?_⟩
    by_cases hstore : m.m_key_cache = []
    · have hv : m.m_value_cache = [] := by
        apply List.length_eq_zero.mp
        rw [← hlen, hstore]
        rfl
      exact copy_blocks_empty_store m block_copy_map hstore hv
    · rw [copy_blocks_remote_store hr hctx hstore block_copy_map]
      exact ⟨rfl, rfl⟩
  · intro device hdev hacc
    have hhostctx : m.m_context = false := by
      rw [hctx, hdev]
      simp only [all_gpu, List.all_cons, List.all_nil, Bool.and_true]
      exact hacc
    have hhost : ∀ t, t ∈ m.m_key_cache ∨ t ∈ m.m_value_cache → t.remote = false :=
      fun t ht => by rw [reachable_locality hr t ht, hhostctx]
    refine ⟨hhost, fun hf => ?_⟩
    obtain ⟨a1, a2⟩ := copy_blocks_spec block_copy_map m hkL hvL
    have hd := a2 hf
    have e := a1 hd
    obtain ⟨f1, f2⟩ := foldl_pair_apply_caches (copy_pairs block_copy_map) m
    refine ⟨?_, ?_, ?_⟩
    · intro t ht
      obtain ⟨stride, hs⟩ := reachable_stride hr t ht
      refine ⟨stride, hs, fun p hp => ?_⟩
      rcases ht with h | h
      · obtain ⟨i, hi, hget⟩ := List.getElem_of_mem h
        obtain ⟨k, v, k', v', gk, _, ck, _⟩ := hd p hp i (by omega)
        rw [List.getElem?_eq_getElem hi, hget] at gk
        cases gk
        exact tensor_copy_bounds ck (hhost t (Or.inl h)) hs
      · obtain ⟨i, hi, hget⟩ := List.getElem_of_mem h
        obtain ⟨k, v, k', v', _, gv, _, cv⟩ := hd p hp i (by omega)
        rw [List.getElem?_eq_getElem hi, hget] at gv
        cases gv
        exact tensor_copy_bounds cv (hhost t (Or.inr h)) hs
    · rw [e]
      simp only
      rw [f1]
      apply List.map_congr_left
      intro t ht
      exact foldl_tensor_apply_host _ t (hhost t (Or.inl ht))
    · rw [e]
      simp only
      rw [f2]
      apply List.map_congr_left
      intro t ht
      exact foldl_tensor_apply_host _ t (hhost t (Or.inr ht))

set_option maxRecDepth 20000 in
/-- Witness of C22: the scenario manager (device set `["GPU"]`) grown to four blocks
keeps its buffers under the map `1 -> [2, 3]`; the host manager (device set
`["CPU"]`) grown to four blocks, with byte `i` of each buffer holding `i`, ends with
the bytes of block 1 in blocks 2 and 3, and under the map `1 -> [2^63]`, whose
destination offset `2^63 * 2` is 0 in `size_t`, with the bytes of block 1 in block 0. -/
theorem C22_device_class_copy_witness :
    (Reachable scenario_request (scenario_manager.allocate_cache_if_needed zero_allocator 4).1 ∧
      all_gpu scenario_request.compiled_model.execution_devices = true ∧
      ((scenario_manager.allocate_cache_if_needed zero_allocator 4).1.copy_blocks
          [(1, [2, 3])]).1.m_key_cache =
        (scenario_manager.allocate_cache_if_needed zero_allocator 4).1.m_key_cache) ∧
    (Reachable host_request host_manager_4 ∧
      host_request.compiled_model.execution_devices = ["CPU"] ∧
      contains_substr "GPU".data "CPU".data = false ∧
      (host_manager_4.copy_blocks [(1, [2, 3])]).2 = none ∧
      (host_manager_4.copy_blocks [(1, [2, 3])]).1.m_key_cache =
        host_manager_4.m_key_cache.map (copy_pairs_on (copy_pairs [(1, [2, 3])])) ∧
      (host_manager_4.m_key_cache.map (copy_pairs_on (copy_pairs [(1, [2, 3])]))).map
          Tensor.data = [[0, 1, 2, 3, 2, 3, 2, 3], [0, 1, 2, 3, 2, 3, 2, 3]] ∧
      (host_manager_4.copy_blocks [(1, [2 ^ 63])]).2 = none ∧
      (host_manager_4.copy_blocks [(1, [2 ^ 63])]).1.m_key_cache =
        host_manager_4.m_key_cache.map (copy_pairs_on (copy_pairs [(1, [2 ^ 63])])) ∧
      (host_manager_4.m_key_cache.map (copy_pairs_on (copy_pairs [(1, [2 ^ 63])]))).map
          Tensor.data = [[2, 3, 2, 3, 4, 5, 6, 7], [2, 3, 2, 3, 4, 5, 6, 7]]) :=
  have hg : Reachable scenario_request
      (scenario_manager.allocate_cache_if_needed zero_allocator 4).1 :=
    Reachable.grow _ _ _ (Reachable.construct _ rfl) rfl
  have hh : Reachable host_request host_manager_4 :=
    Reachable.grow _ _ _ (Reachable.construct _ rfl) rfl
  ⟨⟨hg, by decide,
      ((C22_device_class_copy scenario_request _ hg [(1, [2, 3])]).1 (by decide)).2.1⟩,
    ⟨hh, rfl, by decide, by rfl,
      (((C22_device_class_copy host_request host_manager_4 hh [(1, [2, 3])]).2 "CPU" rfl
        (by decide)).2 (by rfl)).2.1, by rfl, by rfl,
      (((C22_device_class_copy host_request host_manager_4 hh [(1, [2 ^ 63])]).2 "CPU" rfl
        (by decide)).2 (by rfl)).2.1, by rfl⟩⟩

/-! ### Shape inference of Multinomial -/

theorem read_le_lt (bytes : List Nat) : read_le bytes < 256 ^ bytes.length := by
  induction bytes with
  | nil => simp [read_le]
  | cons b rest ih =>
    simp only [read_le, List.length_cons, pow_succ]
    have hb : b % 256 < 256 := Nat.mod_lt _ (by norm_num)
    omega

/-- The value read for `num_samples` is in the range of `int64_t`. -/
theorem read_num_samples_range {mem : Memory} {n : Int} (h : read_num_samples mem = .ok n) :
    -(2 ^ 63) ≤ n ∧ n < 2 ^ 63 := by
  unfold read_num_samples at h
  split at h
  · unfold read_int32 at h
    split at h
    · rename_i hlen
      have hb := read_le_lt (mem.data.take 4)
      rw [List.length_take, Nat.min_eq_left hlen] at hb
      simp only [Except.ok.injEq] at h
      split at h <;> omega
    · simp at h
  · unfold read_int64 at h
    split at h
    · rename_i hlen
      have hb := read_le_lt (mem.data.take 8)
      rw [List.length_take, Nat.min_eq_left hlen] at hb
      simp only [Except.ok.injEq] at h
      split at h <;> omega
    · simp at h

/-- Conversion to `size_t` keeps a non-negative `int64_t` and adds `2 ^ 64` to a
negative one. -/
theorem to_size_t_int64 (n : Int) (h1 : -(2 ^ 63) ≤ n) (h2 : n < 2 ^ 63) :
    (0 ≤ n → (to_size_t n : Int) = n) ∧ (n < 0 → (to_size_t n : Int) = n + 2 ^ 64) := by
  unfold to_size_t
  have hnn : 0 ≤ n % (2 ^ 64 : Int) := Int.emod_nonneg _ (by norm_num)
  rw [Int.toNat_of_nonneg hnn]
  constructor <;> intro h <;> omega

/-- C23 (as stated, refuted): the output dimension is not the value read when that
value is negative. For a first input of shape `[3]` and an `I32` memory holding the
bytes `ff ff ff ff`, the value read is `-1` and the one output shape is
`[18446744073709551615]`. -/
theorem C23_multinomial_shape_counterexample :
    ¬ ∀ (input_shape : VectorDims) (rest : List VectorDims)
        (data_dependency : List (Nat × Memory)) (mem : Memory) (n : Int),
      data_dependency.lookup 0 = some mem → read_num_samples mem = .ok n →
      ∃ r, MultinomialShapeInfer.infer (input_shape :: rest) data_dependency = .ok r ∧
        r.status = .success ∧
        r.dims.map (fun shape => shape.map Int.ofNat) =
          [if input_shape.length = 2 then [Int.ofNat (input_shape.headD 0), n] else [n]] := by
  intro hall
  obtain ⟨r, hr, _, hd⟩ := hall [3] [] [(0, { precision := .I32, data := [255, 255, 255, 255] })]
    { precision := .I32, data := [255, 255, 255, 255] } (-1) (by rfl) (by rfl)
  have he : MultinomialShapeInfer.infer [[3]]
      [(0, { precision := .I32, data := [255, 255, 255, 255] })] =
      .ok { dims := [[18446744073709551615]], status := .success } := by rfl
  rw [he] at hr
  cases hr
  revert hd
  decide

/-- C23 (amended): for every first input shape and every value `n` read from data
dependency 0 (as `int32_t` when its precision is `I32`, otherwise as `int64_t`),
`infer` returns status success and exactly one output shape, which is
`[batch, n']` with `batch = input_shape[0]` when the input has rank 2 and `[n']` for
every other rank, where `n'` is `n` converted to `size_t`: `n` itself when `n` is
not negative, `n + 2 ^ 64` when it is. -/
theorem C23_multinomial_shape (input_shape : VectorDims) (rest : List VectorDims)
    (data_dependency : List (Nat × Memory)) (mem : Memory) (n : Int)
    (hdep : data_dependency.lookup 0 = some mem) (hread : read_num_samples mem = .ok n) :
    (∀ batch other, input_shape = [batch, other] →
      MultinomialShapeInfer.infer (input_shape :: rest) data_dependency =
        .ok { dims := [[batch, to_size_t n]], status := .success }) ∧
    (input_shape.length ≠ 2 →
      MultinomialShapeInfer.infer (input_shape :: rest) data_dependency =
        .ok { dims := [[to_size_t n]], status := .success }) ∧
    (0 ≤ n → (to_size_t n : Int) = n) ∧
    (n < 0 → (to_size_t n : Int) = n + 2 ^ 64) := by
  obtain ⟨r1, r2⟩ := read_num_samples_range hread
  have hnum : (if mem.precision = .I32 then (read_int32 mem.data).map to_size_t
      else (read_int64 mem.data).map to_size_t) = .ok (to_size_t n) := by
    unfold read_num_samples at hread
    by_cases hp : mem.precision = .I32
    · rw [if_pos hp] at hread ⊢
      rw [hread]
      rfl
    · rw [if_neg hp] at hread ⊢
      rw [hread]
      rfl
  have hhead : vector_at (input_shape :: rest) 0 = .ok input_shape :=
    (vector_at_ok _ _ _).mpr (List.getElem?_cons_zero)
  have hmem : unordered_map_at data_dependency 0 = .ok mem := by
    unfold unordered_map_at
    rw [hdep]
  refine ⟨?_, ?_, (to_size_t_int64 n r1 r2).1, (to_size_t_int64 n r1 r2).2⟩
  · intro batch other hshape
    subst hshape
    simp only [MultinomialShapeInfer.infer, bind, Except.bind, hhead, hmem, hnum]
    rfl
  · intro hrank
    simp only [MultinomialShapeInfer.infer, bind, Except.bind, hhead, hmem, hnum, if_neg hrank]
    rfl

/-- Witness of C23: a first input of shape `[5, 7]` with an `I64` memory holding 10
gives the one output shape `[5, 10]`. -/
theorem C23_multinomial_shape_witness :
    List.lookup 0 [(0, ({ precision := .I64, data := [10, 0, 0, 0, 0, 0, 0, 0] } : Memory))] =
      some { precision := .I64, data := [10, 0, 0, 0, 0, 0, 0, 0] } ∧
    read_num_samples { precision := .I64, data := [10, 0, 0, 0, 0, 0, 0, 0] } = .ok 10 ∧
    MultinomialShapeInfer.infer [[5, 7]]
        [(0, { precision := .I64, data := [10, 0, 0, 0, 0, 0, 0, 0] })] =
      .ok { dims := [[5, 10]], status := .success } :=
  ⟨by rfl, by rfl,
    (C23_multinomial_shape [5, 7] [] [(0, { precision := .I64, data := [10, 0, 0, 0, 0, 0, 0, 0] })]
      { precision := .I64, data := [10, 0, 0, 0, 0, 0, 0, 0] } 10 (by rfl) (by rfl)).1 5 7 rfl⟩
